import Mathlib

/-!
# Verification of the simple-nonogram-solver repository

Shallow embedding of the TypeScript sources:

* `SegmentWorker` — the worker-side line solver (`src/workers/SegmentWorker.ts`):
  quick rejection, memoized feasibility search `canPlaceHints`, and the
  forced-cell probe loop `resolveSequence`.  The memo cache is semantically
  transparent (it caches a pure function), so the embedding omits it.
* `NonogramSolver` — the synchronous solver (`src/NonogramSolver.ts`):
  `generatePermutations`, the intersection-based `resolveSequence`, and the
  fixpoint loop `solveNonogram`.  The unbounded `while (hasChanged)` loop is
  embedded with explicit fuel; a theorem below shows `height*width + 1`
  iterations always suffice, so the fuel never runs out on the chosen bound.
* `AsyncSolver` — the pool-based solver (an unnamed source file of the
  repository): per-iteration row batch, column batch over the transposed
  grid, stall detection, and the iteration cap.  Each worker task is a pure
  call of the worker line solver and batches are awaited in submission
  order, so the batch is embedded as an in-order sequence of calls.
* `SegmentWorkerPool` — the bookkeeping of the worker pool
  (`src/SegmentWorkerPool.ts`) as a state machine over busy flags, a task
  queue, and the configured maximum.

Cells are embedded as `Nat` with the source encoding
0 = unknown, 1 = empty, 2 = filled.
-/

namespace SegmentWorker

/-- `getMinSpaceNeeded` from `SegmentWorker.ts`:
`hints.reduce((sum, hint) => sum + hint, 0) + Math.max(0, hints.length - 1)`
(`Nat` subtraction already truncates at zero). -/
def getMinSpaceNeeded (hints : List Nat) : Nat :=
  hints.sum + (hints.length - 1)

/-- `canPlaceBlock` from `SegmentWorker.ts`: the block `[start, start+len)`
fits in the segment, the cells just before and just after it (when they
exist) are not filled, and no cell of the block is marked empty. -/
def canPlaceBlock (segment : List Nat) (start len : Nat) : Bool :=
  decide (start + len ≤ segment.length) &&
  (start == 0 || segment.getD (start - 1) 0 != 2) &&
  (decide (segment.length ≤ start + len) || segment.getD (start + len) 0 != 2) &&
  (List.range len).all (fun i => segment.getD (start + i) 0 != 1)

/-- The scanning loop of `canPlaceHints`: try to place the current block at
`i`, recurse (through `canPlaceRemaining`, the call
`canPlaceHints(remainingHints, segment, ·)` of the source) on the remaining
hints after a one-cell gap, and stop scanning past an already-filled cell
(`if (segment[i] === 2) break`).  `fuel` counts the remaining candidate
positions of the `for` loop. -/
def cphScan (segment : List Nat) (currentHint : Nat) (canPlaceRemaining : Nat → Bool) :
    Nat → Nat → Bool
  | _, 0 => false
  | i, fuel + 1 =>
      if canPlaceBlock segment i currentHint && canPlaceRemaining (i + currentHint + 1) then
        true
      else if segment.getD i 0 == 2 then
        false
      else
        cphScan segment currentHint canPlaceRemaining (i + 1) fuel

/-- `canPlaceHints` from `SegmentWorker.ts` (without the semantically
transparent memo cache).  Base case: no hints left, feasible iff no filled
cell remains at or after `startIndex`.  Recursive case: scan the candidate
start positions; in the source the scan is a `for` loop running while
`i <= segment.length - getMinSpaceNeeded(hints)` (an empty loop when that
bound is below `startIndex`), embedded here as `cphScan` on the count of
remaining candidate positions. -/
def canPlaceHints : List Nat → List Nat → Nat → Bool
  | [], segment, startIndex => !((segment.drop startIndex).contains 2)
  | currentHint :: remainingHints, segment, startIndex =>
      if segment.length < getMinSpaceNeeded (currentHint :: remainingHints) + startIndex then
        false
      else
        cphScan segment currentHint
          (fun nextStart => canPlaceHints remainingHints segment nextStart) startIndex
          (segment.length - getMinSpaceNeeded (currentHint :: remainingHints) -
            startIndex + 1)

/-- `checkMustBe` from `SegmentWorker.ts`: probe one cell with a
hypothetical value and re-run the feasibility search. -/
def checkMustBe (hints : List Nat) (segment : List Nat) (position : Nat) (value : Nat) : Bool :=
  canPlaceHints hints (segment.set position value) 0

/-- The forced-cell loop of the worker `resolveSequence`: each still-unknown
cell is probed with both values against the *original* segment; known cells
are kept. -/
def resolveCells (hints : List Nat) (segment : List Nat) : List Nat :=
  segment.mapIdx (fun i cell =>
    if cell != 0 then cell
    else
      let mustBeFilled := checkMustBe hints segment i 2
      let mustBeEmpty := checkMustBe hints segment i 1
      if mustBeFilled && !mustBeEmpty then 2
      else if !mustBeFilled && mustBeEmpty then 1
      else cell)

/-- `resolveSequence` from `SegmentWorker.ts`: quick rejection (minimum
space, filled-cell count), whole-line feasibility check, then the
forced-cell loop.  The two `throw new Error("Segment not possible to
solve")` sites are embedded as `Except.error`. -/
def resolveSequence (hints : List Nat) (segment : List Nat) : Except String (List Nat) :=
  let totalFilled := hints.sum
  let minSpace := getMinSpaceNeeded hints
  let existingFilled := (segment.filter (fun cell => cell == 2)).length
  if minSpace > segment.length || existingFilled > totalFilled then
    .error "Segment not possible to solve"
  else if !canPlaceHints hints segment 0 then
    .error "Segment not possible to solve"
  else
    .ok (resolveCells hints segment)

end SegmentWorker

namespace NonogramSolver

/-- `generatePermutations` from `NonogramSolver.ts`, with the generator's
yields materialised in order.  The guard
`hintValues && hintValues.length && hintValues[0]` sends an empty hint list
or a zero first hint to the `yield []` branch.  The `for` loop bound
`position <= remaining.length - currentHint - sumOfRemainingHints -
remainingHints.length` is an empty range when negative, which `Nat`
truncation in `List.range` reproduces. -/
def generatePermutations (hintValues : List Nat) (remaining : List Nat) (offset : Nat) :
    List (List Nat) :=
  match hintValues with
  | [] => [[]]
  | 0 :: _ => [[]]
  | currentHint :: remainingHints =>
      let sumOfRemainingHints := remainingHints.sum
      (List.range (remaining.length + 1 - currentHint - sumOfRemainingHints -
          remainingHints.length)).flatMap
        (fun position =>
          if ((remaining.drop position).take currentHint).contains 1 then []
          else
            (generatePermutations remainingHints
                (remaining.drop (position + currentHint + 1)) 1).map
              (fun subsequentPermutation =>
                List.replicate (position + offset) 1 ++
                  List.replicate currentHint 2 ++ subsequentPermutation))

/-- One pattern extended to the line length with empty cells
(`pattern.concat(new Array(length - pattern.length).fill(1))`). -/
def completePattern (currentSequence pattern : List Nat) : List Nat :=
  pattern ++ List.replicate (currentSequence.length - pattern.length) 1

/-- The validity filter of the synchronous `resolveSequence`: a completed
pattern is kept unless it contradicts an already-determined cell
(`currentSequence[index] > 0 && currentSequence[index] !==
completedPattern[index]`). -/
def patternMatches (currentSequence completedPattern : List Nat) : Bool :=
  (List.range currentSequence.length).all (fun index =>
    currentSequence.getD index 0 == 0 ||
      currentSequence.getD index 0 == completedPattern.getD index 0)

/-- The list of valid completed patterns collected by the synchronous
`resolveSequence`. -/
def validPatterns (hintValues currentSequence : List Nat) : List (List Nat) :=
  (generatePermutations hintValues currentSequence 0).filterMap
    (fun pattern =>
      let completed := completePattern currentSequence pattern
      if patternMatches currentSequence completed then some completed else none)

/-- One intersection step of the synchronous `resolveSequence`:
`resolvedSequence.map((cellValue, idx) => cellValue === pattern[idx] ?
cellValue : 0)`. -/
def intersectPattern (resolvedSequence pattern : List Nat) : List Nat :=
  resolvedSequence.mapIdx (fun idx cellValue =>
    if cellValue == pattern.getD idx 0 then cellValue else 0)

/-- `resolveSequence` from `NonogramSolver.ts`: intersect all valid
completed patterns; `null` (here `none`) when there is none. -/
def resolveSequence (hintValues currentSequence : List Nat) : Option (List Nat) :=
  match validPatterns hintValues currentSequence with
  | [] => none
  | first :: rest => some (rest.foldl intersectPattern first)

/-- Writing a resolved line over the old one
(`resolvedRow.forEach((cellValue, x) => { grid[y][x] = cellValue })`);
the two lists always have equal length, in which case this is just the
resolved line. -/
def writeLine (oldLine resolved : List Nat) : List Nat :=
  resolved ++ oldLine.drop resolved.length

/-- The change detector of the merge loops:
`if (cellValue && grid[y][x] !== cellValue) hasChanged = true`. -/
def lineChanged (oldLine resolved : List Nat) : Bool :=
  (List.range resolved.length).any (fun x =>
    resolved.getD x 0 != 0 && oldLine.getD x 0 != resolved.getD x 0)

/-- The row pass of the synchronous solver: resolve every row in order,
failing as soon as one row is unsolvable, and accumulate the
`hasChanged` flag. -/
def rowPass (rowHints : List (List Nat)) (grid : List (List Nat)) :
    Option (List (List Nat) × Bool) :=
  match rowHints with
  | [] => some (grid, false)
  | rowHint :: restHints =>
      match grid with
      | [] =>
          match resolveSequence rowHint [] with
          | none => none
          | some resolved =>
              match rowPass restHints [] with
              | none => none
              | some (restGrid, restChanged) =>
                  some (writeLine [] resolved :: restGrid,
                    lineChanged [] resolved || restChanged)
      | row :: restRows =>
          match resolveSequence rowHint row with
          | none => none
          | some resolved =>
              match rowPass restHints restRows with
              | none => none
              | some (restGrid, restChanged) =>
                  some (writeLine row resolved :: restGrid,
                    lineChanged row resolved || restChanged)

/-- Reading one column (`grid.map(row => row[x])`). -/
def getColumn (grid : List (List Nat)) (x : Nat) : List Nat :=
  grid.map (fun row => row.getD x 0)

/-- Writing a resolved column back
(`resolvedColumn.forEach((cellValue, y) => { grid[y][x] = cellValue })`). -/
def writeColumn (grid : List (List Nat)) (x : Nat) (resolved : List Nat) :
    List (List Nat) :=
  grid.mapIdx (fun y row =>
    if y < resolved.length then row.set x (resolved.getD y 0) else row)

/-- The column pass of the synchronous solver over column indices
`x, x+1, ...` (`count` columns remain). -/
def colPass (columnHints : List (List Nat)) (grid : List (List Nat)) :
    Nat → Option (List (List Nat) × Bool)
  | 0 => some (grid, false)
  | count + 1 =>
      let x := columnHints.length - (count + 1)
      let colHint := columnHints.getD x []
      let column := getColumn grid x
      match resolveSequence colHint column with
      | none => none
      | some resolved =>
          match colPass columnHints (writeColumn grid x resolved) count with
          | none => none
          | some (outGrid, restChanged) =>
              some (outGrid, lineChanged column resolved || restChanged)

/-- One iteration of the `while (hasChanged)` loop: the row pass followed by
the column pass, with the combined change flag. -/
def iterStep (rowHints columnHints : List (List Nat)) (grid : List (List Nat)) :
    Option (List (List Nat) × Bool) :=
  match rowPass rowHints grid with
  | none => none
  | some (gridAfterRows, rowChanged) =>
      match colPass columnHints gridAfterRows columnHints.length with
      | none => none
      | some (gridAfterCols, colChanged) =>
          some (gridAfterCols, rowChanged || colChanged)

/-- Result of the fixpoint loop.  The source loop has no iteration cap;
`outOfFuel` marks exhaustion of the explicit fuel and is proved unreachable
for fuel `height * width + 1`. -/
inductive LoopResult where
  | outOfFuel : LoopResult
  | failure : LoopResult
  | done : List (List Nat) → LoopResult
  deriving Repr, DecidableEq

/-- The `while (hasChanged)` loop of the synchronous `solveNonogram`. -/
def solveLoop (rowHints columnHints : List (List Nat)) :
    Nat → List (List Nat) → LoopResult
  | 0, _ => .outOfFuel
  | fuel + 1, grid =>
      match iterStep rowHints columnHints grid with
      | none => .failure
      | some (grid', hasChanged) =>
          if hasChanged then solveLoop rowHints columnHints fuel grid'
          else .done grid'

/-- The initial all-unknown grid
(`new Array(gridHeight).fill(null).map(_ => new Array(gridWidth).fill(0))`). -/
def initialGrid (gridHeight gridWidth : Nat) : List (List Nat) :=
  List.replicate gridHeight (List.replicate gridWidth 0)

/-- The raw fixpoint computation of the synchronous `solveNonogram`, before
the grid is formatted to booleans.  Fuel `height * width + 1` is proved
sufficient below. -/
def solveRaw (rowHints columnHints : List (List Nat)) : LoopResult :=
  let gridWidth := columnHints.length
  let gridHeight := rowHints.length
  solveLoop rowHints columnHints (gridHeight * gridWidth + 1)
    (initialGrid gridHeight gridWidth)

/-- Output type of the synchronous `solveNonogram` (`SolutionFound` /
`NoSolutionFound` from `types.ts`). -/
inductive SolverOutput where
  | noSolutionFound : SolverOutput
  | solutionFound : List (List Bool) → Nat → Nat → SolverOutput
  deriving Repr, DecidableEq

/-- Formatting of the solved grid
(`grid.map(row => row.map(cell => cell === 2))`). -/
def formatGrid (grid : List (List Nat)) : List (List Bool) :=
  grid.map (fun row => row.map (fun cell => cell == 2))

/-- `solveNonogram` from `NonogramSolver.ts`. -/
def solveNonogram (rowHints columnHints : List (List Nat)) : SolverOutput :=
  match solveRaw rowHints columnHints with
  | .outOfFuel => .noSolutionFound
  | .failure => .noSolutionFound
  | .done grid =>
      .solutionFound (formatGrid grid) rowHints.length columnHints.length

end NonogramSolver

namespace AsyncSolver

/-- The error cases of the asynchronous `solveNonogram`
(`NonogramSolverError` messages). -/
inductive AsyncError where
  | invalidInput : AsyncError
  | unsolvable : AsyncError
  | maxIterationsExceeded : AsyncError
  deriving Repr, DecidableEq

/-- `transpose` from the asynchronous solver source:
`arr[0].map((_, i) => arr.map(row => row[i]))`. -/
def transpose (arr : List (List Nat)) : List (List Nat) :=
  (List.range (arr.headD []).length).map (fun i => arr.map (fun row => row.getD i 0))

/-- One batch of worker tasks: the worker line solver is applied to every
(hints, segment) pair in submission order; `Promise.all` preserves that
order and rejects on the first error.  Each task is a pure call, so the
batch is embedded as an in-order sequence of calls. -/
def batch : List (List Nat) → List (List Nat) → Except String (List (List Nat))
  | [], _ => .ok []
  | hints :: restHints, [] =>
      match SegmentWorker.resolveSequence hints [] with
      | .error e => .error e
      | .ok resolved =>
          match batch restHints [] with
          | .error e => .error e
          | .ok rest => .ok (resolved :: rest)
  | hints :: restHints, segment :: restSegments =>
      match SegmentWorker.resolveSequence hints segment with
      | .error e => .error e
      | .ok resolved =>
          match batch restHints restSegments with
          | .error e => .error e
          | .ok rest => .ok (resolved :: rest)

/-- `newRow.some((cell, colIndex) => cell !== 0 && currentRow[colIndex] !== cell)`. -/
def isNewLineDifferent (currentLine newLine : List Nat) : Bool :=
  (List.range newLine.length).any (fun colIndex =>
    newLine.getD colIndex 0 != 0 &&
      currentLine.getD colIndex 0 != newLine.getD colIndex 0)

/-- The merge loop of the asynchronous solver: a processed line replaces the
current one only when it is different, and that sets the change flag. -/
def mergeLines : List (List Nat) → List (List Nat) → List (List Nat) × Bool
  | [], _ => ([], false)
  | currentLine :: restCurrent, [] =>
      let (rest, changed) := mergeLines restCurrent []
      (currentLine :: rest, changed)
  | currentLine :: restCurrent, newLine :: restNew =>
      let (rest, changed) := mergeLines restCurrent restNew
      if isNewLineDifferent currentLine newLine then (newLine :: rest, true)
      else (currentLine :: rest, changed)

/-- One iteration of the asynchronous solver loop: the row batch is merged
into the grid, the column batch is run over the transposed grid and merged,
and the grid is transposed back. -/
def iterate (rowsHints columnsHints : List (List Nat)) (grid : List (List Nat)) :
    Except Unit (List (List Nat) × Bool) :=
  match batch rowsHints grid with
  | .error _ => .error ()
  | .ok processedRows =>
      let (gridAfterRows, rowsChanged) := mergeLines grid processedRows
      let transposedGrid := transpose gridAfterRows
      match batch columnsHints transposedGrid with
      | .error _ => .error ()
      | .ok processedColumns =>
          let (newTransposed, colsChanged) := mergeLines transposedGrid processedColumns
          .ok (transpose newTransposed, rowsChanged || colsChanged)

/-- `grid.some(row => row.some(cell => cell === 0))`. -/
def hasUnknowns (grid : List (List Nat)) : Bool :=
  grid.any (fun row => row.any (fun cell => cell == 0))

/-- The iteration loop of the asynchronous solver, on the remaining
iteration budget.  The boolean of a successful result records whether the
loop ended with `currentIteration >= maxIterations` (which the source turns
into `Maximum iterations exceeded` even when the grid converged on the very
last allowed iteration). -/
def loop (rowsHints columnsHints : List (List Nat)) :
    Nat → List (List Nat) → Except AsyncError (List (List Nat) × Bool)
  | 0, grid => .ok (grid, true)
  | remaining + 1, grid =>
      match iterate rowsHints columnsHints grid with
      | .error _ => .error .unsolvable
      | .ok (grid', hasChanges) =>
          if hasChanges then loop rowsHints columnsHints remaining grid'
          else if hasUnknowns grid' then .error .unsolvable
          else .ok (grid', remaining == 0)

/-- The asynchronous `solveNonogram` (maxIterations defaults to 100 in the
source). -/
def solveNonogram (rowsHints columnsHints : List (List Nat)) (maxIterations : Nat) :
    Except AsyncError (List (List Bool)) :=
  if rowsHints.length == 0 || columnsHints.length == 0 then .error .invalidInput
  else
    match loop rowsHints columnsHints maxIterations
        (NonogramSolver.initialGrid rowsHints.length columnsHints.length) with
    | .error e => .error e
    | .ok (_, true) => .error .maxIterationsExceeded
    | .ok (grid, false) => .ok (grid.map (fun row => row.map (fun cell => cell == 2)))

end AsyncSolver

namespace SegmentWorkerPool

/-- The observable scheduling state of `SegmentWorkerPool`: the busy flag of
every created worker in creation order, the number of queued tasks, and the
configured maximum. -/
structure PoolState where
  workers : List Bool
  queue : Nat
  maxWorkers : Nat
  deriving Repr, DecidableEq

/-- `this.workers.find(w => !w.busy)`. -/
def findFreeWorker (workers : List Bool) : Option Nat :=
  workers.findIdx? (fun busy => !busy)

/-- `getAvailableWorker` from `SegmentWorkerPool.ts`: an existing free
worker is returned; otherwise a new worker is created only below the
maximum.  The result is the (possibly extended) worker list and the index
of the available worker. -/
def getAvailableWorker (workers : List Bool) (maxWorkers : Nat) :
    Option (List Bool × Nat) :=
  match findFreeWorker workers with
  | some index => some (workers, index)
  | none =>
      if workers.length < maxWorkers then some (workers ++ [false], workers.length)
      else none

/-- The `while (this.taskQueue.length > 0)` loop of `processNextTask`,
recursing on the queue length: dispatch queued tasks to available workers
(marking them busy) until the queue is empty or no worker is available. -/
def processQueue (maxWorkers : Nat) : List Bool → Nat → PoolState
  | workers, 0 => ⟨workers, 0, maxWorkers⟩
  | workers, queue + 1 =>
      match getAvailableWorker workers maxWorkers with
      | none => ⟨workers, queue + 1, maxWorkers⟩
      | some (newWorkers, index) =>
          processQueue maxWorkers (newWorkers.set index true) queue

/-- `processNextTask` from `SegmentWorkerPool.ts`. -/
def processNextTask (state : PoolState) : PoolState :=
  processQueue state.maxWorkers state.workers state.queue

/-- `submitTask`: enqueue one task, then process the queue. -/
def submitTask (state : PoolState) : PoolState :=
  processNextTask ⟨state.workers, state.queue + 1, state.maxWorkers⟩

/-- Completion (or error) of the task running on worker `index`: the worker
is reset to idle and the queue is processed again.  The source's
message/error listeners belong to an existing worker, so an out-of-range
index changes nothing. -/
def completeTask (state : PoolState) (index : Nat) : PoolState :=
  if index < state.workers.length then
    processNextTask ⟨state.workers.set index false, state.queue, state.maxWorkers⟩
  else state

/-- The externally visible pool events. -/
inductive PoolEvent where
  | submit : PoolEvent
  | complete : Nat → PoolEvent
  deriving Repr, DecidableEq

/-- One pool event step. -/
def step (state : PoolState) : PoolEvent → PoolState
  | .submit => submitTask state
  | .complete index => completeTask state index

/-- A fresh pool (`workers = []`, empty queue). -/
def initPool (maxWorkers : Nat) : PoolState :=
  ⟨[], 0, maxWorkers⟩

/-- Running a sequence of submissions and completions. -/
def run (maxWorkers : Nat) (events : List PoolEvent) : PoolState :=
  events.foldl step (initPool maxWorkers)

end SegmentWorkerPool

namespace Spec

/-! ## Index toolkit

Small `getD`-oriented index lemmas used throughout the development. -/

theorem getD_drop (l : List Nat) (n i : Nat) : (l.drop n).getD i 0 = l.getD (n + i) 0 := by
  simp [List.getD_eq_getElem?_getD, List.getElem?_drop]

theorem getD_replicate (v : Nat) (k i : Nat) :
    (List.replicate k v).getD i 0 = if i < k then v else 0 := by
  by_cases h : i < k
  · simp [List.getD_eq_getElem?_getD, List.getElem?_replicate, h]
  · simp [List.getD_eq_getElem?_getD, List.getElem?_replicate, h]

theorem getD_append_left {s : List Nat} (t : List Nat) {i : Nat} (h : i < s.length) :
    (s ++ t).getD i 0 = s.getD i 0 :=
  List.getD_append s t 0 i h

theorem getD_append_rt {s : List Nat} (t : List Nat) {i : Nat} (h : s.length ≤ i) :
    (s ++ t).getD i 0 = t.getD (i - s.length) 0 :=
  List.getD_append_right s t 0 i h

theorem getD_set (l : List Nat) (i v j : Nat) :
    (l.set i v).getD j 0 = if i = j ∧ j < l.length then v else l.getD j 0 := by
  by_cases h : i = j ∧ j < l.length
  · obtain ⟨rfl, hj⟩ := h
    simp [List.getD_eq_getElem?_getD, List.getElem?_set, hj]
  · rcases Decidable.not_and_iff_or_not.mp h with h' | h'
    · simp [List.getD_eq_getElem?_getD, List.getElem?_set, h']
    · have hl : l.length ≤ j := Nat.le_of_not_lt h'
      rw [if_neg h, List.getD_eq_default _ _ (by simpa using hl),
        List.getD_eq_default _ _ hl]

theorem getD_mem {l : List Nat} {i : Nat} (h : i < l.length) : l.getD i 0 ∈ l := by
  rw [List.getD_eq_getElem _ _ h]
  exact List.getElem_mem h

theorem eq_of_getD {s t : List Nat} (hlen : s.length = t.length)
    (h : ∀ i, i < s.length → s.getD i 0 = t.getD i 0) : s = t := by
  apply List.ext_getElem hlen
  intro i h1 h2
  have := h i h1
  rwa [List.getD_eq_getElem _ _ h1, List.getD_eq_getElem _ _ h2] at this

theorem contains_two_eq_false {l : List Nat} :
    l.contains 2 = false ↔ ∀ i, i < l.length → l.getD i 0 ≠ 2 := by
  have hnm : l.contains 2 = false ↔ (2 : Nat) ∉ l := by simp
  rw [hnm]
  constructor
  · intro h i hi h2
    exact h (by rw [← h2]; exact getD_mem hi)
  · intro h hm
    obtain ⟨i, hi, hget⟩ := List.mem_iff_getElem.mp hm
    exact h i hi (by rw [List.getD_eq_getElem _ _ hi]; exact hget)

theorem getD_mapIdx (f : Nat → Nat → Nat) (l : List Nat) (i : Nat) (h : i < l.length) :
    (l.mapIdx f).getD i 0 = f i (l.getD i 0) := by
  rw [List.getD_eq_getElem _ _ (by simpa using h), List.getD_eq_getElem _ _ h]
  simp [List.getElem_mapIdx]

theorem length_mapIdx (f : Nat → Nat → Nat) (l : List Nat) :
    (l.mapIdx f).length = l.length := by simp

/-- Pointwise preservation of a value gives `count` monotonicity. -/
theorem count_le_of_pointwise {v : Nat} : ∀ {s a : List Nat}, s.length = a.length →
    (∀ i, i < s.length → s.getD i 0 = v → a.getD i 0 = v) → s.count v ≤ a.count v := by
  intro s
  induction s with
  | nil => intro a _ _; exact Nat.zero_le _
  | cons x xs ih =>
      intro a hlen hpt
      cases a with
      | nil => simp at hlen
      | cons y ys =>
          have htail : xs.count v ≤ ys.count v := by
            apply ih (by simpa using hlen)
            intro i hi hv
            have := hpt (i + 1) (by simpa using Nat.succ_lt_succ hi)
            simpa using this hv
          by_cases hx : x = v
          · have hy : y = v := by
              have := hpt 0 (by simp) (by simpa using hx)
              simpa using this
            subst hx; subst hy
            simpa [List.count_cons, Nat.succ_le_succ_iff] using htail
          · have : (x :: xs).count v = xs.count v := by simp [List.count_cons, hx]
            rw [this]
            calc xs.count v ≤ ys.count v := htail
              _ ≤ (y :: ys).count v := by simp [List.count_cons]

/-- Strict `count` decrease at a witness index. -/
theorem count_lt_of_pointwise {v : Nat} : ∀ {s a : List Nat}, s.length = a.length →
    (∀ i, i < s.length → a.getD i 0 = v → s.getD i 0 = v) →
    (∀ j, j < s.length → s.getD j 0 = v → a.getD j 0 ≠ v →
      a.count v < s.count v) := by
  intro s
  induction s with
  | nil => intro a _ _ j hj; simp at hj
  | cons x xs ih =>
      intro a hlen hpt j hj hs ha
      cases a with
      | nil => simp at hlen
      | cons y ys =>
          have hlen' : ys.length = xs.length := by simpa using hlen.symm
          have hpt' : ∀ i, i < xs.length → ys.getD i 0 = v → xs.getD i 0 = v := by
            intro i hi hv
            have := hpt (i + 1) (by simpa using Nat.succ_lt_succ hi)
            simpa using this hv
          have htail_le : ys.count v ≤ xs.count v :=
            count_le_of_pointwise hlen' (fun i hi hv => hpt' i (by omega) hv)
          cases j with
          | zero =>
              have hx : x = v := by simpa using hs
              have hy : y ≠ v := by simpa using ha
              subst hx
              simp [List.count_cons, hy]
              omega
          | succ k =>
              have hk : k < xs.length := by simpa using hj
              have hs' : xs.getD k 0 = v := by simpa using hs
              have ha' : ys.getD k 0 ≠ v := by simpa using ha
              have htail : ys.count v < xs.count v := ih hlen'.symm hpt' k hk hs' ha'
              by_cases hy : y = v
              · have hx : x = v := hpt 0 (by simp) (by simpa using hy)
                have hx' : x = v := by simpa using hx
                subst hx'; subst hy
                simpa [List.count_cons] using Nat.succ_lt_succ htail
              · have hyc : (y :: ys).count v = ys.count v := by simp [List.count_cons, hy]
                rw [hyc]
                calc ys.count v < xs.count v := htail
                  _ ≤ (x :: xs).count v := by simp [List.count_cons]

/-! ## Block structure of a line

`blocksOf` recomputes the sequence of consecutive filled-block lengths of a
line, the quantity the row/column hints describe. -/

/-- Maximal runs of filled (2) cells, with the length of the current open
run as accumulator. -/
def blocksAux : List Nat → Nat → List Nat
  | [], n => if n = 0 then [] else [n]
  | c :: t, n =>
      if c = 2 then blocksAux t (n + 1)
      else if n = 0 then blocksAux t 0
      else n :: blocksAux t 0

/-- The filled-block lengths of a line over cells `0/1/2`. -/
def blocksOf (l : List Nat) : List Nat := blocksAux l 0

/-- Runs of `true` cells of a boolean line. -/
def blocksBoolAux : List Bool → Nat → List Nat
  | [], n => if n = 0 then [] else [n]
  | b :: t, n =>
      if b then blocksBoolAux t (n + 1)
      else if n = 0 then blocksBoolAux t 0
      else n :: blocksBoolAux t 0

/-- The filled-block lengths of a boolean (solved) line. -/
def blocksOfBool (l : List Bool) : List Nat := blocksBoolAux l 0

/-- A fully determined line: every cell is empty (1) or filled (2). -/
def binary (l : List Nat) : Prop := ∀ x ∈ l, x = 1 ∨ x = 2

theorem blocksBoolAux_map (l : List Nat) : ∀ n,
    blocksBoolAux (l.map (fun c => c == 2)) n = blocksAux l n := by
  induction l with
  | nil => intro n; rfl
  | cons c t ih =>
      intro n
      by_cases hc : c = 2
      · simp [blocksBoolAux, blocksAux, hc, ih]
      · have : (c == 2) = false := by simpa using hc
        simp [blocksBoolAux, blocksAux, this, hc, ih]

theorem blocksOfBool_map (l : List Nat) :
    blocksOfBool (l.map (fun c => c == 2)) = blocksOf l :=
  blocksBoolAux_map l 0

theorem blocksAux_nil_zero : blocksAux [] 0 = [] := rfl

theorem blocksAux_nil_succ (n : Nat) : blocksAux [] (n + 1) = [n + 1] := by
  simp [blocksAux]

theorem blocksAux_cons_two (t : List Nat) (n : Nat) :
    blocksAux (2 :: t) n = blocksAux t (n + 1) := by
  simp [blocksAux]

theorem blocksAux_cons_ne_zero {c : Nat} (t : List Nat) (hc : c ≠ 2) :
    blocksAux (c :: t) 0 = blocksAux t 0 := by
  simp [blocksAux, hc]

theorem blocksAux_cons_ne_succ {c : Nat} (t : List Nat) (n : Nat) (hc : c ≠ 2) :
    blocksAux (c :: t) (n + 1) = (n + 1) :: blocksAux t 0 := by
  simp [blocksAux, hc]

theorem blocksAux_replicate_one (k : Nat) (l : List Nat) :
    blocksAux (List.replicate k 1 ++ l) 0 = blocksAux l 0 := by
  induction k with
  | zero => rfl
  | succ k ih => simpa [List.replicate_succ, blocksAux] using ih

theorem blocksAux_replicate_two (h : Nat) (l : List Nat) : ∀ n,
    blocksAux (List.replicate h 2 ++ l) n = blocksAux l (n + h) := by
  induction h with
  | zero => intro n; rfl
  | succ h ih =>
      intro n
      rw [List.replicate_succ, List.cons_append]
      show blocksAux (List.replicate h 2 ++ l) (n + 1) = blocksAux l (n + (h + 1))
      rw [ih (n + 1)]
      congr 1
      omega

theorem blocksAux_append_ones (l : List Nat) (m : Nat) : ∀ n,
    blocksAux (l ++ List.replicate m 1) n = blocksAux l n := by
  induction l with
  | nil =>
      intro n
      cases m with
      | zero => rfl
      | succ m =>
          cases n with
          | zero =>
              simp only [List.nil_append, blocksAux]
              have := blocksAux_replicate_one (m + 1) []
              simpa using this
          | succ n =>
              simp only [List.nil_append, List.replicate_succ, blocksAux]
              have := blocksAux_replicate_one m []
              simp only [List.append_nil] at this
              simp [this, blocksAux]
  | cons c t ih =>
      intro n
      by_cases hc : c = 2 <;> cases n <;> simp [blocksAux, hc, ih]

theorem blocksOf_append_ones (l : List Nat) (m : Nat) :
    blocksOf (l ++ List.replicate m 1) = blocksOf l :=
  blocksAux_append_ones l m 0

theorem blocksOf_compose (g h : Nat) (Z : List Nat) (hh : 0 < h)
    (hZ : Z = [] ∨ Z.headD 0 = 1) :
    blocksOf (List.replicate g 1 ++ List.replicate h 2 ++ Z) = h :: blocksOf Z := by
  unfold blocksOf
  rw [List.append_assoc, blocksAux_replicate_one, blocksAux_replicate_two]
  rcases hZ with rfl | hZ1
  · simp [blocksAux]
    omega
  · cases Z with
    | nil => simp [blocksAux]; omega
    | cons c t =>
        have hc : c = 1 := by simpa using hZ1
        subst hc
        simp [blocksAux]
        omega

theorem blocksAux_sum (l : List Nat) : ∀ n, (blocksAux l n).sum = l.count 2 + n := by
  induction l with
  | nil =>
      intro n
      cases n with
      | zero => simp [blocksAux_nil_zero]
      | succ n => simp [blocksAux_nil_succ]
  | cons c t ih =>
      intro n
      have hcount : (c :: t).count 2 = t.count 2 + (if c = 2 then 1 else 0) := by
        by_cases hc : c = 2
        · subst hc; simp [List.count_cons]
        · simp [List.count_cons, hc]
      by_cases hc : c = 2
      · subst hc
        rw [blocksAux_cons_two, ih (n + 1), hcount]
        simp
        omega
      · cases n with
        | zero =>
            rw [blocksAux_cons_ne_zero t hc, ih 0, hcount]
            simp [hc]
        | succ n =>
            rw [blocksAux_cons_ne_succ t n hc]
            simp only [List.sum_cons]
            rw [ih 0, hcount]
            simp [hc]
            omega

theorem blocksOf_sum (l : List Nat) : (blocksOf l).sum = l.count 2 := by
  simpa using blocksAux_sum l 0

theorem blocksAux_mem_pos (l : List Nat) : ∀ n x, x ∈ blocksAux l n → 0 < x := by
  induction l with
  | nil =>
      intro n x hx
      cases n with
      | zero => simp [blocksAux_nil_zero] at hx
      | succ n =>
          rw [blocksAux_nil_succ] at hx
          simp at hx
          omega
  | cons c t ih =>
      intro n x hx
      by_cases hc : c = 2
      · subst hc
        exact ih (n + 1) x (by rwa [blocksAux_cons_two] at hx)
      · cases n with
        | zero =>
            exact ih 0 x (by rwa [blocksAux_cons_ne_zero t hc] at hx)
        | succ n =>
            rw [blocksAux_cons_ne_succ t n hc] at hx
            rcases List.mem_cons.mp hx with rfl | hx
            · omega
            · exact ih 0 x hx

theorem blocksOf_head_pos {l : List Nat} {h : Nat} {rest : List Nat}
    (heq : blocksOf l = h :: rest) : 0 < h := by
  apply blocksAux_mem_pos l 0 h
  rw [show blocksAux l 0 = blocksOf l from rfl, heq]
  exact List.mem_cons_self h rest

/-- A line whose block list is empty has no filled cell. -/
theorem no_two_of_blocksOf_nil {l : List Nat} (h : blocksOf l = []) :
    ∀ i, i < l.length → l.getD i 0 ≠ 2 := by
  intro i hi h2
  have hcount : l.count 2 = 0 := by
    have := blocksOf_sum l
    rw [h] at this
    simpa using this.symm
  have : (2 : Nat) ∉ l := by simpa using List.count_eq_zero.mp hcount
  exact this (by rw [← h2]; exact getD_mem hi)

/-- The run of filled cells opening a nonempty block list. -/
theorem two_run_decomp : ∀ (l : List Nat), binary l → ∀ n h rest,
    blocksAux l n = h :: rest → (0 < n ∨ l.headD 0 = 2) →
    ∃ k Z, l = List.replicate k 2 ++ Z ∧ n + k = h ∧
      (Z = [] ∨ Z.headD 0 = 1) ∧ blocksOf Z = rest := by
  intro l
  induction l with
  | nil =>
      intro _ n h rest heq hstart
      cases n with
      | zero => simp [blocksAux_nil_zero] at heq
      | succ n =>
          rw [blocksAux_nil_succ] at heq
          have h1 : n + 1 = h := by
            have := List.head_eq_of_cons_eq heq
            omega
          have h2 : rest = [] := (List.tail_eq_of_cons_eq heq).symm
          exact ⟨0, [], by simp, by omega, Or.inl rfl, by simp [blocksOf, blocksAux_nil_zero, h2]⟩
  | cons c t ih =>
      intro hbin n h rest heq hstart
      by_cases hc : c = 2
      · subst hc
        rw [blocksAux_cons_two] at heq
        obtain ⟨k, Z, hdecomp, hsum, hZ, hblocks⟩ :=
          ih (fun x hx => hbin x (List.mem_cons_of_mem _ hx)) (n + 1) h rest heq
            (Or.inl (Nat.succ_pos n))
        exact ⟨k + 1, Z, by simp [List.replicate_succ, hdecomp], by omega, hZ, hblocks⟩
      · have hc1 : c = 1 := by
          rcases hbin c (List.mem_cons_self c t) with h1 | h2
          · exact h1
          · exact absurd h2 hc
        have hn : 0 < n := by
          rcases hstart with hn | hhead
          · exact hn
          · subst hc1; simp at hhead
        cases n with
        | zero => omega
        | succ n =>
            rw [blocksAux_cons_ne_succ t n hc] at heq
            have h1 : n + 1 = h := List.head_eq_of_cons_eq heq
            have h2 : blocksAux t 0 = rest := List.tail_eq_of_cons_eq heq
            refine ⟨0, c :: t, by simp, by omega, Or.inr (by simpa using hc1), ?_⟩
            subst hc1
            rw [blocksOf, blocksAux_cons_ne_zero t hc, h2]

/-- Leading-ones decomposition of a fully determined line with a nonempty
block list. -/
theorem blocks_decomp : ∀ (l : List Nat), binary l → ∀ h rest,
    blocksOf l = h :: rest →
    ∃ g Z, l = List.replicate g 1 ++ List.replicate h 2 ++ Z ∧
      (Z = [] ∨ Z.headD 0 = 1) ∧ blocksOf Z = rest ∧ binary Z := by
  intro l
  induction l with
  | nil => intro _ h rest heq; simp [blocksOf, blocksAux] at heq
  | cons c t ih =>
      intro hbin h rest heq
      by_cases hc : c = 2
      · obtain ⟨k, Z, hdecomp, hsum, hZ, hblocks⟩ :=
          two_run_decomp (c :: t) hbin 0 h rest heq (Or.inr (by simpa using hc))
        have hbinZ : binary Z := by
          intro x hx
          exact hbin x (by rw [hdecomp]; exact List.mem_append_right _ hx)
        exact ⟨0, Z, by simpa [hsum.symm] using hdecomp, hZ, hblocks, hbinZ⟩
      · have hc1 : c = 1 := by
          rcases hbin c (List.mem_cons_self c t) with h1 | h2
          · exact h1
          · exact absurd h2 hc
        subst hc1
        have heqt : blocksOf t = h :: rest := by
          simpa [blocksOf, blocksAux] using heq
        obtain ⟨g, Z, hdecomp, hZ, hblocks, hbinZ⟩ :=
          ih (fun x hx => hbin x (List.mem_cons_of_mem _ hx)) h rest heqt
        exact ⟨g + 1, Z, by simp [List.replicate_succ, hdecomp], hZ, hblocks, hbinZ⟩

/-- Minimum length needed by a block list: `sum + (count-1)` in general,
`sum + count` when the line must open with an empty cell. -/
theorem blocks_min_length : ∀ (len : Nat) (l : List Nat), l.length = len → binary l →
    ∀ hints, blocksOf l = hints →
      (hints.sum + hints.length ≤ l.length + 1 ∧
        ((l = [] ∨ l.headD 0 = 1) → hints.sum + hints.length ≤ l.length)) := by
  intro len
  induction len using Nat.strong_induction_on with
  | _ len ih =>
      intro l hlen hbin hints heq
      cases hints with
      | nil => simp
      | cons h rest =>
          have hpos : 0 < h := blocksOf_head_pos heq
          obtain ⟨g, Z, hdecomp, hZ, hblocks, hbinZ⟩ := blocks_decomp l hbin h rest heq
          have hlZ : Z.length < len := by
            rw [← hlen, hdecomp]
            simp
            omega
          have hIH := (ih Z.length hlZ Z rfl hbinZ rest hblocks).2 hZ
          have hlength : l.length = g + h + Z.length := by rw [hdecomp]; simp; omega
          constructor
          · simp only [List.sum_cons, List.length_cons]
            omega
          · intro hhead
            have hg : 0 < g ∨ Z.length + g + h < l.length := by
              rcases Nat.eq_zero_or_pos g with hg0 | hgp
              · subst hg0
                rcases hhead with rfl | hhead1
                · simp at hlength; omega
                · rw [hdecomp] at hhead1
                  simp at hhead1
                  cases hh : h with
                  | zero => omega
                  | succ m =>
                      rw [hh] at hhead1
                      simp [List.replicate_succ] at hhead1
              · exact Or.inl hgp
            simp only [List.sum_cons, List.length_cons]
            omega

/-- `getMinSpaceNeeded` is a lower bound on the length of any fully
determined line realising the hints. -/
theorem minSpace_le_length {l : List Nat} (hbin : binary l) {hints : List Nat}
    (heq : blocksOf l = hints) : SegmentWorker.getMinSpaceNeeded hints ≤ l.length := by
  cases hints with
  | nil => simp [SegmentWorker.getMinSpaceNeeded]
  | cons h rest =>
      have := (blocks_min_length l.length l rfl hbin _ heq).1
      unfold SegmentWorker.getMinSpaceNeeded
      simp only [List.sum_cons, List.length_cons] at this ⊢
      omega

/-- Strengthened bound when the line must open with a gap. -/
theorem blocks_min_length_gap {l : List Nat} (hbin : binary l)
    (hhead : l = [] ∨ l.headD 0 = 1) {hints : List Nat} (heq : blocksOf l = hints) :
    hints.sum + hints.length ≤ l.length :=
  (blocks_min_length l.length l rfl hbin hints heq).2 hhead

/-! ## More index helpers -/

theorem contains_val_eq_false {l : List Nat} {v : Nat} :
    l.contains v = false ↔ ∀ i, i < l.length → l.getD i 0 ≠ v := by
  have hnm : l.contains v = false ↔ v ∉ l := by simp
  rw [hnm]
  constructor
  · intro h i hi h2
    exact h (by rw [← h2]; exact getD_mem hi)
  · intro h hm
    obtain ⟨i, hi, hget⟩ := List.mem_iff_getElem.mp hm
    exact h i hi (by rw [List.getD_eq_getElem _ _ hi]; exact hget)

theorem getD_rep_append_lt {k v : Nat} (t : List Nat) {j : Nat} (h : j < k) :
    (List.replicate k v ++ t).getD j 0 = v := by
  rw [getD_append_left t (by simpa using h), getD_replicate, if_pos h]

theorem getD_rep_append_ge {k v : Nat} (t : List Nat) {j : Nat} (h : k ≤ j) :
    (List.replicate k v ++ t).getD j 0 = t.getD (j - k) 0 := by
  rw [getD_append_rt t (by simpa using h)]
  simp

theorem getD_take {l : List Nat} {k i : Nat} (h : i < k) :
    (l.take k).getD i 0 = l.getD i 0 := by
  by_cases hl : i < l.length
  · rw [List.getD_eq_getElem _ _ (by simp; omega), List.getD_eq_getElem _ _ hl]
    simp [List.getElem_take]
  · rw [List.getD_eq_default _ _ (by simp; omega), List.getD_eq_default _ _ (by omega)]

/-! ## The pattern generator of the synchronous solver -/

theorem genPerms_nil (rem : List Nat) (off : Nat) :
    NonogramSolver.generatePermutations [] rem off = [[]] := rfl

theorem genPerms_zero (rest rem : List Nat) (off : Nat) :
    NonogramSolver.generatePermutations (0 :: rest) rem off = [[]] := rfl

theorem genPerms_succ_eq (m : Nat) (rest rem : List Nat) (off : Nat) :
    NonogramSolver.generatePermutations ((m + 1) :: rest) rem off =
      (List.range (rem.length + 1 - (m + 1) - rest.sum - rest.length)).flatMap
        (fun position =>
          if ((rem.drop position).take (m + 1)).contains 1 then []
          else
            (NonogramSolver.generatePermutations rest
                (rem.drop (position + (m + 1) + 1)) 1).map
              (fun s =>
                List.replicate (position + off) 1 ++ List.replicate (m + 1) 2 ++ s)) := by
  rfl

theorem mem_genPerms {m : Nat} {rest rem : List Nat} {off : Nat} {p : List Nat} :
    p ∈ NonogramSolver.generatePermutations ((m + 1) :: rest) rem off ↔
    ∃ pos, pos < rem.length + 1 - (m + 1) - rest.sum - rest.length ∧
      ((rem.drop pos).take (m + 1)).contains 1 = false ∧
      ∃ sub, sub ∈ NonogramSolver.generatePermutations rest (rem.drop (pos + m + 2)) 1 ∧
        p = List.replicate (pos + off) 1 ++ List.replicate (m + 1) 2 ++ sub := by
  rw [genPerms_succ_eq]
  simp only [List.mem_flatMap, List.mem_range]
  constructor
  · rintro ⟨pos, hpos, hmem⟩
    cases hc : ((rem.drop pos).take (m + 1)).contains 1 with
    | true =>
        rw [if_pos (by rw [hc])] at hmem
        simp at hmem
    | false =>
        rw [if_neg (by rw [hc]; exact Bool.false_ne_true)] at hmem
        obtain ⟨sub, hsub, hp⟩ := List.mem_map.mp hmem
        refine ⟨pos, hpos, hc, sub, ?_, hp.symm⟩
        have harith : pos + (m + 1) + 1 = pos + m + 2 := by omega
        rwa [harith] at hsub
  · rintro ⟨pos, hpos, hc, sub, hsub, hp⟩
    refine ⟨pos, hpos, ?_⟩
    rw [if_neg (by rw [hc]; exact Bool.false_ne_true)]
    apply List.mem_map.mpr
    have harith : pos + (m + 1) + 1 = pos + m + 2 := by omega
    exact ⟨sub, by rwa [harith], hp.symm⟩

/-- Patterns are empty or fit inside the remaining space (and force it
nonempty). -/
theorem genPerms_length_aux : ∀ (hints rem : List Nat) (off : Nat) (p : List Nat),
    p ∈ NonogramSolver.generatePermutations hints rem off →
    p = [] ∨ (1 ≤ rem.length ∧ p.length ≤ off + rem.length) := by
  intro hints
  induction hints with
  | nil =>
      intro rem off p hp
      rw [genPerms_nil] at hp
      simp at hp
      exact Or.inl hp
  | cons h rest ih =>
      intro rem off p hp
      cases h with
      | zero =>
          rw [genPerms_zero] at hp
          simp at hp
          exact Or.inl hp
      | succ m =>
          obtain ⟨pos, hpos, _, sub, hsub, hp⟩ := mem_genPerms.mp hp
          right
          have hfit : pos + m + 1 ≤ rem.length := by omega
          constructor
          · omega
          · rcases ih (rem.drop (pos + m + 2)) 1 sub hsub with rfl | ⟨hne, hlen⟩
            · subst hp
              simp
              omega
            · subst hp
              have hdlen : (rem.drop (pos + m + 2)).length = rem.length - (pos + m + 2) := by
                simp
              rw [hdlen] at hne hlen
              simp
              omega

theorem genPerms_length {hints rem : List Nat} {off : Nat} {p : List Nat}
    (hp : p ∈ NonogramSolver.generatePermutations hints rem off) :
    p.length ≤ off + rem.length := by
  rcases genPerms_length_aux hints rem off p hp with rfl | ⟨_, h⟩
  · simp
  · exact h

/-- Structure of generated patterns: fully determined, realising exactly the
hints, and opening with a gap cell when the offset is positive. -/
theorem genPerms_sound : ∀ (hints rem : List Nat) (off : Nat) (p : List Nat),
    (∀ x ∈ hints, 0 < x) →
    p ∈ NonogramSolver.generatePermutations hints rem off →
    binary p ∧ blocksOf p = hints ∧ (1 ≤ off → (p = [] ∨ p.headD 0 = 1)) := by
  intro hints
  induction hints with
  | nil =>
      intro rem off p _ hp
      rw [genPerms_nil] at hp
      simp at hp
      subst hp
      exact ⟨by intro x hx; simp at hx, rfl, fun _ => Or.inl rfl⟩
  | cons h rest ih =>
      intro rem off p hpos hp
      cases h with
      | zero => exact absurd (hpos 0 (List.mem_cons_self 0 rest)) (by omega)
      | succ m =>
          obtain ⟨pos, _, _, sub, hsub, hp⟩ := mem_genPerms.mp hp
          obtain ⟨hbin, hblocks, hhead⟩ :=
            ih (rem.drop (pos + m + 2)) 1 sub
              (fun x hx => hpos x (List.mem_cons_of_mem _ hx)) hsub
          subst hp
          refine ⟨?_, ?_, ?_⟩
          · intro x hx
            rcases List.mem_append.mp hx with hx | hx
            · rcases List.mem_append.mp hx with hx | hx
              · exact Or.inl (List.eq_of_mem_replicate hx)
              · exact Or.inr (List.eq_of_mem_replicate hx)
            · exact hbin x hx
          · rw [blocksOf_compose (pos + off) (m + 1) sub (by omega) (hhead (by omega)),
              hblocks]
          · intro hoff
            right
            obtain ⟨k, hk⟩ : ∃ k, pos + off = k + 1 := ⟨pos + off - 1, by omega⟩
            rw [hk, List.replicate_succ]
            simp

/-- Index access through a `1^g ++ 2^h ++ Z` decomposition. -/
theorem getD_decomp_tail {g h : Nat} {Z : List Nat} (i : Nat) :
    (List.replicate g 1 ++ List.replicate h 2 ++ Z).getD (g + h + i) 0 = Z.getD i 0 := by
  rw [List.append_assoc, getD_rep_append_ge _ (by omega)]
  have he : g + h + i - g = h + i := by omega
  rw [he, getD_rep_append_ge _ (by omega)]
  congr 1
  omega

theorem getD_decomp_block {g h : Nat} {Z : List Nat} {i : Nat} (hi : i < h) :
    (List.replicate g 1 ++ List.replicate h 2 ++ Z).getD (g + i) 0 = 2 := by
  rw [List.append_assoc, getD_rep_append_ge _ (by omega)]
  have he : g + i - g = i := by omega
  rw [he, getD_rep_append_lt _ hi]

/-- Every fully determined line realising the hints and compatible with the
remaining cells is produced by the generator (up to trailing empty cells). -/
theorem genPerms_complete : ∀ (hints : List Nat), (∀ x ∈ hints, 0 < x) →
    ∀ (rem : List Nat) (off : Nat) (X : List Nat),
    binary X → blocksOf X = hints → X.length = off + rem.length →
    (∀ j, j < off → X.getD j 0 = 1) →
    (∀ j, X.getD (off + j) 0 = 2 → rem.getD j 0 ≠ 1) →
    ∃ p, p ∈ NonogramSolver.generatePermutations hints rem off ∧
      X = p ++ List.replicate (X.length - p.length) 1 := by
  intro hints
  induction hints with
  | nil =>
      intro _ rem off X hbin hblocks _ _ _
      refine ⟨[], by rw [genPerms_nil]; simp, ?_⟩
      simp only [List.nil_append, Nat.sub_zero, List.length_nil]
      apply eq_of_getD (by simp)
      intro i hi
      rw [getD_replicate, if_pos hi]
      rcases hbin (X.getD i 0) (getD_mem hi) with h1 | h2
      · exact h1
      · exact absurd h2 (no_two_of_blocksOf_nil hblocks i hi)
  | cons h rest ih =>
      intro hpos rem off X hbin hblocks hlen hoff hcomp
      cases h with
      | zero => exact absurd (hpos 0 (List.mem_cons_self 0 rest)) (by omega)
      | succ m =>
          obtain ⟨g, Z, hdec, hZhead, hZblocks, hZbin⟩ := blocks_decomp X hbin (m + 1) rest hblocks
          have hlenX : X.length = g + (m + 1) + Z.length := by rw [hdec]; simp; omega
          have hgoff : off ≤ g := by
            by_contra hlt
            have h2 : X.getD g 0 = 2 := by
              rw [hdec]
              have := getD_decomp_block (g := g) (h := m + 1) (Z := Z) (i := 0) (by omega)
              simpa using this
            have h1 : X.getD g 0 = 1 := hoff g (by omega)
            omega
          have hZmin : rest.sum + rest.length ≤ Z.length :=
            blocks_min_length_gap hZbin hZhead hZblocks
          have hbalance : g - off + (m + 1) + Z.length = rem.length := by omega
          set pos := g - off with hpos_def
          have hg : g = pos + off := by omega
          have hrange : pos < rem.length + 1 - (m + 1) - rest.sum - rest.length := by omega
          have hblockcells : ∀ i, i < m + 1 → X.getD (g + i) 0 = 2 := by
            intro i hi
            rw [hdec]; exact getD_decomp_block hi
          have hslice : ((rem.drop pos).take (m + 1)).contains 1 = false := by
            apply contains_val_eq_false.mpr
            intro i hilen h1
            have hile : i < m + 1 := by
              have := List.length_take_le (m + 1) (rem.drop pos)
              omega
            rw [getD_take hile, getD_drop] at h1
            have := hcomp (pos + i) (by
              have : off + (pos + i) = g + i := by omega
              rw [this]
              exact hblockcells i hile)
            exact this h1
          cases hZe : Z with
          | nil =>
              have hrest : rest = [] := by
                rw [hZe] at hZblocks
                simpa [blocksOf, blocksAux_nil_zero] using hZblocks.symm
              subst hrest
              refine ⟨List.replicate (pos + off) 1 ++ List.replicate (m + 1) 2 ++ [],
                mem_genPerms.mpr ⟨pos, hrange, hslice, [], by rw [genPerms_nil]; simp, rfl⟩, ?_⟩
              have hXlen' : X.length = pos + off + (m + 1) := by
                rw [hlenX, hZe]; simp; omega
              have hplen : (List.replicate (pos + off) 1 ++ List.replicate (m + 1) 2 ++
                  ([] : List Nat)).length = pos + off + (m + 1) := by simp
              rw [hplen, hXlen', Nat.sub_self, List.replicate_zero, List.append_nil]
              rw [hdec, hZe, hg]
          | cons zh zt =>
              have hzh : zh = 1 := by
                rcases hZhead with hZnil | hZh1
                · rw [hZe] at hZnil; simp at hZnil
                · rw [hZe] at hZh1; simpa using hZh1
              have hZlen1 : 1 ≤ Z.length := by rw [hZe]; simp
              have hremlen : pos + m + 2 ≤ rem.length := by omega
              have hdroplen : (rem.drop (pos + m + 2)).length = rem.length - (pos + m + 2) := by
                simp
              have htail : ∀ i, X.getD (g + (m + 1) + i) 0 = Z.getD i 0 := by
                intro i
                rw [hdec]; exact getD_decomp_tail i
              obtain ⟨sub, hsub, hZdecomp⟩ :=
                ih (fun x hx => hpos x (List.mem_cons_of_mem _ hx))
                  (rem.drop (pos + m + 2)) 1 Z hZbin hZblocks
                  (by rw [hdroplen]; omega)
                  (by
                    intro j hj
                    have hj0 : j = 0 := by omega
                    rw [hj0, hZe, hzh]
                    rfl)
                  (by
                    intro j h2
                    have hX2 : X.getD (off + (pos + m + 2 + j)) 0 = 2 := by
                      have harith : off + (pos + m + 2 + j) = g + (m + 1) + (1 + j) := by omega
                      rw [harith, htail]
                      exact h2
                    have := hcomp (pos + m + 2 + j) hX2
                    rwa [getD_drop])
              refine ⟨List.replicate (pos + off) 1 ++ List.replicate (m + 1) 2 ++ sub,
                mem_genPerms.mpr ⟨pos, hrange, hslice, sub, hsub, rfl⟩, ?_⟩
              have hsublen : sub.length ≤ Z.length := by
                have := genPerms_length hsub
                rw [hdroplen] at this
                omega
              have hlenp : (List.replicate (pos + off) 1 ++ List.replicate (m + 1) 2 ++
                  sub).length = pos + off + (m + 1) + sub.length := by
                simp only [List.length_append, List.length_replicate]
              have hsubst : X.length - (pos + off + (m + 1) + sub.length) =
                  Z.length - sub.length := by omega
              rw [hlenp, hsubst, hdec, hg]
              rw [List.append_assoc, List.append_assoc, List.append_assoc]
              congr 2

/-! ## Line solutions

A `LineSolution` is a fully determined line that realises the hints and
agrees with the current tri-state line at every already-determined cell:
the mathematical object both line solvers quantify over. -/

/-- A full assignment solving one line. -/
def LineSolution (hints segment a : List Nat) : Prop :=
  a.length = segment.length ∧ binary a ∧
    (∀ i, i < segment.length → segment.getD i 0 ≠ 0 → a.getD i 0 = segment.getD i 0) ∧
    blocksOf a = hints

theorem patternMatches_iff {seq c : List Nat} :
    NonogramSolver.patternMatches seq c = true ↔
    ∀ i, i < seq.length → seq.getD i 0 ≠ 0 → c.getD i 0 = seq.getD i 0 := by
  unfold NonogramSolver.patternMatches
  simp only [List.all_eq_true, List.mem_range, Bool.or_eq_true, beq_iff_eq]
  constructor
  · intro h i hi hne
    rcases h i hi with h0 | he
    · exact absurd h0 hne
    · exact he.symm
  · intro h i hi
    by_cases hne : seq.getD i 0 = 0
    · exact Or.inl hne
    · exact Or.inr (h i hi hne).symm

theorem mem_validPatterns {hints seq c : List Nat} :
    c ∈ NonogramSolver.validPatterns hints seq ↔
    ∃ p, p ∈ NonogramSolver.generatePermutations hints seq 0 ∧
      c = NonogramSolver.completePattern seq p ∧
      NonogramSolver.patternMatches seq c = true := by
  unfold NonogramSolver.validPatterns
  rw [List.mem_filterMap]
  constructor
  · rintro ⟨p, hp, heq⟩
    by_cases hm : NonogramSolver.patternMatches seq (NonogramSolver.completePattern seq p)
    · rw [if_pos hm] at heq
      have := Option.some.inj heq
      exact ⟨p, hp, this.symm, this ▸ hm⟩
    · rw [if_neg hm] at heq
      exact absurd heq (by simp)
  · rintro ⟨p, hp, rfl, hm⟩
    exact ⟨p, hp, by rw [if_pos hm]⟩

/-- Lines kept by the synchronous pattern filter are exactly the line
solutions (for positive hints). -/
theorem validPatterns_iff {hints seq c : List Nat} (hpos : ∀ x ∈ hints, 0 < x) :
    c ∈ NonogramSolver.validPatterns hints seq ↔ LineSolution hints seq c := by
  constructor
  · intro hc
    obtain ⟨p, hp, rfl, hm⟩ := mem_validPatterns.mp hc
    have hplen : p.length ≤ seq.length := by simpa using genPerms_length hp
    obtain ⟨hbin, hblocks, _⟩ := genPerms_sound hints seq 0 p hpos hp
    refine ⟨?_, ?_, patternMatches_iff.mp hm, ?_⟩
    · unfold NonogramSolver.completePattern
      simp
      omega
    · intro x hx
      unfold NonogramSolver.completePattern at hx
      rcases List.mem_append.mp hx with hx | hx
      · exact hbin x hx
      · exact Or.inl (List.eq_of_mem_replicate hx)
    · unfold NonogramSolver.completePattern
      rw [blocksOf_append_ones]
      exact hblocks
  · rintro ⟨hlen, hbin, hcompat, hblocks⟩
    obtain ⟨p, hp, hceq⟩ :=
      genPerms_complete hints hpos seq 0 c hbin hblocks (by simpa using hlen)
        (by intro j hj; omega)
        (by
          intro j h2 h1
          by_cases hjl : j < seq.length
          · have hc2 : c.getD j 0 = 2 := by simpa using h2
            have hne0 : seq.getD j 0 ≠ 0 := by rw [h1]; omega
            have hcs := hcompat j hjl hne0
            rw [hc2, h1] at hcs
            omega
          · have hge : c.length ≤ 0 + j := by rw [hlen]; omega
            have hc0 : c.getD (0 + j) 0 = 0 := List.getD_eq_default _ _ hge
            rw [hc0] at h2
            omega)
    apply mem_validPatterns.mpr
    refine ⟨p, hp, ?_, ?_⟩
    · rw [hceq]
      unfold NonogramSolver.completePattern
      rw [hlen]
    · apply patternMatches_iff.mpr
      intro i hi hne
      exact hcompat i hi hne

/-- The valid-pattern list is empty exactly when the line has no solution
(for positive hints). -/
theorem validPatterns_nil_iff {hints seq : List Nat} (hpos : ∀ x ∈ hints, 0 < x) :
    NonogramSolver.validPatterns hints seq = [] ↔ ¬∃ a, LineSolution hints seq a := by
  rw [List.eq_nil_iff_forall_not_mem]
  constructor
  · rintro h ⟨a, ha⟩
    exact h a ((validPatterns_iff hpos).mpr ha)
  · intro h c hc
    exact h ⟨c, (validPatterns_iff hpos).mp hc⟩

/-! ## Positional specification of the worker search -/

/-- `triState l`: every cell is unknown, empty, or filled. -/
def triState (l : List Nat) : Prop := ∀ x ∈ l, x = 0 ∨ x = 1 ∨ x = 2

/-- Positions at which the worker search can place the blocks: each block
passes `canPlaceBlock` at its position, no cell skipped by the scan is
filled, and the suffix after the last block has no filled cell. -/
def posOK : List Nat → List Nat → Nat → List Nat → Prop
  | [], seg, start, [] =>
      ∀ j, start ≤ j → j < seg.length → seg.getD j 0 ≠ 2
  | _ :: _, _, _, [] => False
  | [], _, _, _ :: _ => False
  | h :: rest, seg, start, p :: ps =>
      start ≤ p ∧ SegmentWorker.canPlaceBlock seg p h = true ∧
        (∀ j, start ≤ j → j < p → seg.getD j 0 ≠ 2) ∧
        posOK rest seg (p + h + 1) ps

theorem canPlaceBlock_iff {seg : List Nat} {start len : Nat} :
    SegmentWorker.canPlaceBlock seg start len = true ↔
    (start + len ≤ seg.length ∧
     (start = 0 ∨ seg.getD (start - 1) 0 ≠ 2) ∧
     (seg.length ≤ start + len ∨ seg.getD (start + len) 0 ≠ 2) ∧
     (∀ i, i < len → seg.getD (start + i) 0 ≠ 1)) := by
  unfold SegmentWorker.canPlaceBlock
  simp only [Bool.and_eq_true, Bool.or_eq_true, decide_eq_true_eq, beq_iff_eq,
    bne_iff_ne, List.all_eq_true, List.mem_range, ne_eq]
  tauto

theorem canPlaceHints_nil (seg : List Nat) (start : Nat) :
    SegmentWorker.canPlaceHints [] seg start = !((seg.drop start).contains 2) := by
  rw [SegmentWorker.canPlaceHints]

theorem canPlaceHints_cons (h : Nat) (rest seg : List Nat) (start : Nat) :
    SegmentWorker.canPlaceHints (h :: rest) seg start =
      if seg.length < SegmentWorker.getMinSpaceNeeded (h :: rest) + start then false
      else
        SegmentWorker.cphScan seg h
          (fun nextStart => SegmentWorker.canPlaceHints rest seg nextStart) start
          (seg.length - SegmentWorker.getMinSpaceNeeded (h :: rest) - start + 1) := by
  rw [SegmentWorker.canPlaceHints]

theorem cphScan_succ (seg : List Nat) (h : Nat) (k : Nat → Bool) (i fuel : Nat) :
    SegmentWorker.cphScan seg h k i (fuel + 1) =
      if SegmentWorker.canPlaceBlock seg i h && k (i + h + 1) then true
      else if seg.getD i 0 == 2 then false
      else SegmentWorker.cphScan seg h k (i + 1) fuel := by
  rw [SegmentWorker.cphScan]

theorem canPlaceHints_nil_iff {seg : List Nat} {start : Nat} :
    SegmentWorker.canPlaceHints [] seg start = true ↔
    ∀ j, start ≤ j → j < seg.length → seg.getD j 0 ≠ 2 := by
  rw [canPlaceHints_nil, Bool.not_eq_true']
  rw [contains_two_eq_false]
  constructor
  · intro hall j hsj hjl
    have := hall (j - start) (by simp; omega)
    rw [getD_drop] at this
    have harith : start + (j - start) = j := by omega
    rwa [harith] at this
  · intro hall i hi
    rw [getD_drop]
    simp at hi
    exact hall (start + i) (by omega) (by omega)

/-- Forward reading of the scanning loop. -/
theorem cphScan_sound {h : Nat} {seg : List Nat} {k : Nat → Bool} : ∀ (fuel i : Nat),
    SegmentWorker.cphScan seg h k i fuel = true →
    ∃ p, i ≤ p ∧ p < i + fuel ∧ SegmentWorker.canPlaceBlock seg p h = true ∧
      k (p + h + 1) = true ∧
      (∀ j, i ≤ j → j < p → seg.getD j 0 ≠ 2) := by
  intro fuel
  induction fuel with
  | zero =>
      intro i hscan
      rw [SegmentWorker.cphScan] at hscan
      exact absurd hscan (by simp)
  | succ fuel ih =>
      intro i hscan
      rw [cphScan_succ] at hscan
      by_cases hfirst : SegmentWorker.canPlaceBlock seg i h && k (i + h + 1)
      · rw [Bool.and_eq_true] at hfirst
        exact ⟨i, Nat.le_refl i, by omega, hfirst.1, hfirst.2, fun j h1 h2 => by omega⟩
      · rw [if_neg hfirst] at hscan
        by_cases h2 : seg.getD i 0 == 2
        · rw [if_pos h2] at hscan
          exact absurd hscan (by simp)
        · rw [if_neg h2] at hscan
          obtain ⟨p, hip, hlt, hblock, hrest, hskip⟩ := ih (i + 1) hscan
          refine ⟨p, by omega, by omega, hblock, hrest, ?_⟩
          intro j hij hjp
          by_cases hji : j = i
          · subst hji
            simpa using h2
          · exact hskip j (by omega) hjp
      
/-- Backward reading of the scanning loop. -/
theorem cphScan_complete {h : Nat} {seg : List Nat} {k : Nat → Bool} : ∀ (fuel i p : Nat),
    i ≤ p → p < i + fuel → SegmentWorker.canPlaceBlock seg p h = true →
    k (p + h + 1) = true →
    (∀ j, i ≤ j → j < p → seg.getD j 0 ≠ 2) →
    SegmentWorker.cphScan seg h k i fuel = true := by
  intro fuel
  induction fuel with
  | zero => intro i p _ _ _ _ _; omega
  | succ fuel ih =>
      intro i p hip hlt hblock hrest hskip
      rw [cphScan_succ]
      by_cases hfirst : SegmentWorker.canPlaceBlock seg i h && k (i + h + 1)
      · rw [if_pos hfirst]
      · rw [if_neg hfirst]
        have hne : p ≠ i := by
          intro hpe
          subst hpe
          rw [Bool.and_eq_true] at hfirst
          exact hfirst ⟨hblock, hrest⟩
        have h2i : seg.getD i 0 ≠ 2 := hskip i (Nat.le_refl i) (by omega)
        rw [if_neg (by simpa using h2i)]
        exact ih (i + 1) p (by omega) (by omega) hblock hrest
          (fun j hj hjp => hskip j (by omega) hjp)

/-- `posOK` forces the minimum space bound. -/
theorem posOK_minSpace : ∀ (hints : List Nat), hints ≠ [] → ∀ (seg : List Nat) (start : Nat)
    (ps : List Nat), posOK hints seg start ps →
    SegmentWorker.getMinSpaceNeeded hints + start ≤ seg.length := by
  intro hints
  induction hints with
  | nil => intro hne; exact absurd rfl hne
  | cons h rest ih =>
      intro _ seg start ps hOK
      cases ps with
      | nil => exact absurd hOK (by rw [posOK]; simp)
      | cons p ps =>
          rw [posOK] at hOK
          obtain ⟨hsp, hblock, _, htail⟩ := hOK
          have hfits : p + h ≤ seg.length := (canPlaceBlock_iff.mp hblock).1
          cases hre : rest with
          | nil =>
              unfold SegmentWorker.getMinSpaceNeeded
              simp
              omega
          | cons r rs =>
              have := ih (by simp [hre]) seg (p + h + 1) ps htail
              rw [hre] at this
              unfold SegmentWorker.getMinSpaceNeeded at this ⊢
              simp only [List.sum_cons, List.length_cons] at this ⊢
              omega

/-- The worker feasibility search succeeds exactly on positionally valid
placements (W1). -/
theorem canPlaceHints_iff_posOK : ∀ (hints seg : List Nat) (start : Nat),
    SegmentWorker.canPlaceHints hints seg start = true ↔
    ∃ ps, posOK hints seg start ps := by
  intro hints
  induction hints with
  | nil =>
      intro seg start
      rw [canPlaceHints_nil_iff]
      constructor
      · intro hall
        exact ⟨[], by rw [posOK]; exact hall⟩
      · rintro ⟨ps, hOK⟩
        cases ps with
        | nil => rw [posOK] at hOK; exact hOK
        | cons p ps => exact absurd hOK (by rw [posOK]; simp)
  | cons h rest ih =>
      intro seg start
      rw [canPlaceHints_cons]
      constructor
      · intro hcan
        by_cases hguard : seg.length <
            SegmentWorker.getMinSpaceNeeded (h :: rest) + start
        · rw [if_pos hguard] at hcan
          exact absurd hcan (by simp)
        · rw [if_neg hguard] at hcan
          obtain ⟨p, hip, _, hblock, hrest, hskip⟩ := cphScan_sound _ _ hcan
          obtain ⟨ps, hOK⟩ := (ih seg (p + h + 1)).mp hrest
          exact ⟨p :: ps, by rw [posOK]; exact ⟨hip, hblock, hskip, hOK⟩⟩
      · rintro ⟨ps, hOK⟩
        cases ps with
        | nil => exact absurd hOK (by rw [posOK]; simp)
        | cons p ps =>
            rw [posOK] at hOK
            obtain ⟨hsp, hblock, hskip, htail⟩ := hOK
            have hfits : p + h ≤ seg.length := (canPlaceBlock_iff.mp hblock).1
            have hbound : SegmentWorker.getMinSpaceNeeded (h :: rest) + p ≤ seg.length := by
              cases hre : rest with
              | nil =>
                  unfold SegmentWorker.getMinSpaceNeeded
                  simp
                  omega
              | cons r rs =>
                  have := posOK_minSpace rest (by simp [hre]) seg (p + h + 1) ps htail
                  unfold SegmentWorker.getMinSpaceNeeded at this ⊢
                  rw [hre] at *
                  simp at this ⊢
                  omega
            have hguard : ¬(seg.length <
                SegmentWorker.getMinSpaceNeeded (h :: rest) + start) := by omega
            rw [if_neg hguard]
            apply cphScan_complete _ _ p hsp (by omega) hblock
              ((ih seg (p + h + 1)).mpr ⟨ps, htail⟩) hskip

/-! ## Forced-cell dichotomy (the unreachable contradictory branch) -/

/-- Cell `i` lies inside one of the placed blocks. -/
def coveredBy : List Nat → List Nat → Nat → Prop
  | [], _, _ => False
  | _ :: _, [], _ => False
  | h :: rest, p :: ps, i => (p ≤ i ∧ i < p + h) ∨ coveredBy rest ps i

theorem coveredBy_nil_left (ps : List Nat) (i : Nat) : ¬coveredBy [] ps i := by
  cases ps <;> (rw [coveredBy]; simp)

theorem posOK_cover_lb : ∀ (hints ps seg : List Nat) (start i : Nat),
    posOK hints seg start ps → coveredBy hints ps i → start ≤ i := by
  intro hints
  induction hints with
  | nil => intro ps seg start i _ hcov; exact absurd hcov (coveredBy_nil_left ps i)
  | cons h rest ih =>
      intro ps seg start i hOK hcov
      cases ps with
      | nil => rw [posOK] at hOK; exact absurd hOK (by simp)
      | cons p ps =>
          rw [posOK] at hOK
          rw [coveredBy] at hcov
          obtain ⟨hsp, _, _, htail⟩ := hOK
          rcases hcov with ⟨hpi, _⟩ | hdeep
          · omega
          · have := ih ps seg (p + h + 1) i htail hdeep
            omega

/-- Setting a covered cell to filled preserves a valid placement. -/
theorem posOK_set_far : ∀ (hints ps seg : List Nat) (start i v : Nat),
    posOK hints seg start ps → i + 2 ≤ start → posOK hints (seg.set i v) start ps := by
  intro hints
  induction hints with
  | nil =>
      intro ps seg start i v hOK hfar
      cases ps with
      | nil =>
          rw [posOK] at hOK ⊢
          intro j hsj hjl
          rw [getD_set]
          split
          · omega
          · exact hOK j hsj (by simpa using hjl)
      | cons p ps => rw [posOK] at hOK; exact absurd hOK (by simp)
  | cons h rest ih =>
      intro ps seg start i v hOK hfar
      cases ps with
      | nil => rw [posOK] at hOK; exact absurd hOK (by simp)
      | cons p ps =>
          rw [posOK] at hOK ⊢
          obtain ⟨hsp, hblock, hskip, htail⟩ := hOK
          obtain ⟨hfit, hbefore, hafter, hcells⟩ := canPlaceBlock_iff.mp hblock
          refine ⟨hsp, canPlaceBlock_iff.mpr ⟨by simpa using hfit, ?_, ?_, ?_⟩, ?_, ?_⟩
          · rcases hbefore with h0 | hne
            · exact Or.inl h0
            · right
              rw [getD_set]
              split
              · omega
              · exact hne
          · rcases hafter with h0 | hne
            · exact Or.inl (by simpa using h0)
            · right
              rw [getD_set]
              split
              · omega
              · exact hne
          · intro k hk
            rw [getD_set]
            split
            · omega
            · exact hcells k hk
          · intro j hsj hjp
            rw [getD_set]
            split
            · omega
            · exact hskip j hsj hjp
          · exact ih ps seg (p + h + 1) i v htail (by omega)

theorem posOK_set_two : ∀ (hints ps seg : List Nat) (start i : Nat),
    posOK hints seg start ps → coveredBy hints ps i →
    posOK hints (seg.set i 2) start ps := by
  intro hints
  induction hints with
  | nil => intro ps seg start i _ hcov; exact absurd hcov (coveredBy_nil_left ps i)
  | cons h rest ih =>
      intro ps seg start i hOK hcov
      cases ps with
      | nil => rw [posOK] at hOK; exact absurd hOK (by simp)
      | cons p ps =>
          rw [posOK] at hOK ⊢
          rw [coveredBy] at hcov
          obtain ⟨hsp, hblock, hskip, htail⟩ := hOK
          obtain ⟨hfit, hbefore, hafter, hcells⟩ := canPlaceBlock_iff.mp hblock
          have hige : p ≤ i := by
            rcases hcov with ⟨hpi, _⟩ | hdeep
            · exact hpi
            · have := posOK_cover_lb rest ps seg (p + h + 1) i htail hdeep
              omega
          have hinotafter : i ≠ p + h ∧ (p = 0 ∨ i ≠ p - 1) := by
            rcases hcov with ⟨hpi, hlt⟩ | hdeep
            · exact ⟨by omega, by omega⟩
            · have := posOK_cover_lb rest ps seg (p + h + 1) i htail hdeep
              exact ⟨by omega, by omega⟩
          refine ⟨hsp, canPlaceBlock_iff.mpr ⟨by simpa using hfit, ?_, ?_, ?_⟩, ?_, ?_⟩
          · by_cases hp0 : p = 0
            · exact Or.inl hp0
            · have hne' : i ≠ p - 1 := hinotafter.2.resolve_left hp0
              right
              rw [getD_set]
              split
              · omega
              · exact hbefore.resolve_left hp0
          · rcases hafter with h0 | hne
            · exact Or.inl (by simpa using h0)
            · have hne' : i ≠ p + h := hinotafter.1
              right
              rw [getD_set]
              split
              · omega
              · exact hne
          · intro k hk
            rw [getD_set]
            split
            · omega
            · exact hcells k hk
          · intro j hsj hjp
            rw [getD_set]
            split
            · omega
            · exact hskip j hsj hjp
          · rcases hcov with ⟨hpi, hlt⟩ | hdeep
            · exact posOK_set_far rest ps seg (p + h + 1) i 2 htail (by omega)
            · exact ih ps seg (p + h + 1) i htail hdeep

theorem posOK_set_one : ∀ (hints ps seg : List Nat) (start i : Nat),
    posOK hints seg start ps → ¬coveredBy hints ps i →
    posOK hints (seg.set i 1) start ps := by
  intro hints
  induction hints with
  | nil =>
      intro ps seg start i hOK _
      cases ps with
      | nil =>
          rw [posOK] at hOK ⊢
          intro j hsj hjl
          rw [getD_set]
          split
          · omega
          · exact hOK j hsj (by simpa using hjl)
      | cons p ps => rw [posOK] at hOK; exact absurd hOK (by simp)
  | cons h rest ih =>
      intro ps seg start i hOK hncov
      cases ps with
      | nil => rw [posOK] at hOK; exact absurd hOK (by simp)
      | cons p ps =>
          rw [posOK] at hOK ⊢
          rw [coveredBy] at hncov
          push_neg at hncov
          obtain ⟨hnblock, hndeep⟩ := hncov
          obtain ⟨hsp, hblock, hskip, htail⟩ := hOK
          obtain ⟨hfit, hbefore, hafter, hcells⟩ := canPlaceBlock_iff.mp hblock
          refine ⟨hsp, canPlaceBlock_iff.mpr ⟨by simpa using hfit, ?_, ?_, ?_⟩, ?_, ?_⟩
          · rcases hbefore with h0 | hne
            · exact Or.inl h0
            · right
              rw [getD_set]
              split
              · omega
              · exact hne
          · rcases hafter with h0 | hne
            · exact Or.inl (by simpa using h0)
            · right
              rw [getD_set]
              split
              · omega
              · exact hne
          · intro k hk
            rw [getD_set]
            split
            · have := hnblock (by omega)
              omega
            · exact hcells k hk
          · intro j hsj hjp
            rw [getD_set]
            split
            · omega
            · exact hskip j hsj hjp
          · exact ih ps seg (p + h + 1) i htail hndeep

/-- Under whole-line feasibility, every unknown cell admits at least one of
the two probes: the both-probes-fail branch is unreachable. -/
theorem forced_cell_dichotomy (hints seg : List Nat) (i : Nat)
    (hfeas : SegmentWorker.canPlaceHints hints seg 0 = true) :
    SegmentWorker.canPlaceHints hints (seg.set i 2) 0 = true ∨
    SegmentWorker.canPlaceHints hints (seg.set i 1) 0 = true := by
  obtain ⟨ps, hOK⟩ := (canPlaceHints_iff_posOK hints seg 0).mp hfeas
  by_cases hcov : coveredBy hints ps i
  · exact Or.inl ((canPlaceHints_iff_posOK hints (seg.set i 2) 0).mpr
      ⟨ps, posOK_set_two hints ps seg 0 i hOK hcov⟩)
  · exact Or.inr ((canPlaceHints_iff_posOK hints (seg.set i 1) 0).mpr
      ⟨ps, posOK_set_one hints ps seg 0 i hOK hcov⟩)

/-! ## From placements to line solutions (W2, forward) -/

theorem blocksOf_replicate_one (k : Nat) : blocksOf (List.replicate k 1) = [] := by
  have := blocksAux_replicate_one k []
  simpa [blocksOf] using this

theorem blocksOf_cons_one (t : List Nat) : blocksOf (1 :: t) = blocksOf t :=
  blocksAux_cons_ne_zero t (by omega)

/-- The full line induced by a placement: skipped cells and gaps empty,
blocks filled. -/
def asg : List Nat → List Nat → Nat → Nat → List Nat
  | h :: rest, p :: ps, start, len =>
      List.replicate (p - start) 1 ++ List.replicate h 2 ++
        (if p + h < len then 1 :: asg rest ps (p + h + 1) len else [])
  | _, _, start, len => List.replicate (len - start) 1

theorem asg_nil (ps : List Nat) (start len : Nat) :
    asg [] ps start len = List.replicate (len - start) 1 := by
  cases ps <;> rfl

theorem asg_cons_nil (h : Nat) (rest : List Nat) (start len : Nat) :
    asg (h :: rest) [] start len = List.replicate (len - start) 1 := rfl

theorem asg_cons_cons (h : Nat) (rest : List Nat) (p : Nat) (ps : List Nat)
    (start len : Nat) :
    asg (h :: rest) (p :: ps) start len =
      List.replicate (p - start) 1 ++ List.replicate h 2 ++
        (if p + h < len then 1 :: asg rest ps (p + h + 1) len else []) := rfl

theorem asg_length : ∀ (hints ps seg : List Nat) (start : Nat),
    posOK hints seg start ps → start ≤ seg.length →
    (asg hints ps start seg.length).length = seg.length - start := by
  intro hints
  induction hints with
  | nil =>
      intro ps seg start hOK _
      cases ps with
      | nil => rw [asg_nil]; simp
      | cons p ps => rw [posOK] at hOK; exact absurd hOK (by simp)
  | cons h rest ih =>
      intro ps seg start hOK hsl
      cases ps with
      | nil => rw [posOK] at hOK; exact absurd hOK (by simp)
      | cons p ps =>
          rw [posOK] at hOK
          obtain ⟨hsp, hblock, _, htail⟩ := hOK
          have hfit : p + h ≤ seg.length := (canPlaceBlock_iff.mp hblock).1
          rw [asg_cons_cons]
          by_cases hlt : p + h < seg.length
          · rw [if_pos hlt]
            have := ih ps seg (p + h + 1) htail (by omega)
            simp only [List.length_append, List.length_replicate, List.length_cons]
            omega
          · rw [if_neg hlt]
            simp only [List.length_append, List.length_replicate, List.length_nil]
            omega

theorem asg_binary : ∀ (hints ps : List Nat) (start len : Nat),
    ∀ x ∈ asg hints ps start len, x = 1 ∨ x = 2 := by
  intro hints
  induction hints with
  | nil =>
      intro ps start len x hx
      rw [asg_nil] at hx
      exact Or.inl (List.eq_of_mem_replicate hx)
  | cons h rest ih =>
      intro ps start len x hx
      cases ps with
      | nil =>
          rw [asg_cons_nil] at hx
          exact Or.inl (List.eq_of_mem_replicate hx)
      | cons p ps =>
          rw [asg_cons_cons] at hx
          rcases List.mem_append.mp hx with hx | hx
          · rcases List.mem_append.mp hx with hx | hx
            · exact Or.inl (List.eq_of_mem_replicate hx)
            · exact Or.inr (List.eq_of_mem_replicate hx)
          · by_cases hlt : p + h < len
            · rw [if_pos hlt] at hx
              rcases List.mem_cons.mp hx with rfl | hx
              · exact Or.inl rfl
              · exact ih ps (p + h + 1) len x hx
            · rw [if_neg hlt] at hx
              simp at hx

theorem asg_blocks : ∀ (hints ps seg : List Nat) (start : Nat),
    (∀ x ∈ hints, 0 < x) → posOK hints seg start ps →
    blocksOf (asg hints ps start seg.length) = hints := by
  intro hints
  induction hints with
  | nil =>
      intro ps seg start _ hOK
      cases ps with
      | nil => rw [asg_nil]; exact blocksOf_replicate_one _
      | cons p ps => rw [posOK] at hOK; exact absurd hOK (by simp)
  | cons h rest ih =>
      intro ps seg start hpos hOK
      cases ps with
      | nil => rw [posOK] at hOK; exact absurd hOK (by simp)
      | cons p ps =>
          rw [posOK] at hOK
          obtain ⟨hsp, hblock, _, htail⟩ := hOK
          have hh : 0 < h := hpos h (List.mem_cons_self h rest)
          rw [asg_cons_cons]
          by_cases hlt : p + h < seg.length
          · rw [if_pos hlt]
            rw [blocksOf_compose (p - start) h (1 :: asg rest ps (p + h + 1) seg.length)
              hh (Or.inr rfl)]
            rw [blocksOf_cons_one]
            rw [ih ps seg (p + h + 1) (fun x hx => hpos x (List.mem_cons_of_mem _ hx)) htail]
          · rw [if_neg hlt]
            rw [blocksOf_compose (p - start) h [] hh (Or.inl rfl)]
            cases hre : rest with
            | nil => rfl
            | cons r rs =>
                subst hre
                have hfit : p + h ≤ seg.length := (canPlaceBlock_iff.mp hblock).1
                have hbound := posOK_minSpace (r :: rs) (by simp) seg (p + h + 1) ps htail
                have hrpos : 0 < r :=
                  hpos r (List.mem_cons_of_mem h (List.mem_cons_self r rs))
                have hms : 0 < SegmentWorker.getMinSpaceNeeded (r :: rs) := by
                  unfold SegmentWorker.getMinSpaceNeeded
                  simp
                  omega
                exact absurd hbound (by omega)

theorem asg_compat : ∀ (hints ps seg : List Nat) (start : Nat),
    triState seg → posOK hints seg start ps →
    ∀ j, start ≤ j → j < seg.length → seg.getD j 0 ≠ 0 →
      (asg hints ps start seg.length).getD (j - start) 0 = seg.getD j 0 := by
  intro hints
  induction hints with
  | nil =>
      intro ps seg start htri hOK j hsj hjl hne
      cases ps with
      | nil =>
          rw [posOK] at hOK
          rw [asg_nil, getD_replicate, if_pos (by omega)]
          rcases htri (seg.getD j 0) (getD_mem hjl) with h0 | h1 | h2
          · exact absurd h0 hne
          · exact h1.symm
          · exact absurd h2 (hOK j hsj hjl)
      | cons p ps => rw [posOK] at hOK; exact absurd hOK (by simp)
  | cons h rest ih =>
      intro ps seg start htri hOK j hsj hjl hne
      cases ps with
      | nil => rw [posOK] at hOK; exact absurd hOK (by simp)
      | cons p ps =>
          rw [posOK] at hOK
          obtain ⟨hsp, hblock, hskip, htail⟩ := hOK
          obtain ⟨hfit, _, hafter, hcells⟩ := canPlaceBlock_iff.mp hblock
          rw [asg_cons_cons]
          by_cases hjp : j < p
          · rw [getD_append_left _ (by simp; omega), getD_append_left _ (by simp; omega)]
            rw [getD_replicate, if_pos (by omega)]
            rcases htri (seg.getD j 0) (getD_mem hjl) with h0 | h1 | h2
            · exact absurd h0 hne
            · exact h1.symm
            · exact absurd h2 (hskip j hsj hjp)
          · by_cases hjb : j < p + h
            · have harith : j - start = (p - start) + (j - p) := by omega
              rw [harith, getD_decomp_block (by omega)]
              rcases htri (seg.getD j 0) (getD_mem hjl) with h0 | h1 | h2
              · exact absurd h0 hne
              · have hc := hcells (j - p) (by omega)
                have harj : p + (j - p) = j := by omega
                rw [harj] at hc
                exact absurd h1 hc
              · exact h2.symm
            · have hlt : p + h < seg.length := by omega
              rw [if_pos hlt]
              by_cases hje : j = p + h
              · have harith : j - start = (p - start) + h + 0 := by omega
                rw [harith, getD_decomp_tail]
                have hne2 : seg.getD j 0 ≠ 2 := by
                  rcases hafter with hll | hnn
                  · omega
                  · rw [hje]; exact hnn
                rcases htri (seg.getD j 0) (getD_mem hjl) with h0 | h1 | h2
                · exact absurd h0 hne
                · rw [h1]; rfl
                · exact absurd h2 hne2
              · have harith : j - start = (p - start) + h + (j - p - h) := by omega
                rw [harith, getD_decomp_tail]
                have hix : ∃ k, j - p - h = k + 1 := ⟨j - p - h - 1, by omega⟩
                obtain ⟨k, hk⟩ := hix
                rw [hk]
                show (asg rest ps (p + h + 1) seg.length).getD k 0 = seg.getD j 0
                have hkj : k = j - (p + h + 1) := by omega
                rw [hkj]
                exact ih ps seg (p + h + 1) htri htail j (by omega) hjl hne

/-- A positionally valid placement yields a line solution. -/
theorem posOK_to_lineSol {hints seg : List Nat} (hpos : ∀ x ∈ hints, 0 < x)
    (htri : triState seg) {ps : List Nat} (hOK : posOK hints seg 0 ps) :
    ∃ a, LineSolution hints seg a := by
  refine ⟨asg hints ps 0 seg.length, ?_, ?_, ?_, ?_⟩
  · rw [asg_length hints ps seg 0 hOK (by omega)]
    omega
  · intro x hx
    exact asg_binary hints ps 0 seg.length x hx
  · intro i hi hne
    have := asg_compat hints ps seg 0 htri hOK i (by omega) hi hne
    simpa using this
  · exact asg_blocks hints ps seg 0 hpos hOK

/-! ## From line solutions to placements (W2, backward) -/

theorem binary_drop {a : List Nat} (hbin : binary a) (n : Nat) : binary (a.drop n) :=
  fun x hx => hbin x (List.mem_of_mem_drop hx)

/-- A line solution induces a positionally valid placement, relative to any
search start whose preceding cell is not filled. -/
theorem lineSol_to_posOK : ∀ (hints : List Nat), (∀ x ∈ hints, 0 < x) →
    ∀ (seg a : List Nat) (start : Nat),
    a.length = seg.length → binary a →
    (∀ i, i < seg.length → seg.getD i 0 ≠ 0 → a.getD i 0 = seg.getD i 0) →
    blocksOf (a.drop start) = hints →
    (start = 0 ∨ a.getD (start - 1) 0 ≠ 2) →
    ∃ ps, posOK hints seg start ps := by
  intro hints
  induction hints with
  | nil =>
      intro _ seg a start hlen hbin hcompat hblocks _
      refine ⟨[], ?_⟩
      rw [posOK]
      intro j hsj hjl h2
      have ha2 : a.getD j 0 = 2 := by rw [hcompat j hjl (by rw [h2]; omega), h2]
      have hdj : (a.drop start).getD (j - start) 0 = 2 := by
        rw [getD_drop]
        have harith : start + (j - start) = j := by omega
        rw [harith]
        exact ha2
      have hjd : j - start < (a.drop start).length := by simp; omega
      exact no_two_of_blocksOf_nil hblocks (j - start) hjd hdj
  | cons h rest ih =>
      intro hpos seg a start hlen hbin hcompat hblocks hstart
      have hh : 0 < h := hpos h (List.mem_cons_self h rest)
      obtain ⟨g, Z, hdec, hZhead, hZblocks, hZbin⟩ :=
        blocks_decomp (a.drop start) (binary_drop hbin start) h rest hblocks
      have hDlen : (a.drop start).length = a.length - start := by simp
      have hDne : a.drop start ≠ [] := by
        intro hnil
        rw [hnil] at hblocks
        simp [blocksOf, blocksAux_nil_zero] at hblocks
      have hstartlt : start < a.length := by
        by_contra hge
        exact hDne (List.drop_eq_nil_of_le (by omega))
      have hdecomplen : (a.drop start).length = g + h + Z.length := by
        rw [hdec]; simp; omega
      set p := start + g with hp_def
      -- index bridge: cells of `a` at `start + i` are cells of the decomposition
      have hidx : ∀ i, a.getD (start + i) 0 = (a.drop start).getD i 0 := by
        intro i
        rw [getD_drop]
      have hblockcell : ∀ i, i < h → a.getD (p + i) 0 = 2 := by
        intro i hi
        have harith : p + i = start + (g + i) := by omega
        rw [harith, hidx, hdec]
        exact getD_decomp_block hi
      have hskipcell : ∀ j, start ≤ j → j < p → a.getD j 0 = 1 := by
        intro j hsj hjp
        have harith : j = start + (j - start) := by omega
        rw [harith, hidx, hdec]
        rw [getD_append_left _ (by simp; omega), getD_append_left _ (by simp; omega)]
        rw [getD_replicate, if_pos (by omega)]
      have htailcell : ∀ i, a.getD (p + h + i) 0 = Z.getD i 0 := by
        intro i
        have harith : p + h + i = start + (g + h + i) := by omega
        rw [harith, hidx, hdec]
        exact getD_decomp_tail i
      have hseg_ne2 : ∀ j, j < seg.length → a.getD j 0 ≠ 2 → seg.getD j 0 ≠ 2 := by
        intro j hjl hane hseg2
        exact hane (by rw [hcompat j hjl (by rw [hseg2]; omega), hseg2])
      have hseg_ne1 : ∀ j, j < seg.length → a.getD j 0 ≠ 1 → seg.getD j 0 ≠ 1 := by
        intro j hjl hane hseg1
        exact hane (by rw [hcompat j hjl (by rw [hseg1]; omega), hseg1])
      have hfit : p + h ≤ seg.length := by
        rw [← hlen]
        omega
      have hblockOK : SegmentWorker.canPlaceBlock seg p h = true := by
        apply canPlaceBlock_iff.mpr
        refine ⟨hfit, ?_, ?_, ?_⟩
        · by_cases hg : 0 < g
          · right
            apply hseg_ne2 (p - 1) (by omega)
            have hg1 : a.getD (p - 1) 0 = 1 := hskipcell (p - 1) (by omega) (by omega)
            rw [hg1]
            omega
          · rcases hstart with h0 | hne
            · left; omega
            · right
              apply hseg_ne2 (p - 1) (by omega)
              have : p - 1 = start - 1 := by omega
              rw [this]
              exact hne
        · cases hZe : Z with
          | nil =>
              left
              rw [← hlen]
              rw [hZe] at hdecomplen
              simp at hdecomplen
              omega
          | cons zh zt =>
              have hzh : zh = 1 := by
                rcases hZhead with hZnil | hZh1
                · rw [hZe] at hZnil; simp at hZnil
                · rw [hZe] at hZh1; simpa using hZh1
              have hplen : p + h < a.length := by
                rw [hZe] at hdecomplen
                simp at hdecomplen
                omega
              right
              apply hseg_ne2 (p + h) (by omega)
              have ht0 := htailcell 0
              rw [Nat.add_zero] at ht0
              rw [ht0, hZe, hzh]
              simp
        · intro i hi
          apply hseg_ne1 (p + i) (by omega)
          rw [hblockcell i hi]
          omega
      have hskipOK : ∀ j, start ≤ j → j < p → seg.getD j 0 ≠ 2 := by
        intro j hsj hjp
        apply hseg_ne2 j (by omega)
        rw [hskipcell j hsj hjp]
        omega
      have hdd : a.drop (p + h + 1) = Z.drop 1 := by
        have h1 : a.drop (p + h + 1) = (a.drop start).drop (g + h + 1) := by
          rw [List.drop_drop]
          congr 1
          omega
        rw [h1, hdec]
        have h2 : (List.replicate g 1 ++ List.replicate h 2).length = g + h := by simp
        calc (List.replicate g 1 ++ List.replicate h 2 ++ Z).drop (g + h + 1)
            = (List.replicate g 1 ++ List.replicate h 2 ++ Z).drop
                ((List.replicate g 1 ++ List.replicate h 2).length + 1) := by rw [h2]
          _ = Z.drop 1 := List.drop_append 1
      have htailblocks : blocksOf (a.drop (p + h + 1)) = rest := by
        rw [hdd]
        cases hZe : Z with
        | nil =>
            rw [hZe] at hZblocks
            simp only [List.drop_nil]
            rw [← hZblocks]
        | cons zh zt =>
            have hzh : zh = 1 := by
              rcases hZhead with hZnil | hZh1
              · rw [hZe] at hZnil; simp at hZnil
              · rw [hZe] at hZh1; simpa using hZh1
            simp only [List.drop_succ_cons, List.drop_zero]
            rw [hZe, hzh] at hZblocks
            rw [blocksOf_cons_one] at hZblocks
            exact hZblocks
      have hboundary : p + h + 1 = 0 ∨ a.getD (p + h + 1 - 1) 0 ≠ 2 := by
        right
        have harith : p + h + 1 - 1 = p + h := by omega
        rw [harith]
        cases hZe : Z with
        | nil =>
            have hout : a.length ≤ p + h := by
              rw [hZe] at hdecomplen
              simp at hdecomplen
              omega
            rw [List.getD_eq_default _ _ hout]
            omega
        | cons zh zt =>
            have hzh : zh = 1 := by
              rcases hZhead with hZnil | hZh1
              · rw [hZe] at hZnil; simp at hZnil
              · rw [hZe] at hZh1; simpa using hZh1
            have ht0 := htailcell 0
            rw [Nat.add_zero] at ht0
            rw [ht0, hZe, hzh]
            simp
      obtain ⟨ps, htailOK⟩ :=
        ih (fun x hx => hpos x (List.mem_cons_of_mem _ hx)) seg a (p + h + 1)
          hlen hbin hcompat htailblocks hboundary
      refine ⟨p :: ps, ?_⟩
      rw [posOK]
      exact ⟨by omega, hblockOK, hskipOK, htailOK⟩

/-! ## The worker bridge and quick rejection -/

/-- The worker feasibility search succeeds exactly when the line has a
solution (positive hints, tri-state line). -/
theorem canPlaceHints_iff_lineSol {hints seg : List Nat}
    (hpos : ∀ x ∈ hints, 0 < x) (htri : triState seg) :
    SegmentWorker.canPlaceHints hints seg 0 = true ↔ ∃ a, LineSolution hints seg a := by
  rw [canPlaceHints_iff_posOK]
  constructor
  · rintro ⟨ps, hOK⟩
    exact posOK_to_lineSol hpos htri hOK
  · rintro ⟨a, hlen, hbin, hcompat, hblocks⟩
    exact lineSol_to_posOK hints hpos seg a 0 hlen hbin hcompat (by simpa using hblocks)
      (Or.inl rfl)

theorem lineSol_minSpace {hints seg a : List Nat} (hs : LineSolution hints seg a) :
    SegmentWorker.getMinSpaceNeeded hints ≤ seg.length := by
  obtain ⟨hlen, hbin, _, hblocks⟩ := hs
  have := minSpace_le_length hbin hblocks
  omega

theorem filter_two_eq_count (l : List Nat) :
    (l.filter (fun c => c == 2)).length = l.count 2 := by
  rw [List.count]
  rw [List.countP_eq_length_filter]

theorem lineSol_filled_le {hints seg a : List Nat} (hs : LineSolution hints seg a) :
    (seg.filter (fun c => c == 2)).length ≤ hints.sum := by
  obtain ⟨hlen, hbin, hcompat, hblocks⟩ := hs
  rw [filter_two_eq_count]
  have h1 : seg.count 2 ≤ a.count 2 := by
    apply count_le_of_pointwise hlen.symm
    intro i hi h2
    rw [hcompat i hi (by omega), h2]
  have h2 : a.count 2 = hints.sum := by
    rw [← blocksOf_sum, hblocks]
  omega

theorem triState_set {seg : List Nat} (htri : triState seg) {v : Nat}
    (hv : v = 1 ∨ v = 2) (i : Nat) : triState (seg.set i v) := by
  intro x hx
  rcases List.mem_or_eq_of_mem_set hx with hx | rfl
  · exact htri x hx
  · rcases hv with rfl | rfl
    · exact Or.inr (Or.inl rfl)
    · exact Or.inr (Or.inr rfl)

/-- Probing an unknown cell restricts the solutions to those with the probe
value at that cell. -/
theorem lineSol_set_iff {hints seg : List Nat} {i v : Nat} (hi : i < seg.length)
    (hu : seg.getD i 0 = 0) (hv : v ≠ 0) :
    (∃ a, LineSolution hints (seg.set i v) a) ↔
    ∃ a, LineSolution hints seg a ∧ a.getD i 0 = v := by
  constructor
  · rintro ⟨a, hlen, hbin, hcompat, hblocks⟩
    have hset_len : (seg.set i v).length = seg.length := by simp
    have hai : a.getD i 0 = v := by
      have := hcompat i (by omega)
      rw [getD_set] at this
      rw [if_pos ⟨rfl, hi⟩] at this
      exact this hv
    refine ⟨a, ⟨by omega, hbin, ?_, hblocks⟩, hai⟩
    intro j hj hne
    have := hcompat j (by omega)
    rw [getD_set] at this
    by_cases hij : i = j
    · subst hij
      exact absurd hu hne
    · rw [if_neg (by tauto)] at this
      exact this hne
  · rintro ⟨a, ⟨hlen, hbin, hcompat, hblocks⟩, hai⟩
    refine ⟨a, by simpa using hlen, hbin, ?_, hblocks⟩
    intro j hj hne
    rw [getD_set] at hne ⊢
    by_cases hij : i = j ∧ j < seg.length
    · rw [if_pos hij] at hne ⊢
      rw [← hij.1]
      exact hai
    · rw [if_neg hij] at hne ⊢
      exact hcompat j (by simpa using hj) hne

/-- `checkMustBe` succeeds exactly when some solution uses the probe value
(positive hints, tri-state line, unknown cell). -/
theorem checkMustBe_iff {hints seg : List Nat} {i v : Nat}
    (hpos : ∀ x ∈ hints, 0 < x) (htri : triState seg) (hi : i < seg.length)
    (hu : seg.getD i 0 = 0) (hv : v = 1 ∨ v = 2) :
    SegmentWorker.checkMustBe hints seg i v = true ↔
    ∃ a, LineSolution hints seg a ∧ a.getD i 0 = v := by
  unfold SegmentWorker.checkMustBe
  rw [canPlaceHints_iff_lineSol hpos (triState_set htri hv i)]
  exact lineSol_set_iff hi hu (by omega)

/-! ## The intersection fold of the synchronous solver -/

theorem intersectPattern_length (r pat : List Nat) :
    (NonogramSolver.intersectPattern r pat).length = r.length := by
  unfold NonogramSolver.intersectPattern
  simp

theorem intersectPattern_getD {r pat : List Nat} {i : Nat} (hi : i < r.length) :
    (NonogramSolver.intersectPattern r pat).getD i 0 =
    if r.getD i 0 = pat.getD i 0 then r.getD i 0 else 0 := by
  unfold NonogramSolver.intersectPattern
  rw [getD_mapIdx _ _ _ hi]
  split
  · rw [if_pos (by simpa using (by assumption : (r.getD i 0 == pat.getD i 0) = true))]
  · rw [if_neg (by simpa using (by assumption : ¬(r.getD i 0 == pat.getD i 0) = true))]

theorem foldl_intersect_length : ∀ (rest : List (List Nat)) (first : List Nat),
    (rest.foldl NonogramSolver.intersectPattern first).length = first.length := by
  intro rest
  induction rest with
  | nil => intro first; rfl
  | cons c cs ih =>
      intro first
      rw [List.foldl_cons, ih, intersectPattern_length]

theorem foldl_intersect_getD : ∀ (rest : List (List Nat)) (first : List Nat) (i : Nat),
    i < first.length →
    (rest.foldl NonogramSolver.intersectPattern first).getD i 0 =
      if ∀ c ∈ rest, c.getD i 0 = first.getD i 0 then first.getD i 0 else 0 := by
  intro rest
  induction rest with
  | nil =>
      intro first i _
      rw [if_pos (by intro c hc; simp at hc)]
      rfl
  | cons c cs ih =>
      intro first i hi
      rw [List.foldl_cons]
      have hleni : i < (NonogramSolver.intersectPattern first c).length := by
        rw [intersectPattern_length]; exact hi
      rw [ih _ i hleni]
      by_cases hc : first.getD i 0 = c.getD i 0
      · have hgi : (NonogramSolver.intersectPattern first c).getD i 0 = first.getD i 0 := by
          rw [intersectPattern_getD hi, if_pos hc]
        rw [hgi]
        by_cases hall : ∀ d ∈ cs, d.getD i 0 = first.getD i 0
        · rw [if_pos hall, if_pos ?hcons]
          case hcons =>
            intro d hd
            rcases List.mem_cons.mp hd with rfl | hd
            · exact hc.symm
            · exact hall d hd
        · rw [if_neg hall, if_neg ?hncons]
          case hncons =>
            intro hcontra
            exact hall (fun d hd => hcontra d (List.mem_cons_of_mem _ hd))
      · have hgi : (NonogramSolver.intersectPattern first c).getD i 0 = 0 := by
          rw [intersectPattern_getD hi, if_neg hc]
        rw [hgi]
        have hLHS : (if ∀ d ∈ cs, d.getD i 0 = 0 then (0 : Nat) else 0) = 0 := by
          by_cases hall : ∀ d ∈ cs, d.getD i 0 = 0
          · rw [if_pos hall]
          · rw [if_neg hall]
        rw [hLHS]
        rw [if_neg ?hnc]
        case hnc =>
          intro hcontra
          exact hc (hcontra c (List.mem_cons_self c cs)).symm

/-! ## The two line solvers agree -/

theorem validPatterns_length {hints seq c : List Nat}
    (hc : c ∈ NonogramSolver.validPatterns hints seq) : c.length = seq.length := by
  obtain ⟨p, hp, rfl, _⟩ := mem_validPatterns.mp hc
  have := genPerms_length hp
  unfold NonogramSolver.completePattern
  simp
  omega

theorem genPerms_binary : ∀ (hints rem : List Nat) (off : Nat) (p : List Nat),
    p ∈ NonogramSolver.generatePermutations hints rem off → ∀ x ∈ p, x = 1 ∨ x = 2 := by
  intro hints
  induction hints with
  | nil =>
      intro rem off p hp x hx
      rw [genPerms_nil] at hp
      simp at hp
      subst hp
      simp at hx
  | cons h rest ih =>
      intro rem off p hp x hx
      cases h with
      | zero =>
          rw [genPerms_zero] at hp
          simp at hp
          subst hp
          simp at hx
      | succ m =>
          obtain ⟨pos, _, _, sub, hsub, rfl⟩ := mem_genPerms.mp hp
          rcases List.mem_append.mp hx with hx | hx
          · rcases List.mem_append.mp hx with hx | hx
            · exact Or.inl (List.eq_of_mem_replicate hx)
            · exact Or.inr (List.eq_of_mem_replicate hx)
          · exact ih _ 1 sub hsub x hx

theorem validPatterns_binary {hints seq c : List Nat}
    (hc : c ∈ NonogramSolver.validPatterns hints seq) : binary c := by
  obtain ⟨p, hp, rfl, _⟩ := mem_validPatterns.mp hc
  intro x hx
  unfold NonogramSolver.completePattern at hx
  rcases List.mem_append.mp hx with hx | hx
  · exact genPerms_binary hints seq 0 p hp x hx
  · exact Or.inl (List.eq_of_mem_replicate hx)

theorem validPatterns_compat {hints seq c : List Nat}
    (hc : c ∈ NonogramSolver.validPatterns hints seq) :
    ∀ i, i < seq.length → seq.getD i 0 ≠ 0 → c.getD i 0 = seq.getD i 0 := by
  obtain ⟨p, hp, rfl, hm⟩ := mem_validPatterns.mp hc
  exact patternMatches_iff.mp hm

theorem sync_resolve_eq (hints seq : List Nat) :
    NonogramSolver.resolveSequence hints seq =
      match NonogramSolver.validPatterns hints seq with
      | [] => none
      | first :: rest => some (rest.foldl NonogramSolver.intersectPattern first) := rfl

theorem resolveCells_length (hints seg : List Nat) :
    (SegmentWorker.resolveCells hints seg).length = seg.length := by
  unfold SegmentWorker.resolveCells
  simp

theorem resolveCells_getD {hints seg : List Nat} {i : Nat} (hi : i < seg.length) :
    (SegmentWorker.resolveCells hints seg).getD i 0 =
      if seg.getD i 0 ≠ 0 then seg.getD i 0
      else if SegmentWorker.checkMustBe hints seg i 2 = true ∧
          ¬SegmentWorker.checkMustBe hints seg i 1 = true then 2
      else if ¬SegmentWorker.checkMustBe hints seg i 2 = true ∧
          SegmentWorker.checkMustBe hints seg i 1 = true then 1
      else seg.getD i 0 := by
  unfold SegmentWorker.resolveCells
  rw [getD_mapIdx _ _ _ hi]
  by_cases h0 : seg.getD i 0 = 0
  · rw [h0]
    simp only [bne_self_eq_false, Bool.false_eq_true, if_false, ne_eq,
      not_true_eq_false, if_pos rfl]
    by_cases hF : SegmentWorker.checkMustBe hints seg i 2 = true <;>
      by_cases hE : SegmentWorker.checkMustBe hints seg i 1 = true <;>
        simp [hF, hE]
  · have hbne : (seg.getD i 0 != 0) = true := by simpa using h0
    rw [if_pos hbne, if_pos h0]

/-- When the line has a solution, the intersection of all valid patterns is
exactly the worker forced-cell result. -/
theorem sync_some_resolveCells {hints seg : List Nat} (hpos : ∀ x ∈ hints, 0 < x)
    (htri : triState seg) (hsol : ∃ a, LineSolution hints seg a) :
    NonogramSolver.resolveSequence hints seg =
      some (SegmentWorker.resolveCells hints seg) := by
  obtain ⟨a0, ha0⟩ := hsol
  have ha0mem : a0 ∈ NonogramSolver.validPatterns hints seg :=
    (validPatterns_iff hpos).mpr ha0
  cases hvp : NonogramSolver.validPatterns hints seg with
  | nil => rw [hvp] at ha0mem; simp at ha0mem
  | cons first rest =>
      have hsol_iff : ∀ c, LineSolution hints seg c ↔ (c = first ∨ c ∈ rest) := by
        intro c
        rw [← validPatterns_iff hpos, hvp, List.mem_cons]
      have hfirst : LineSolution hints seg first := (hsol_iff first).mpr (Or.inl rfl)
      have hflen : first.length = seg.length := hfirst.1
      rw [sync_resolve_eq, hvp]
      show some (rest.foldl NonogramSolver.intersectPattern first) =
        some (SegmentWorker.resolveCells hints seg)
      congr 1
      apply eq_of_getD
      · rw [foldl_intersect_length, hflen, resolveCells_length]
      · intro i hilen
        have hi : i < seg.length := by
          rw [foldl_intersect_length, hflen] at hilen
          exact hilen
        rw [foldl_intersect_getD rest first i (by omega)]
        rw [resolveCells_getD hi]
        by_cases h0 : seg.getD i 0 = 0
        · rw [if_neg (show ¬(seg.getD i 0 ≠ 0) from fun hne => hne h0)]
          have hbinat : ∀ c, LineSolution hints seg c → c.getD i 0 = 1 ∨ c.getD i 0 = 2 := by
            intro c hc
            exact hc.2.1 (c.getD i 0) (getD_mem (by rw [hc.1]; omega))
          by_cases hF : SegmentWorker.checkMustBe hints seg i 2 = true <;>
            by_cases hE : SegmentWorker.checkMustBe hints seg i 1 = true
          · -- both probes possible: disagreement, cell stays unknown
            rw [if_neg (show ¬(SegmentWorker.checkMustBe hints seg i 2 = true ∧
                ¬SegmentWorker.checkMustBe hints seg i 1 = true) from by tauto),
              if_neg (show ¬(¬SegmentWorker.checkMustBe hints seg i 2 = true ∧
                SegmentWorker.checkMustBe hints seg i 1 = true) from by tauto)]
            obtain ⟨a2, ha2, ha2i⟩ := (checkMustBe_iff hpos htri hi h0 (Or.inr rfl)).mp hF
            obtain ⟨a1, ha1, ha1i⟩ := (checkMustBe_iff hpos htri hi h0 (Or.inl rfl)).mp hE
            rw [if_neg ?hdisagree]
            case hdisagree =>
              intro hall
              rcases hbinat first hfirst with hf1 | hf2
              · rcases (hsol_iff a2).mp ha2 with rfl | hmem
                · omega
                · have := hall a2 hmem
                  omega
              · rcases (hsol_iff a1).mp ha1 with rfl | hmem
                · omega
                · have := hall a1 hmem
                  omega
            omega
          · -- must be filled
            rw [if_pos (show SegmentWorker.checkMustBe hints seg i 2 = true ∧
                ¬SegmentWorker.checkMustBe hints seg i 1 = true from ⟨hF, hE⟩)]
            have hall2 : ∀ c, LineSolution hints seg c → c.getD i 0 = 2 := by
              intro c hc
              rcases hbinat c hc with h1 | h2
              · exact absurd ((checkMustBe_iff hpos htri hi h0 (Or.inl rfl)).mpr
                  ⟨c, hc, h1⟩) hE
              · exact h2
            rw [if_pos ?hagree2]
            case hagree2 =>
              intro c hc
              rw [hall2 c ((hsol_iff c).mpr (Or.inr hc)), hall2 first hfirst]
            exact hall2 first hfirst
          · -- must be empty
            rw [if_neg (show ¬(SegmentWorker.checkMustBe hints seg i 2 = true ∧
                ¬SegmentWorker.checkMustBe hints seg i 1 = true) from by tauto),
              if_pos (show ¬SegmentWorker.checkMustBe hints seg i 2 = true ∧
                SegmentWorker.checkMustBe hints seg i 1 = true from ⟨hF, hE⟩)]
            have hall1 : ∀ c, LineSolution hints seg c → c.getD i 0 = 1 := by
              intro c hc
              rcases hbinat c hc with h1 | h2
              · exact h1
              · exact absurd ((checkMustBe_iff hpos htri hi h0 (Or.inr rfl)).mpr
                  ⟨c, hc, h2⟩) hF
            rw [if_pos ?hagree1]
            case hagree1 =>
              intro c hc
              rw [hall1 c ((hsol_iff c).mpr (Or.inr hc)), hall1 first hfirst]
            exact hall1 first hfirst
          · -- neither possible: contradicts the existence of a solution
            rcases hbinat first hfirst with hf1 | hf2
            · exact absurd ((checkMustBe_iff hpos htri hi h0 (Or.inl rfl)).mpr
                ⟨first, hfirst, hf1⟩) hE
            · exact absurd ((checkMustBe_iff hpos htri hi h0 (Or.inr rfl)).mpr
                ⟨first, hfirst, hf2⟩) hF
        · -- already determined cell: kept by both solvers
          rw [if_pos (show seg.getD i 0 ≠ 0 from h0)]
          have hagree : ∀ c, c ∈ NonogramSolver.validPatterns hints seg →
              c.getD i 0 = seg.getD i 0 := by
            intro c hc
            exact validPatterns_compat hc i hi h0
          rw [if_pos ?hagreeall]
          case hagreeall =>
            intro c hc
            rw [hagree c (by rw [hvp]; exact List.mem_cons_of_mem _ hc),
              hagree first (by rw [hvp]; exact List.mem_cons_self first rest)]
          exact hagree first (by rw [hvp]; exact List.mem_cons_self first rest)

/-! ## The worker line solver: outcome characterisation -/

theorem workerResolve_def (hints seg : List Nat) :
    SegmentWorker.resolveSequence hints seg =
      if SegmentWorker.getMinSpaceNeeded hints > seg.length ∨
          (seg.filter (fun c => c == 2)).length > hints.sum then
        .error "Segment not possible to solve"
      else if ¬(SegmentWorker.canPlaceHints hints seg 0 = true) then
        .error "Segment not possible to solve"
      else .ok (SegmentWorker.resolveCells hints seg) := by
  unfold SegmentWorker.resolveSequence
  by_cases hq : SegmentWorker.getMinSpaceNeeded hints > seg.length ∨
      (seg.filter (fun c => c == 2)).length > hints.sum
  · rw [if_pos hq]
    rw [if_pos ?hbool]
    case hbool =>
      rcases hq with hq | hq
      · simp [hq]
      · simp [hq]
  · rw [if_neg hq]
    push_neg at hq
    rw [if_neg ?hbool]
    case hbool =>
      simp
      omega
    by_cases hc : SegmentWorker.canPlaceHints hints seg 0 = true
    · rw [if_neg (by simpa using hc), if_neg (by simpa using hc)]
    · rw [if_pos (by simpa using hc), if_pos (by simpa using hc)]

/-- With a solution at hand, the worker line solver returns the forced-cell
refinement. -/
theorem worker_succeeds {hints seg : List Nat} (hpos : ∀ x ∈ hints, 0 < x)
    (htri : triState seg) (hsol : ∃ a, LineSolution hints seg a) :
    SegmentWorker.resolveSequence hints seg =
      .ok (SegmentWorker.resolveCells hints seg) := by
  obtain ⟨a, ha⟩ := hsol
  have h1 := lineSol_minSpace ha
  have h2 := lineSol_filled_le ha
  have hcan : SegmentWorker.canPlaceHints hints seg 0 = true :=
    (canPlaceHints_iff_lineSol hpos htri).mpr ⟨a, ha⟩
  rw [workerResolve_def]
  rw [if_neg (by omega)]
  rw [if_neg (by simpa using hcan)]

/-- Without a solution, the worker line solver throws. -/
theorem worker_fails {hints seg : List Nat} (hpos : ∀ x ∈ hints, 0 < x)
    (htri : triState seg) (hnosol : ¬∃ a, LineSolution hints seg a) :
    SegmentWorker.resolveSequence hints seg =
      .error "Segment not possible to solve" := by
  rw [workerResolve_def]
  by_cases hq : SegmentWorker.getMinSpaceNeeded hints > seg.length ∨
      (seg.filter (fun c => c == 2)).length > hints.sum
  · rw [if_pos hq]
  · rw [if_neg hq]
    have hcan : ¬SegmentWorker.canPlaceHints hints seg 0 = true := by
      intro hc
      exact hnosol ((canPlaceHints_iff_lineSol hpos htri).mp hc)
    rw [if_pos hcan]

/-! ## The synchronous line solver: refinement facts (no positivity needed) -/

theorem sync_some_parts {hints seq res : List Nat}
    (h : NonogramSolver.resolveSequence hints seq = some res) :
    res.length = seq.length ∧
    (∀ i, i < seq.length → seq.getD i 0 ≠ 0 → res.getD i 0 = seq.getD i 0) ∧
    (∀ i, i < seq.length → res.getD i 0 ≠ seq.getD i 0 →
      seq.getD i 0 = 0 ∧ (res.getD i 0 = 1 ∨ res.getD i 0 = 2)) := by
  rw [sync_resolve_eq] at h
  cases hvp : NonogramSolver.validPatterns hints seq with
  | nil => rw [hvp] at h; exact absurd h (by simp)
  | cons first rest =>
      rw [hvp] at h
      have hres : res = rest.foldl NonogramSolver.intersectPattern first :=
        (Option.some.inj h).symm
      have hfmem : first ∈ NonogramSolver.validPatterns hints seq := by
        rw [hvp]; exact List.mem_cons_self first rest
      have hflen : first.length = seq.length := validPatterns_length hfmem
      have hlen : res.length = seq.length := by
        rw [hres, foldl_intersect_length, hflen]
      refine ⟨hlen, ?_, ?_⟩
      · intro i hi hne
        rw [hres, foldl_intersect_getD rest first i (by omega)]
        have hagree : ∀ c, c ∈ NonogramSolver.validPatterns hints seq →
            c.getD i 0 = seq.getD i 0 := fun c hc => validPatterns_compat hc i hi hne
        rw [if_pos ?hall]
        case hall =>
          intro c hc
          rw [hagree c (by rw [hvp]; exact List.mem_cons_of_mem _ hc),
            hagree first hfmem]
        exact hagree first hfmem
      · intro i hi hneq
        have hseq0 : seq.getD i 0 = 0 := by
          by_contra hne
          exact hneq (by
            rw [hres, foldl_intersect_getD rest first i (by omega)]
            have hagree : ∀ c, c ∈ NonogramSolver.validPatterns hints seq →
                c.getD i 0 = seq.getD i 0 := fun c hc => validPatterns_compat hc i hi hne
            rw [if_pos ?hall2]
            case hall2 =>
              intro c hc
              rw [hagree c (by rw [hvp]; exact List.mem_cons_of_mem _ hc),
                hagree first hfmem]
            exact hagree first hfmem)
        refine ⟨hseq0, ?_⟩
        have hval : res.getD i 0 = first.getD i 0 ∨ res.getD i 0 = 0 := by
          rw [hres, foldl_intersect_getD rest first i (by omega)]
          split
          · exact Or.inl rfl
          · exact Or.inr rfl
        rcases hval with hv | hv
        · rw [hv]
          exact validPatterns_binary hfmem (first.getD i 0) (getD_mem (by omega))
        · rw [hv] at hneq
          rw [hseq0] at hneq
          exact absurd rfl hneq

/-- Per-index form of `triState`. -/
def triStateD (l : List Nat) : Prop :=
  ∀ x, l.getD x 0 = 0 ∨ l.getD x 0 = 1 ∨ l.getD x 0 = 2

theorem triStateD_to_triState {l : List Nat} (h : triStateD l) : triState l := by
  intro x hx
  obtain ⟨i, hi, hget⟩ := List.mem_iff_getElem.mp hx
  have := h i
  rw [List.getD_eq_getElem _ _ hi, hget] at this
  exact this

theorem sync_some_triStateD {hints seq res : List Nat} (htri : triStateD seq)
    (h : NonogramSolver.resolveSequence hints seq = some res) : triStateD res := by
  obtain ⟨hlen, _, hvals⟩ := sync_some_parts h
  intro x
  by_cases hx : x < seq.length
  · by_cases hne : res.getD x 0 = seq.getD x 0
    · rw [hne]; exact htri x
    · rcases (hvals x hx hne).2 with h1 | h2
      · exact Or.inr (Or.inl h1)
      · exact Or.inr (Or.inr h2)
  · rw [List.getD_eq_default _ _ (by omega)]
    exact Or.inl rfl

/-! ## Change flags -/

theorem lineChanged_iff {oldLine resolved : List Nat} :
    NonogramSolver.lineChanged oldLine resolved = true ↔
    ∃ x, x < resolved.length ∧ resolved.getD x 0 ≠ 0 ∧
      oldLine.getD x 0 ≠ resolved.getD x 0 := by
  unfold NonogramSolver.lineChanged
  rw [List.any_eq_true]
  constructor
  · rintro ⟨x, hx, hpred⟩
    rw [List.mem_range] at hx
    rw [Bool.and_eq_true, bne_iff_ne, bne_iff_ne] at hpred
    exact ⟨x, hx, hpred.1, hpred.2⟩
  · rintro ⟨x, hx, h1, h2⟩
    refine ⟨x, List.mem_range.mpr hx, ?_⟩
    rw [Bool.and_eq_true, bne_iff_ne, bne_iff_ne]
    exact ⟨h1, h2⟩

/-- An unchanged-flag line solve is the identity (given refinement facts). -/
theorem lineChanged_false_eq {oldLine resolved : List Nat}
    (hlen : resolved.length = oldLine.length)
    (hagree : ∀ i, i < oldLine.length → oldLine.getD i 0 ≠ 0 →
      resolved.getD i 0 = oldLine.getD i 0)
    (hch : NonogramSolver.lineChanged oldLine resolved = false) :
    resolved = oldLine := by
  apply eq_of_getD hlen
  intro i hi
  have hnc : ¬(resolved.getD i 0 ≠ 0 ∧ oldLine.getD i 0 ≠ resolved.getD i 0) := by
    intro ⟨h1, h2⟩
    have : NonogramSolver.lineChanged oldLine resolved = true :=
      lineChanged_iff.mpr ⟨i, hi, h1, h2⟩
    rw [this] at hch
    exact absurd hch (by simp)
  by_cases h0 : resolved.getD i 0 = 0
  · by_contra hne
    have : oldLine.getD i 0 ≠ 0 := by
      intro hc
      exact hne (by rw [h0, hc])
    have := hagree i (by omega) this
    rw [h0] at this
    exact hne (by rw [h0, ← this])
  · push_neg at hnc
    exact (hnc h0).symm

theorem writeLine_eq {oldLine resolved : List Nat}
    (hlen : resolved.length = oldLine.length) :
    NonogramSolver.writeLine oldLine resolved = resolved := by
  unfold NonogramSolver.writeLine
  rw [List.drop_eq_nil_of_le (by omega), List.append_nil]

/-! ## Grid relations -/

theorem getD_mem_gen {α : Type} {l : List α} {d : α} {i : Nat} (h : i < l.length) :
    l.getD i d ∈ l := by
  rw [List.getD_eq_getElem _ _ h]
  exact List.getElem_mem h

theorem eq_of_getD_gen {α : Type} {d : α} {s t : List α} (hlen : s.length = t.length)
    (h : ∀ i, i < s.length → s.getD i d = t.getD i d) : s = t := by
  apply List.ext_getElem hlen
  intro i h1 h2
  have := h i h1
  rwa [List.getD_eq_getElem _ _ h1, List.getD_eq_getElem _ _ h2] at this

/-- Monotone refinement between grids: same shape, and every determined
cell is preserved. -/
def gridRefines (g g' : List (List Nat)) : Prop :=
  g'.length = g.length ∧ ∀ y,
    ((g'.getD y []).length = (g.getD y []).length ∧
      ∀ x, (g.getD y []).getD x 0 ≠ 0 →
        (g'.getD y []).getD x 0 = (g.getD y []).getD x 0)

theorem gridRefines_refl (g : List (List Nat)) : gridRefines g g :=
  ⟨rfl, fun _ => ⟨rfl, fun _ _ => rfl⟩⟩

theorem gridRefines_trans {g1 g2 g3 : List (List Nat)}
    (h12 : gridRefines g1 g2) (h23 : gridRefines g2 g3) : gridRefines g1 g3 := by
  obtain ⟨hl12, hr12⟩ := h12
  obtain ⟨hl23, hr23⟩ := h23
  refine ⟨by omega, fun y => ⟨?_, ?_⟩⟩
  · rw [(hr23 y).1, (hr12 y).1]
  · intro x hne
    have h2 := (hr12 y).2 x hne
    have h3 := (hr23 y).2 x (by rw [h2]; exact hne)
    rw [h3, h2]

/-- Row-length regularity of a grid. -/
def gridRect (w : Nat) (g : List (List Nat)) : Prop :=
  ∀ y, y < g.length → (g.getD y []).length = w

/-- Tri-state regularity of a grid. -/
def gridTri (g : List (List Nat)) : Prop :=
  ∀ y, triStateD (g.getD y [])

/-! ## Row pass -/

theorem getD_mapIdx_gen {α : Type} (f : Nat → α → α) (l : List α) (d : α) {i : Nat}
    (h : i < l.length) : (l.mapIdx f).getD i d = f i (l.getD i d) := by
  rw [List.getD_eq_getElem _ _ (by simpa using h), List.getD_eq_getElem _ _ h]
  simp [List.getElem_mapIdx]

theorem getD_ne_zero_lt {l : List Nat} {x : Nat} (h : l.getD x 0 ≠ 0) : x < l.length := by
  by_contra hge
  rw [List.getD_eq_default _ _ (by omega)] at h
  exact h rfl

theorem rowPass_spec : ∀ (rh g g' : List (List Nat)) (ch : Bool),
    g.length = rh.length →
    NonogramSolver.rowPass rh g = some (g', ch) →
    gridRefines g g' ∧
    (ch = true → ∃ y x, (g.getD y []).getD x 0 = 0 ∧ (g'.getD y []).getD x 0 ≠ 0) ∧
    (ch = false → g' = g ∧ ∀ y, y < rh.length →
      NonogramSolver.resolveSequence (rh.getD y []) (g.getD y []) =
        some (g.getD y [])) := by
  intro rh
  induction rh with
  | nil =>
      intro g g' ch hlen hrp
      have hg : g = [] := List.length_eq_zero.mp (by simpa using hlen)
      subst hg
      rw [NonogramSolver.rowPass] at hrp
      obtain ⟨rfl, rfl⟩ : g' = [] ∧ ch = false := by
        have := Option.some.inj hrp
        exact ⟨(congrArg Prod.fst this).symm, (congrArg Prod.snd this).symm⟩
      refine ⟨gridRefines_refl [], by simp, fun _ => ⟨rfl, fun y hy => by simp at hy⟩⟩
  | cons rhHint rhRest ih =>
      intro g g' ch hlen hrp
      cases g with
      | nil => simp at hlen
      | cons row grest =>
          rw [NonogramSolver.rowPass] at hrp
          cases hres : NonogramSolver.resolveSequence rhHint row with
          | none => rw [hres] at hrp; exact absurd hrp (by simp)
          | some res =>
              rw [hres] at hrp
              cases hrest : NonogramSolver.rowPass rhRest grest with
              | none => rw [hrest] at hrp; exact absurd hrp (by simp)
              | some pr =>
                  obtain ⟨restG, restCh⟩ := pr
                  rw [hrest] at hrp
                  have hinj := Option.some.inj hrp
                  have hg' : g' = NonogramSolver.writeLine row res :: restG :=
                    (congrArg Prod.fst hinj).symm
                  have hch : ch = (NonogramSolver.lineChanged row res || restCh) :=
                    (congrArg Prod.snd hinj).symm
                  obtain ⟨hreslen, hagree, _⟩ := sync_some_parts hres
                  have hw : NonogramSolver.writeLine row res = res := writeLine_eq hreslen
                  rw [hw] at hg'
                  obtain ⟨hrefine, hwit, hfix⟩ :=
                    ih grest restG restCh (by simpa using hlen) hrest
                  subst hg'
                  refine ⟨?_, ?_, ?_⟩
                  · refine ⟨by simpa using hrefine.1, fun y => ?_⟩
                    cases y with
                    | zero =>
                        refine ⟨by simpa using hreslen, fun x hne => ?_⟩
                        simp only [List.getD_cons_zero] at hne ⊢
                        exact hagree x (getD_ne_zero_lt hne) hne
                    | succ y =>
                        have := hrefine.2 y
                        simpa using this
                  · intro hchT
                    rw [hchT] at hch
                    rcases Bool.or_eq_true _ _ ▸ hch.symm with hlc | hrc
                    · obtain ⟨x, hx, hne0, hneq⟩ := lineChanged_iff.mp hlc
                      have hrow0 : row.getD x 0 = 0 := by
                        by_contra hne
                        exact hneq (hagree x (by omega) hne).symm
                      exact ⟨0, x, by simpa using hrow0, by simpa using hne0⟩
                    · obtain ⟨y, x, h1, h2⟩ := hwit hrc
                      exact ⟨y + 1, x, by simpa using h1, by simpa using h2⟩
                  · intro hchF
                    rw [hchF] at hch
                    have hboth := Bool.or_eq_false_iff.mp hch.symm
                    have hreseq : res = row :=
                      lineChanged_false_eq hreslen hagree hboth.1
                    obtain ⟨hgeq, hfacts⟩ := hfix hboth.2
                    subst hreseq
                    subst hgeq
                    refine ⟨rfl, fun y hy => ?_⟩
                    cases y with
                    | zero => simpa using hres
                    | succ y =>
                        have := hfacts y (by simpa using hy)
                        simpa using this

/-! ## Column pass -/

theorem writeColumn_length (g : List (List Nat)) (x : Nat) (res : List Nat) :
    (NonogramSolver.writeColumn g x res).length = g.length := by
  unfold NonogramSolver.writeColumn
  simp

theorem writeColumn_getD (g : List (List Nat)) (x : Nat) (res : List Nat) (y : Nat) :
    (NonogramSolver.writeColumn g x res).getD y [] =
      if y < g.length ∧ y < res.length then (g.getD y []).set x (res.getD y 0)
      else g.getD y [] := by
  unfold NonogramSolver.writeColumn
  by_cases hy : y < g.length
  · rw [getD_mapIdx_gen _ _ _ hy]
    by_cases hyr : y < res.length
    · rw [if_pos hyr, if_pos ⟨hy, hyr⟩]
    · rw [if_neg hyr, if_neg (by tauto)]
  · rw [List.getD_eq_default _ _ (by simp; omega), List.getD_eq_default _ _ (by omega),
      if_neg (by tauto)]

theorem getColumn_length (g : List (List Nat)) (x : Nat) :
    (NonogramSolver.getColumn g x).length = g.length := by
  unfold NonogramSolver.getColumn
  simp

theorem getColumn_getD (g : List (List Nat)) (x y : Nat) :
    (NonogramSolver.getColumn g x).getD y 0 = (g.getD y []).getD x 0 := by
  unfold NonogramSolver.getColumn
  have h0 : (0 : Nat) = ([] : List Nat).getD x 0 := rfl
  by_cases hy : y < g.length
  · rw [List.getD_eq_getElem _ _ (by simpa using hy), List.getD_eq_getElem _ _ hy]
    simp
  · rw [List.getD_eq_default g [] (by omega)]
    rw [List.getD_eq_default (g.map fun row => row.getD x 0) 0 (by simp; omega)]
    exact h0

theorem set_getD_self (l : List Nat) (n : Nat) : l.set n (l.getD n 0) = l := by
  apply eq_of_getD (by simp)
  intro i hi
  rw [getD_set]
  split
  · rename_i hcond
    rw [hcond.1]
  · rfl

theorem writeColumn_self (g : List (List Nat)) (x : Nat) :
    NonogramSolver.writeColumn g x (NonogramSolver.getColumn g x) = g := by
  apply eq_of_getD_gen (d := ([] : List Nat)) (by rw [writeColumn_length])
  intro y hy
  have hy' : y < g.length := by rwa [writeColumn_length] at hy
  rw [writeColumn_getD, if_pos ⟨hy', by rwa [getColumn_length]⟩, getColumn_getD,
    set_getD_self]

theorem writeColumn_rect {w : Nat} {g : List (List Nat)} (hrect : gridRect w g)
    (x : Nat) (res : List Nat) : gridRect w (NonogramSolver.writeColumn g x res) := by
  intro y hy
  rw [writeColumn_length] at hy
  rw [writeColumn_getD]
  split
  · rw [List.length_set]
    exact hrect y hy
  · exact hrect y hy

theorem colPass_spec : ∀ (count : Nat) (chs g g' : List (List Nat)) (ch : Bool),
    count ≤ chs.length → gridRect chs.length g →
    NonogramSolver.colPass chs g count = some (g', ch) →
    gridRefines g g' ∧
    (ch = true → ∃ y x, (g.getD y []).getD x 0 = 0 ∧ (g'.getD y []).getD x 0 ≠ 0) ∧
    (ch = false → g' = g ∧ ∀ x, chs.length - count ≤ x → x < chs.length →
      NonogramSolver.resolveSequence (chs.getD x []) (NonogramSolver.getColumn g x) =
        some (NonogramSolver.getColumn g x)) := by
  intro count
  induction count with
  | zero =>
      intro chs g g' ch _ _ hcp
      rw [NonogramSolver.colPass] at hcp
      have hinj := Option.some.inj hcp
      have hg' : g' = g := (congrArg Prod.fst hinj).symm
      have hch : ch = false := (congrArg Prod.snd hinj).symm
      rw [hg', hch]
      exact ⟨gridRefines_refl g, by simp, fun _ => ⟨rfl, fun x hx1 hx2 => by omega⟩⟩
  | succ count ih =>
      intro chs g g' ch hcount hrect hcp
      rw [NonogramSolver.colPass] at hcp
      cases hres : NonogramSolver.resolveSequence (chs.getD (chs.length - (count + 1)) [])
          (NonogramSolver.getColumn g (chs.length - (count + 1))) with
      | none =>
          rw [hres] at hcp
          exact absurd hcp (by simp)
      | some res =>
          rw [hres] at hcp
          have hcp2 : (match NonogramSolver.colPass chs
              (NonogramSolver.writeColumn g (chs.length - (count + 1)) res) count with
            | none => (none : Option (List (List Nat) × Bool))
            | some (outGrid, restChanged) =>
                some (outGrid, NonogramSolver.lineChanged
                  (NonogramSolver.getColumn g (chs.length - (count + 1))) res ||
                    restChanged)) = some (g', ch) := hcp
          cases hrest : NonogramSolver.colPass chs
              (NonogramSolver.writeColumn g (chs.length - (count + 1)) res) count with
          | none => rw [hrest] at hcp2; exact absurd hcp2 (by simp)
          | some pr =>
              obtain ⟨outG, restCh⟩ := pr
              rw [hrest] at hcp2
              have hinj := Option.some.inj hcp2
              have hg' : g' = outG := (congrArg Prod.fst hinj).symm
              have hch : ch = (NonogramSolver.lineChanged
                  (NonogramSolver.getColumn g (chs.length - (count + 1))) res ||
                    restCh) := (congrArg Prod.snd hinj).symm
              rw [hg']
              obtain ⟨hreslen, hagree, _⟩ := sync_some_parts hres
              rw [getColumn_length] at hreslen
              have hx0lt : chs.length - (count + 1) < chs.length := by omega
              have hrefine1 : gridRefines g
                  (NonogramSolver.writeColumn g (chs.length - (count + 1)) res) := by
                refine ⟨by rw [writeColumn_length], fun y => ⟨?_, ?_⟩⟩
                · rw [writeColumn_getD]
                  split
                  · rw [List.length_set]
                  · rfl
                · intro xx hne
                  rw [writeColumn_getD]
                  split
                  · rename_i hcase
                    rw [getD_set]
                    split
                    · rename_i hset
                      have hcol : (NonogramSolver.getColumn g
                          (chs.length - (count + 1))).getD y 0 =
                          (g.getD y []).getD xx 0 := by
                        rw [getColumn_getD, hset.1]
                      have := hagree y (by rw [getColumn_length]; exact hcase.1)
                        (by rw [hcol]; exact hne)
                      rw [this, hcol]
                    · rfl
                  · rfl
              obtain ⟨hrefine2, hwit2, hfix2⟩ :=
                ih chs (NonogramSolver.writeColumn g (chs.length - (count + 1)) res)
                  outG restCh (by omega) (writeColumn_rect hrect _ res) hrest
              refine ⟨gridRefines_trans hrefine1 hrefine2, ?_, ?_⟩
              · intro hchT
                rw [hchT] at hch
                rcases Bool.or_eq_true _ _ ▸ hch.symm with hlc | hrc
                · obtain ⟨yy, hyy, hne0, hneq⟩ := lineChanged_iff.mp hlc
                  rw [hreslen] at hyy
                  have hcol0 : (NonogramSolver.getColumn g
                      (chs.length - (count + 1))).getD yy 0 = 0 := by
                    by_contra hne
                    exact hneq (hagree yy (by rw [getColumn_length]; omega) hne).symm
                  have hgcell : (g.getD yy []).getD (chs.length - (count + 1)) 0 = 0 := by
                    rw [← getColumn_getD]
                    exact hcol0
                  have hg1cell : ((NonogramSolver.writeColumn g
                      (chs.length - (count + 1)) res).getD yy []).getD
                        (chs.length - (count + 1)) 0 = res.getD yy 0 := by
                    rw [writeColumn_getD, if_pos ⟨hyy, by omega⟩, getD_set,
                      if_pos ⟨rfl, by rw [hrect yy hyy]; exact hx0lt⟩]
                  have houtcell : ((outG.getD yy []).getD (chs.length - (count + 1)) 0) =
                      res.getD yy 0 := by
                    have := (hrefine2.2 yy).2 (chs.length - (count + 1))
                      (by rw [hg1cell]; exact hne0)
                    rw [this, hg1cell]
                  exact ⟨yy, chs.length - (count + 1), hgcell, by rw [houtcell]; exact hne0⟩
                · obtain ⟨y, x, h1, h2⟩ := hwit2 hrc
                  refine ⟨y, x, ?_, h2⟩
                  by_contra hne
                  have hpres := (hrefine1.2 y).2 x hne
                  rw [h1] at hpres
                  exact hne hpres.symm
              · intro hchF
                rw [hchF] at hch
                have hboth := Bool.or_eq_false_iff.mp hch.symm
                have hreseq : res = NonogramSolver.getColumn g (chs.length - (count + 1)) :=
                  lineChanged_false_eq (by rw [hreslen, getColumn_length]) hagree hboth.1
                subst hreseq
                rw [writeColumn_self] at hrest hfix2
                obtain ⟨hgeq, hfacts⟩ := hfix2 hboth.2
                refine ⟨hgeq, fun x hx1 hx2 => ?_⟩
                by_cases hxeq : x = chs.length - (count + 1)
                · rw [hxeq]
                  exact hres
                · exact hfacts x (by omega) hx2

/-! ## Tri-state preservation -/

theorem triStateD_nil : triStateD [] := fun x => by
  rw [List.getD_eq_default _ _ (by simp)]
  exact Or.inl rfl

theorem triStateD_set {row : List Nat} (htri : triStateD row) {v : Nat}
    (hv : v = 0 ∨ v = 1 ∨ v = 2) (x : Nat) : triStateD (row.set x v) := by
  intro j
  rw [getD_set]
  split
  · exact hv
  · exact htri j

theorem getColumn_triStateD {g : List (List Nat)} (htri : gridTri g) (x : Nat) :
    triStateD (NonogramSolver.getColumn g x) := by
  intro y
  rw [getColumn_getD]
  exact htri y x

theorem rowPass_tri : ∀ (rh g g' : List (List Nat)) (ch : Bool), gridTri g →
    NonogramSolver.rowPass rh g = some (g', ch) → gridTri g' := by
  intro rh
  induction rh with
  | nil =>
      intro g g' ch htri hrp
      rw [NonogramSolver.rowPass] at hrp
      have h1 : g' = g := (congrArg Prod.fst (Option.some.inj hrp)).symm
      rw [h1]
      exact htri
  | cons rhHint rhRest ih =>
      intro g g' ch htri hrp
      cases g with
      | nil =>
          rw [NonogramSolver.rowPass] at hrp
          cases hres : NonogramSolver.resolveSequence rhHint [] with
          | none => rw [hres] at hrp; exact absurd hrp (by simp)
          | some res =>
              rw [hres] at hrp
              cases hrest : NonogramSolver.rowPass rhRest [] with
              | none => rw [hrest] at hrp; exact absurd hrp (by simp)
              | some pr =>
                  obtain ⟨restG, restCh⟩ := pr
                  rw [hrest] at hrp
                  have hinj := Option.some.inj hrp
                  have hg' : g' = NonogramSolver.writeLine [] res :: restG :=
                    (congrArg Prod.fst hinj).symm
                  have htri' : gridTri restG := ih [] restG restCh (fun y => by
                    rw [List.getD_eq_default _ _ (by simp)]; exact triStateD_nil) hrest
                  rw [hg']
                  intro y
                  cases y with
                  | zero =>
                      simp only [List.getD_cons_zero]
                      unfold NonogramSolver.writeLine
                      simp only [List.drop_nil, List.append_nil]
                      exact sync_some_triStateD triStateD_nil hres
                  | succ y =>
                      simp only [List.getD_cons_succ]
                      exact htri' y
      | cons row grest =>
          rw [NonogramSolver.rowPass] at hrp
          cases hres : NonogramSolver.resolveSequence rhHint row with
          | none => rw [hres] at hrp; exact absurd hrp (by simp)
          | some res =>
              rw [hres] at hrp
              cases hrest : NonogramSolver.rowPass rhRest grest with
              | none => rw [hrest] at hrp; exact absurd hrp (by simp)
              | some pr =>
                  obtain ⟨restG, restCh⟩ := pr
                  rw [hrest] at hrp
                  have hinj := Option.some.inj hrp
                  have hg' : g' = NonogramSolver.writeLine row res :: restG :=
                    (congrArg Prod.fst hinj).symm
                  have htrirow : triStateD row := by
                    have := htri 0
                    simpa using this
                  have htrirest : gridTri grest := fun y => by
                    have := htri (y + 1)
                    simpa using this
                  have htri' : gridTri restG := ih grest restG restCh htrirest hrest
                  rw [hg']
                  have hreslen : res.length = row.length := (sync_some_parts hres).1
                  rw [writeLine_eq hreslen]
                  intro y
                  cases y with
                  | zero =>
                      simp only [List.getD_cons_zero]
                      exact sync_some_triStateD htrirow hres
                  | succ y =>
                      simp only [List.getD_cons_succ]
                      exact htri' y

theorem colPass_tri : ∀ (count : Nat) (chs g g' : List (List Nat)) (ch : Bool),
    gridTri g → NonogramSolver.colPass chs g count = some (g', ch) → gridTri g' := by
  intro count
  induction count with
  | zero =>
      intro chs g g' ch htri hcp
      rw [NonogramSolver.colPass] at hcp
      have h1 : g' = g := (congrArg Prod.fst (Option.some.inj hcp)).symm
      rw [h1]
      exact htri
  | succ count ih =>
      intro chs g g' ch htri hcp
      rw [NonogramSolver.colPass] at hcp
      cases hres : NonogramSolver.resolveSequence (chs.getD (chs.length - (count + 1)) [])
          (NonogramSolver.getColumn g (chs.length - (count + 1))) with
      | none => rw [hres] at hcp; exact absurd hcp (by simp)
      | some res =>
          rw [hres] at hcp
          have hcp2 : (match NonogramSolver.colPass chs
              (NonogramSolver.writeColumn g (chs.length - (count + 1)) res) count with
            | none => (none : Option (List (List Nat) × Bool))
            | some (outGrid, restChanged) =>
                some (outGrid, NonogramSolver.lineChanged
                  (NonogramSolver.getColumn g (chs.length - (count + 1))) res ||
                    restChanged)) = some (g', ch) := hcp
          cases hrest : NonogramSolver.colPass chs
              (NonogramSolver.writeColumn g (chs.length - (count + 1)) res) count with
          | none => rw [hrest] at hcp2; exact absurd hcp2 (by simp)
          | some pr =>
              obtain ⟨outG, restCh⟩ := pr
              rw [hrest] at hcp2
              have hinj := Option.some.inj hcp2
              have hg' : g' = outG := (congrArg Prod.fst hinj).symm
              have hrestri : triStateD res :=
                sync_some_triStateD (getColumn_triStateD htri _) hres
              have htri1 : gridTri (NonogramSolver.writeColumn g
                  (chs.length - (count + 1)) res) := by
                intro y
                rw [writeColumn_getD]
                split
                · exact triStateD_set (htri y) (hrestri y) _
                · exact htri y
              rw [hg']
              exact ih chs _ outG restCh htri1 hrest

/-! ## One full iteration -/

theorem rect_of_refines {w : Nat} {g g' : List (List Nat)} (hrect : gridRect w g)
    (href : gridRefines g g') : gridRect w g' := by
  intro y hy
  rw [(href.2 y).1]
  exact hrect y (by rw [← href.1]; exact hy)

theorem iterStep_spec {rh chs g g' : List (List Nat)} {b : Bool}
    (hlen : g.length = rh.length) (hrect : gridRect chs.length g)
    (hstep : NonogramSolver.iterStep rh chs g = some (g', b)) :
    gridRefines g g' ∧
    (b = true → ∃ y x, (g.getD y []).getD x 0 = 0 ∧ (g'.getD y []).getD x 0 ≠ 0) ∧
    (b = false → g' = g ∧
      (∀ y, y < rh.length → NonogramSolver.resolveSequence (rh.getD y [])
        (g.getD y []) = some (g.getD y [])) ∧
      (∀ x, x < chs.length → NonogramSolver.resolveSequence (chs.getD x [])
        (NonogramSolver.getColumn g x) = some (NonogramSolver.getColumn g x))) := by
  unfold NonogramSolver.iterStep at hstep
  cases hrow : NonogramSolver.rowPass rh g with
  | none => rw [hrow] at hstep; exact absurd hstep (by simp)
  | some pr =>
      obtain ⟨ga, rch⟩ := pr
      rw [hrow] at hstep
      have hstep2 : (match NonogramSolver.colPass chs ga chs.length with
        | none => (none : Option (List (List Nat) × Bool))
        | some (gridAfterCols, colChanged) =>
            some (gridAfterCols, rch || colChanged)) = some (g', b) := hstep
      cases hcol : NonogramSolver.colPass chs ga chs.length with
      | none => rw [hcol] at hstep2; exact absurd hstep2 (by simp)
      | some pc =>
          obtain ⟨gc, cch⟩ := pc
          rw [hcol] at hstep2
          have hinj := Option.some.inj hstep2
          have hg' : g' = gc := (congrArg Prod.fst hinj).symm
          have hb : b = (rch || cch) := (congrArg Prod.snd hinj).symm
          obtain ⟨href1, hwit1, hfix1⟩ := rowPass_spec rh g ga rch hlen hrow
          obtain ⟨href2, hwit2, hfix2⟩ := colPass_spec chs.length chs ga gc cch
            (Nat.le_refl _) (rect_of_refines hrect href1) hcol
          subst hg'
          refine ⟨gridRefines_trans href1 href2, ?_, ?_⟩
          · intro hbT
            rw [hbT] at hb
            rcases Bool.or_eq_true _ _ ▸ hb.symm with hr | hc
            · obtain ⟨y, x, h1, h2⟩ := hwit1 hr
              refine ⟨y, x, h1, ?_⟩
              rw [(href2.2 y).2 x h2]
              exact h2
            · obtain ⟨y, x, h1, h2⟩ := hwit2 hc
              refine ⟨y, x, ?_, h2⟩
              by_contra hne
              have := (href1.2 y).2 x hne
              rw [h1] at this
              exact hne this.symm
          · intro hbF
            rw [hbF] at hb
            have hboth := Bool.or_eq_false_iff.mp hb.symm
            obtain ⟨hga, hrowfix⟩ := hfix1 hboth.1
            obtain ⟨hgc, hcolfix⟩ := hfix2 hboth.2
            subst hga
            subst hgc
            exact ⟨rfl, hrowfix, fun x hx => hcolfix x (by omega) hx⟩

theorem iterStep_tri {rh chs g g' : List (List Nat)} {b : Bool} (htri : gridTri g)
    (hstep : NonogramSolver.iterStep rh chs g = some (g', b)) : gridTri g' := by
  unfold NonogramSolver.iterStep at hstep
  cases hrow : NonogramSolver.rowPass rh g with
  | none => rw [hrow] at hstep; exact absurd hstep (by simp)
  | some pr =>
      obtain ⟨ga, rch⟩ := pr
      rw [hrow] at hstep
      have hstep2 : (match NonogramSolver.colPass chs ga chs.length with
        | none => (none : Option (List (List Nat) × Bool))
        | some (gridAfterCols, colChanged) =>
            some (gridAfterCols, rch || colChanged)) = some (g', b) := hstep
      cases hcol : NonogramSolver.colPass chs ga chs.length with
      | none => rw [hcol] at hstep2; exact absurd hstep2 (by simp)
      | some pc =>
          obtain ⟨gc, cch⟩ := pc
          rw [hcol] at hstep2
          have hg' : g' = gc := (congrArg Prod.fst (Option.some.inj hstep2)).symm
          rw [hg']
          exact colPass_tri chs.length chs ga gc cch (rowPass_tri rh g ga rch htri hrow) hcol

/-! ## Counting unknown cells -/

/-- Number of still-unknown cells of a grid. -/
def unknownsCount (g : List (List Nat)) : Nat :=
  (g.map (fun row => row.count 0)).sum

theorem unknowns_le_of_rows : ∀ {g g' : List (List Nat)}, g'.length = g.length →
    (∀ y, y < g.length → (g'.getD y []).count 0 ≤ (g.getD y []).count 0) →
    unknownsCount g' ≤ unknownsCount g := by
  intro g
  induction g with
  | nil =>
      intro g' hlen _
      have : g' = [] := List.length_eq_zero.mp (by simpa using hlen)
      subst this
      exact Nat.le_refl _
  | cons row grest ih =>
      intro g' hlen hrows
      cases g' with
      | nil => simp at hlen
      | cons row' grest' =>
          have h0 := hrows 0 (by simp)
          simp only [List.getD_cons_zero] at h0
          have htail : unknownsCount grest' ≤ unknownsCount grest := by
            apply ih (by simpa using hlen)
            intro y hy
            have := hrows (y + 1) (by simpa using Nat.succ_lt_succ hy)
            simpa using this
          unfold unknownsCount at htail ⊢
          simp only [List.map_cons, List.sum_cons]
          omega

theorem unknowns_lt_of_rows : ∀ {g g' : List (List Nat)}, g'.length = g.length →
    (∀ y, y < g.length → (g'.getD y []).count 0 ≤ (g.getD y []).count 0) →
    ∀ y0, y0 < g.length → (g'.getD y0 []).count 0 < (g.getD y0 []).count 0 →
    unknownsCount g' < unknownsCount g := by
  intro g
  induction g with
  | nil => intro g' _ _ y0 hy0; simp at hy0
  | cons row grest ih =>
      intro g' hlen hrows y0 hy0 hstrict
      cases g' with
      | nil => simp at hlen
      | cons row' grest' =>
          have h0 := hrows 0 (by simp)
          simp only [List.getD_cons_zero] at h0
          have hle : unknownsCount grest' ≤ unknownsCount grest := by
            apply unknowns_le_of_rows (by simpa using hlen)
            intro y hy
            have := hrows (y + 1) (by simpa using Nat.succ_lt_succ hy)
            simpa using this
          cases y0 with
          | zero =>
              simp only [List.getD_cons_zero] at hstrict
              unfold unknownsCount at hle ⊢
              simp only [List.map_cons, List.sum_cons]
              omega
          | succ y0 =>
              have hstrict' : unknownsCount grest' < unknownsCount grest := by
                apply ih (by simpa using hlen)
                · intro y hy
                  have := hrows (y + 1) (by simpa using Nat.succ_lt_succ hy)
                  simpa using this
                · simpa using hy0
                · simpa using hstrict
              unfold unknownsCount at hstrict' ⊢
              simp only [List.map_cons, List.sum_cons]
              omega

theorem row_count_le {row row' : List Nat} (hlen : row'.length = row.length)
    (hpres : ∀ x, row.getD x 0 ≠ 0 → row'.getD x 0 = row.getD x 0) :
    row'.count 0 ≤ row.count 0 := by
  apply count_le_of_pointwise hlen
  intro i _ h0
  by_contra hne
  have := hpres i hne
  rw [h0] at this
  exact hne this.symm

theorem refines_unknowns_le {g g' : List (List Nat)} (href : gridRefines g g') :
    unknownsCount g' ≤ unknownsCount g := by
  apply unknowns_le_of_rows href.1
  intro y _
  exact row_count_le (href.2 y).1 (href.2 y).2

theorem refines_unknowns_lt {g g' : List (List Nat)} (href : gridRefines g g')
    {y x : Nat} (h0 : (g.getD y []).getD x 0 = 0) (hne : (g'.getD y []).getD x 0 ≠ 0) :
    unknownsCount g' < unknownsCount g := by
  have hx : x < (g'.getD y []).length := getD_ne_zero_lt hne
  have hy : y < g'.length := by
    by_contra hge
    rw [List.getD_eq_default _ _ (by omega)] at hx
    simp at hx
  apply unknowns_lt_of_rows href.1
    (fun y _ => row_count_le (href.2 y).1 (href.2 y).2) y (by rw [← href.1]; exact hy)
  apply count_lt_of_pointwise ((href.2 y).1.symm) ?hpt x
    (by rw [(href.2 y).1] at hx; exact hx) h0 hne
  case hpt =>
    intro i _ hz
    by_contra hnz
    have := (href.2 y).2 i hnz
    rw [hz] at this
    exact hnz this.symm

theorem unknowns_initial (h w : Nat) :
    unknownsCount (NonogramSolver.initialGrid h w) = h * w := by
  unfold unknownsCount NonogramSolver.initialGrid
  simp [List.map_replicate, List.sum_replicate, List.count_replicate]

/-! ## The fixpoint loop -/

theorem initial_shape (h w : Nat) :
    (NonogramSolver.initialGrid h w).length = h ∧
      gridRect w (NonogramSolver.initialGrid h w) ∧
      gridTri (NonogramSolver.initialGrid h w) := by
  unfold NonogramSolver.initialGrid
  refine ⟨by simp, ?_, ?_⟩
  · intro y hy
    simp at hy
    rw [List.getD_eq_getElem _ _ (by simpa using hy)]
    simp
  · intro y
    by_cases hy : y < h
    · intro x
      rw [List.getD_eq_getElem (List.replicate h (List.replicate w 0)) []
        (by simpa using hy)]
      simp only [List.getElem_replicate]
      rw [getD_replicate]
      split
      · exact Or.inl rfl
      · exact Or.inl rfl
    · intro x
      rw [List.getD_eq_default (List.replicate h (List.replicate w 0)) []
        (by simpa using hy)]
      exact triStateD_nil x

theorem solveLoop_not_outOfFuel {rh chs : List (List Nat)} : ∀ (fuel : Nat)
    (g : List (List Nat)), g.length = rh.length → gridRect chs.length g →
    unknownsCount g < fuel →
    NonogramSolver.solveLoop rh chs fuel g ≠ .outOfFuel := by
  intro fuel
  induction fuel with
  | zero => intro g _ _ hcount; omega
  | succ fuel ih =>
      intro g hlen hrect hcount
      rw [NonogramSolver.solveLoop]
      cases hstep : NonogramSolver.iterStep rh chs g with
      | none => simp
      | some pr =>
          obtain ⟨g', b⟩ := pr
          obtain ⟨href, hwit, _⟩ := iterStep_spec hlen hrect hstep
          cases b with
          | true =>
              obtain ⟨y, x, h0, hne⟩ := hwit rfl
              have hlt : unknownsCount g' < unknownsCount g :=
                refines_unknowns_lt href h0 hne
              simp only [if_pos rfl]
              exact ih g' (by rw [href.1]; exact hlen) (rect_of_refines hrect href)
                (by omega)
          | false => simp

/-- The chosen fuel `height * width + 1` never runs out. -/
theorem solveRaw_not_outOfFuel (rh chs : List (List Nat)) :
    NonogramSolver.solveRaw rh chs ≠ .outOfFuel := by
  unfold NonogramSolver.solveRaw
  obtain ⟨hl, hr, _⟩ := initial_shape rh.length chs.length
  apply solveLoop_not_outOfFuel _ _ hl hr
  rw [unknowns_initial]
  omega

theorem solveLoop_done_spec {rh chs : List (List Nat)} : ∀ (fuel : Nat)
    (g gfin : List (List Nat)), g.length = rh.length → gridRect chs.length g →
    gridTri g →
    NonogramSolver.solveLoop rh chs fuel g = .done gfin →
    gridRefines g gfin ∧
    ∃ gp, gp.length = rh.length ∧ gridRect chs.length gp ∧ gridTri gp ∧
      NonogramSolver.iterStep rh chs gp = some (gfin, false) := by
  intro fuel
  induction fuel with
  | zero =>
      intro g gfin _ _ _ hloop
      rw [NonogramSolver.solveLoop] at hloop
      exact absurd hloop (by simp)
  | succ fuel ih =>
      intro g gfin hlen hrect htri hloop
      rw [NonogramSolver.solveLoop] at hloop
      cases hstep : NonogramSolver.iterStep rh chs g with
      | none => rw [hstep] at hloop; exact absurd hloop (by simp)
      | some pr =>
          obtain ⟨g', b⟩ := pr
          rw [hstep] at hloop
          obtain ⟨href, _, _⟩ := iterStep_spec hlen hrect hstep
          cases b with
          | true =>
              simp only [if_pos rfl] at hloop
              obtain ⟨href2, hex⟩ := ih g' gfin (by rw [href.1]; exact hlen)
                (rect_of_refines hrect href) (iterStep_tri htri hstep) hloop
              exact ⟨gridRefines_trans href href2, hex⟩
          | false =>
              simp only [Bool.false_eq_true, if_false] at hloop
              have hfin : gfin = g' := by
                have : NonogramSolver.LoopResult.done g' = .done gfin := hloop
                exact (NonogramSolver.LoopResult.done.inj this).symm
              subst hfin
              exact ⟨href, g, hlen, hrect, htri, hstep⟩

/-! ## Fully determined grids and the hint round-trip -/

theorem getD_map_gen {α β : Type} (f : α → β) {l : List α} {i : Nat}
    (hi : i < l.length) (d : α) (d2 : β) : (l.map f).getD i d2 = f (l.getD i d) := by
  rw [List.getD_eq_getElem _ _ (by simpa using hi), List.getD_eq_getElem _ _ hi]
  simp

theorem binary_of_getD {l : List Nat}
    (h : ∀ i, i < l.length → l.getD i 0 = 1 ∨ l.getD i 0 = 2) : binary l := by
  intro x hx
  obtain ⟨i, hi, hget⟩ := List.mem_iff_getElem.mp hx
  have := h i hi
  rw [List.getD_eq_getElem _ _ hi, hget] at this
  exact this

theorem hasUnknowns_false_cell {g : List (List Nat)}
    (h : AsyncSolver.hasUnknowns g = false) {y x : Nat} (hy : y < g.length)
    (hx : x < (g.getD y []).length) : (g.getD y []).getD x 0 ≠ 0 := by
  unfold AsyncSolver.hasUnknowns at h
  rw [List.any_eq_false] at h
  have hrow := h (g.getD y []) (getD_mem_gen hy)
  rw [Bool.not_eq_true, List.any_eq_false] at hrow
  have hcell := hrow ((g.getD y []).getD x 0) (getD_mem hx)
  simpa using hcell

/-- Any success of the synchronous line solver on a fully determined line
forces the line's block decomposition to be the hints. -/
theorem sync_some_blocks {hints seq res : List Nat} (hpos : ∀ x ∈ hints, 0 < x)
    (hbin : binary seq) (h : NonogramSolver.resolveSequence hints seq = some res) :
    blocksOf seq = hints := by
  rw [sync_resolve_eq] at h
  cases hvp : NonogramSolver.validPatterns hints seq with
  | nil => rw [hvp] at h; exact absurd h (by simp)
  | cons first rest =>
      have hfirst : LineSolution hints seq first := (validPatterns_iff hpos).mp
        (by rw [hvp]; exact List.mem_cons_self first rest)
      obtain ⟨hlen, hbf, hcompat, hblocks⟩ := hfirst
      have heq : first = seq := by
        apply eq_of_getD hlen
        intro i hi
        have hi2 : i < seq.length := hlen ▸ hi
        have hnz : seq.getD i 0 ≠ 0 := by
          rcases hbin (seq.getD i 0) (getD_mem hi2) with h1 | h2 <;> omega
        exact hcompat i hi2 hnz
      rw [← heq]
      exact hblocks

theorem formatGrid_getD {g : List (List Nat)} {y : Nat} (hy : y < g.length) :
    (NonogramSolver.formatGrid g).getD y [] =
      (g.getD y []).map (fun c => c == 2) := by
  unfold NonogramSolver.formatGrid
  exact getD_map_gen _ hy [] []

theorem format_column_eq {w : Nat} {g : List (List Nat)} (hrect : gridRect w g)
    {x : Nat} (hx : x < w) :
    (NonogramSolver.formatGrid g).map (fun row => row.getD x false) =
      (NonogramSolver.getColumn g x).map (fun c => c == 2) := by
  unfold NonogramSolver.formatGrid NonogramSolver.getColumn
  rw [List.map_map, List.map_map]
  apply List.map_congr_left
  intro row hrow
  obtain ⟨y, hy, hget⟩ := List.mem_iff_getElem.mp hrow
  have hlen : row.length = w := by
    have := hrect y hy
    rw [List.getD_eq_getElem _ _ hy, hget] at this
    exact this
  show (row.map (fun c => c == 2)).getD x false = (row.getD x 0 == 2)
  exact getD_map_gen _ (by omega) 0 false

/-! ## The worker line solver as a refinement -/

theorem worker_ok_eq {hints seg res : List Nat}
    (h : SegmentWorker.resolveSequence hints seg = .ok res) :
    res = SegmentWorker.resolveCells hints seg := by
  rw [workerResolve_def] at h
  by_cases h1 : SegmentWorker.getMinSpaceNeeded hints > seg.length ∨
      (seg.filter (fun c => c == 2)).length > hints.sum
  · rw [if_pos h1] at h
    exact absurd h (by simp)
  · rw [if_neg h1] at h
    by_cases h2 : ¬(SegmentWorker.canPlaceHints hints seg 0 = true)
    · rw [if_pos h2] at h
      exact absurd h (by simp)
    · rw [if_neg h2] at h
      exact (Except.ok.inj h).symm

theorem resolveCells_parts (hints seg : List Nat) :
    (SegmentWorker.resolveCells hints seg).length = seg.length ∧
    (∀ i, i < seg.length → seg.getD i 0 ≠ 0 →
      (SegmentWorker.resolveCells hints seg).getD i 0 = seg.getD i 0) ∧
    (∀ i, i < seg.length →
      (SegmentWorker.resolveCells hints seg).getD i 0 ≠ seg.getD i 0 →
      seg.getD i 0 = 0 ∧ ((SegmentWorker.resolveCells hints seg).getD i 0 = 1 ∨
        (SegmentWorker.resolveCells hints seg).getD i 0 = 2)) := by
  refine ⟨resolveCells_length hints seg, ?_, ?_⟩
  · intro i hi hnz
    rw [resolveCells_getD hi, if_pos hnz]
  · intro i hi hne
    rw [resolveCells_getD hi] at hne ⊢
    by_cases h0 : seg.getD i 0 = 0
    · rw [if_neg (show ¬(seg.getD i 0 ≠ 0) from fun hc => hc h0)] at hne ⊢
      refine ⟨h0, ?_⟩
      by_cases hF : SegmentWorker.checkMustBe hints seg i 2 = true <;>
        by_cases hE : SegmentWorker.checkMustBe hints seg i 1 = true
      · rw [if_neg (by tauto), if_neg (by tauto)] at hne
        exact absurd rfl hne
      · rw [if_pos ⟨hF, hE⟩] at hne ⊢
        exact Or.inr rfl
      · rw [if_neg (by tauto), if_pos ⟨hF, hE⟩] at hne ⊢
        exact Or.inl rfl
      · rw [if_neg (by tauto), if_neg (by tauto)] at hne
        exact absurd rfl hne
    · rw [if_pos h0] at hne
      exact absurd rfl hne

/-! ## The worker pool bound -/

theorem getAvailableWorker_spec {ws : List Bool} {maxW : Nat} {ws2 : List Bool}
    {i : Nat} (h : SegmentWorkerPool.getAvailableWorker ws maxW = some (ws2, i)) :
    (SegmentWorkerPool.findFreeWorker ws = some i ∧ ws2 = ws) ∨
    (SegmentWorkerPool.findFreeWorker ws = none ∧ ws.length < maxW ∧
      ws2 = ws ++ [false] ∧ i = ws.length) := by
  unfold SegmentWorkerPool.getAvailableWorker at h
  cases hf : SegmentWorkerPool.findFreeWorker ws with
  | some j =>
      rw [hf] at h
      have hinj := Option.some.inj h
      refine Or.inl ⟨?_, (congrArg Prod.fst hinj).symm⟩
      exact congrArg some (congrArg Prod.snd hinj)
  | none =>
      rw [hf] at h
      by_cases hlt : ws.length < maxW
      · rw [if_pos hlt] at h
        have hinj := Option.some.inj h
        exact Or.inr ⟨rfl, hlt, (congrArg Prod.fst hinj).symm,
          (congrArg Prod.snd hinj).symm⟩
      · rw [if_neg hlt] at h
        exact absurd h (by simp)

theorem getAvailableWorker_length {ws : List Bool} {maxW : Nat} {ws2 : List Bool}
    {i : Nat} (h : SegmentWorkerPool.getAvailableWorker ws maxW = some (ws2, i))
    (hle : ws.length ≤ maxW) : ws2.length ≤ maxW := by
  rcases getAvailableWorker_spec h with ⟨_, rfl⟩ | ⟨_, hlt, rfl, _⟩
  · exact hle
  · rw [List.length_append]
    simpa using hlt

theorem processQueue_inv (maxW : Nat) : ∀ (q : Nat) (ws : List Bool),
    ws.length ≤ maxW →
    (SegmentWorkerPool.processQueue maxW ws q).workers.length ≤ maxW ∧
    (SegmentWorkerPool.processQueue maxW ws q).maxWorkers = maxW := by
  intro q
  induction q with
  | zero =>
      intro ws hle
      exact ⟨hle, rfl⟩
  | succ q ih =>
      intro ws hle
      rw [SegmentWorkerPool.processQueue]
      cases hg : SegmentWorkerPool.getAvailableWorker ws maxW with
      | none => exact ⟨hle, rfl⟩
      | some pr =>
          obtain ⟨ws2, i⟩ := pr
          apply ih (ws2.set i true)
          rw [List.length_set]
          exact getAvailableWorker_length hg hle

theorem poolStep_inv {maxW : Nat} {s : SegmentWorkerPool.PoolState}
    (hw : s.workers.length ≤ maxW) (hm : s.maxWorkers = maxW)
    (e : SegmentWorkerPool.PoolEvent) :
    (SegmentWorkerPool.step s e).workers.length ≤ maxW ∧
    (SegmentWorkerPool.step s e).maxWorkers = maxW := by
  cases e with
  | submit =>
      show (SegmentWorkerPool.submitTask s).workers.length ≤ maxW ∧
        (SegmentWorkerPool.submitTask s).maxWorkers = maxW
      unfold SegmentWorkerPool.submitTask SegmentWorkerPool.processNextTask
      rw [hm]
      exact processQueue_inv maxW _ _ hw
  | complete i =>
      show (SegmentWorkerPool.completeTask s i).workers.length ≤ maxW ∧
        (SegmentWorkerPool.completeTask s i).maxWorkers = maxW
      unfold SegmentWorkerPool.completeTask SegmentWorkerPool.processNextTask
      by_cases hi : i < s.workers.length
      · rw [if_pos hi]
        rw [hm]
        apply processQueue_inv
        rw [List.length_set]
        exact hw
      · rw [if_neg hi]
        exact ⟨hw, hm⟩

theorem foldl_step_inv (maxW : Nat) : ∀ (events : List SegmentWorkerPool.PoolEvent)
    (s : SegmentWorkerPool.PoolState), s.workers.length ≤ maxW →
    s.maxWorkers = maxW →
    (events.foldl SegmentWorkerPool.step s).workers.length ≤ maxW := by
  intro events
  induction events with
  | nil =>
      intro s hw _
      simpa using hw
  | cons e rest ih =>
      intro s hw hm
      rw [List.foldl_cons]
      obtain ⟨hw2, hm2⟩ := poolStep_inv hw hm e
      exact ih _ hw2 hm2

theorem run_workers_le (maxW : Nat) (events : List SegmentWorkerPool.PoolEvent) :
    (SegmentWorkerPool.run maxW events).workers.length ≤ maxW := by
  unfold SegmentWorkerPool.run SegmentWorkerPool.initPool
  exact foldl_step_inv maxW events _ (by simp) rfl

/-! ## The asynchronous solver: shape invariance and the success round-trip -/

theorem binary_to_triState {l : List Nat} (hbin : binary l) : triState l := by
  intro x hx
  rcases hbin x hx with rfl | rfl
  · exact Or.inr (Or.inl rfl)
  · exact Or.inr (Or.inr rfl)

/-- A fully determined line with any solution at all realises the hints. -/
theorem lineSol_binary_blocks {hints row a : List Nat} (hbin : binary row)
    (hs : LineSolution hints row a) : blocksOf row = hints := by
  obtain ⟨hlen, hbina, hcompat, hblocks⟩ := hs
  have heq : a = row := by
    apply eq_of_getD hlen
    intro i hi
    have hi2 : i < row.length := hlen ▸ hi
    have hnz : row.getD i 0 ≠ 0 := by
      rcases hbin (row.getD i 0) (getD_mem hi2) with h1 | h2 <;> omega
    exact hcompat i hi2 hnz
  rw [← heq]
  exact hblocks

/-- A fully determined line accepted by the worker feasibility search
realises the hints. -/
theorem canPlace_binary_blocks {hints row : List Nat} (hpos : ∀ x ∈ hints, 0 < x)
    (hbin : binary row) (h : SegmentWorker.canPlaceHints hints row 0 = true) :
    blocksOf row = hints := by
  obtain ⟨a, ha⟩ := (canPlaceHints_iff_lineSol hpos (binary_to_triState hbin)).mp h
  exact lineSol_binary_blocks hbin ha

theorem worker_ok_canPlace {hints seg res : List Nat}
    (h : SegmentWorker.resolveSequence hints seg = .ok res) :
    SegmentWorker.canPlaceHints hints seg 0 = true := by
  rw [workerResolve_def] at h
  by_cases h1 : SegmentWorker.getMinSpaceNeeded hints > seg.length ∨
      (seg.filter (fun c => c == 2)).length > hints.sum
  · rw [if_pos h1] at h
    exact absurd h (by simp)
  · rw [if_neg h1] at h
    by_cases h2 : SegmentWorker.canPlaceHints hints seg 0 = true
    · exact h2
    · rw [if_pos h2] at h
      exact absurd h (by simp)

theorem resolveCells_triStateD {hints seg : List Nat} (htri : triStateD seg) :
    triStateD (SegmentWorker.resolveCells hints seg) := by
  intro x
  by_cases hx : x < seg.length
  · rw [resolveCells_getD hx]
    by_cases h0 : seg.getD x 0 ≠ 0
    · rw [if_pos h0]
      exact htri x
    · rw [if_neg h0]
      by_cases hF : SegmentWorker.checkMustBe hints seg x 2 = true ∧
          ¬SegmentWorker.checkMustBe hints seg x 1 = true
      · rw [if_pos hF]
        exact Or.inr (Or.inr rfl)
      · rw [if_neg hF]
        by_cases hE : ¬SegmentWorker.checkMustBe hints seg x 2 = true ∧
            SegmentWorker.checkMustBe hints seg x 1 = true
        · rw [if_pos hE]
          exact Or.inr (Or.inl rfl)
        · rw [if_neg hE]
          exact htri x
  · rw [List.getD_eq_default _ _ (by rw [resolveCells_length]; omega)]
    exact Or.inl rfl

theorem worker_ok_parts {hints seg res : List Nat} (htri : triStateD seg)
    (h : SegmentWorker.resolveSequence hints seg = .ok res) :
    res.length = seg.length ∧ triStateD res := by
  rw [worker_ok_eq h]
  exact ⟨resolveCells_length hints seg, resolveCells_triStateD htri⟩

/-- The in-order worker batch: one worker success per hint line, with `[]`
segments past the end of the grid. -/
theorem batch_spec : ∀ (hints segs out : List (List Nat)),
    AsyncSolver.batch hints segs = .ok out →
    out.length = hints.length ∧
    ∀ i, i < hints.length →
      SegmentWorker.resolveSequence (hints.getD i []) (segs.getD i []) =
        .ok (out.getD i []) := by
  intro hints
  induction hints with
  | nil =>
      intro segs out h
      rw [AsyncSolver.batch] at h
      have hout : out = [] := (Except.ok.inj h).symm
      subst hout
      exact ⟨rfl, fun i hi => absurd hi (by simp)⟩
  | cons hh rest ih =>
      intro segs out h
      cases segs with
      | nil =>
          rw [AsyncSolver.batch] at h
          cases hr : SegmentWorker.resolveSequence hh [] with
          | error e => rw [hr] at h; exact absurd h (by simp)
          | ok resolved =>
              rw [hr] at h
              cases hb : AsyncSolver.batch rest [] with
              | error e => rw [hb] at h; exact absurd h (by simp)
              | ok out' =>
                  rw [hb] at h
                  have hout : out = resolved :: out' := (Except.ok.inj h).symm
                  subst hout
                  obtain ⟨hlen, hall⟩ := ih [] out' hb
                  refine ⟨by simpa using hlen, ?_⟩
                  intro i hi
                  cases i with
                  | zero => exact hr
                  | succ i =>
                      have := hall i (by simpa using hi)
                      simpa using this
      | cons s srest =>
          rw [AsyncSolver.batch] at h
          cases hr : SegmentWorker.resolveSequence hh s with
          | error e => rw [hr] at h; exact absurd h (by simp)
          | ok resolved =>
              rw [hr] at h
              cases hb : AsyncSolver.batch rest srest with
              | error e => rw [hb] at h; exact absurd h (by simp)
              | ok out' =>
                  rw [hb] at h
                  have hout : out = resolved :: out' := (Except.ok.inj h).symm
                  subst hout
                  obtain ⟨hlen, hall⟩ := ih srest out' hb
                  refine ⟨by simpa using hlen, ?_⟩
                  intro i hi
                  cases i with
                  | zero => exact hr
                  | succ i =>
                      have := hall i (by simpa using hi)
                      simpa using this

/-- The merge loop keeps the grid height, takes each line from the old or
the new grid, and is the identity when its change flag is off. -/
theorem mergeLines_parts : ∀ (cur new out : List (List Nat)) (ch : Bool),
    AsyncSolver.mergeLines cur new = (out, ch) →
    out.length = cur.length ∧
    (∀ i, out.getD i [] = cur.getD i [] ∨ out.getD i [] = new.getD i []) ∧
    (ch = false → out = cur) := by
  intro cur
  induction cur with
  | nil =>
      intro new out ch h
      rw [AsyncSolver.mergeLines] at h
      have ho : [] = out := congrArg Prod.fst h
      have hc : false = ch := congrArg Prod.snd h
      subst ho
      subst hc
      exact ⟨rfl, fun i => Or.inl rfl, fun _ => rfl⟩
  | cons c rest ih =>
      intro new out ch h
      cases new with
      | nil =>
          rw [AsyncSolver.mergeLines] at h
          have h2 : (c :: (AsyncSolver.mergeLines rest []).1,
              (AsyncSolver.mergeLines rest []).2) = (out, ch) := h
          have ho : c :: (AsyncSolver.mergeLines rest []).1 = out :=
            congrArg Prod.fst h2
          have hc : (AsyncSolver.mergeLines rest []).2 = ch := congrArg Prod.snd h2
          subst ho
          subst hc
          obtain ⟨hlen, hpt, hid⟩ := ih [] (AsyncSolver.mergeLines rest []).1
            (AsyncSolver.mergeLines rest []).2 rfl
          refine ⟨by simp [hlen], ?_, ?_⟩
          · intro i
            cases i with
            | zero => exact Or.inl rfl
            | succ i =>
                simp only [List.getD_cons_succ]
                exact hpt i
          · intro hch
            rw [hid hch]
      | cons nl nrest =>
          rw [AsyncSolver.mergeLines] at h
          have h2 : (if AsyncSolver.isNewLineDifferent c nl = true then
                (nl :: (AsyncSolver.mergeLines rest nrest).1, true)
              else (c :: (AsyncSolver.mergeLines rest nrest).1,
                (AsyncSolver.mergeLines rest nrest).2)) = (out, ch) := h
          obtain ⟨hlen, hpt, hid⟩ := ih nrest (AsyncSolver.mergeLines rest nrest).1
            (AsyncSolver.mergeLines rest nrest).2 rfl
          by_cases hd : AsyncSolver.isNewLineDifferent c nl = true
          · rw [if_pos hd] at h2
            have ho : nl :: (AsyncSolver.mergeLines rest nrest).1 = out :=
              congrArg Prod.fst h2
            have hc : true = ch := congrArg Prod.snd h2
            subst ho
            subst hc
            refine ⟨by simp [hlen], ?_, ?_⟩
            · intro i
              cases i with
              | zero => exact Or.inr rfl
              | succ i =>
                  simp only [List.getD_cons_succ]
                  exact hpt i
            · intro hch
              exact absurd hch (by simp)
          · rw [if_neg hd] at h2
            have ho : c :: (AsyncSolver.mergeLines rest nrest).1 = out :=
              congrArg Prod.fst h2
            have hc : (AsyncSolver.mergeLines rest nrest).2 = ch := congrArg Prod.snd h2
            subst ho
            subst hc
            refine ⟨by simp [hlen], ?_, ?_⟩
            · intro i
              cases i with
              | zero => exact Or.inl rfl
              | succ i =>
                  simp only [List.getD_cons_succ]
                  exact hpt i
            · intro hch
              rw [hid hch]

theorem headD_eq_getD (g : List (List Nat)) : g.headD [] = g.getD 0 [] := by
  cases g <;> rfl

theorem transpose_length (g : List (List Nat)) :
    (AsyncSolver.transpose g).length = (g.headD []).length := by
  unfold AsyncSolver.transpose
  simp

/-- A row of the transposed grid is a column of the grid. -/
theorem transpose_getD {g : List (List Nat)} {x : Nat}
    (hx : x < (g.headD []).length) :
    (AsyncSolver.transpose g).getD x [] = NonogramSolver.getColumn g x := by
  unfold AsyncSolver.transpose NonogramSolver.getColumn
  rw [getD_map_gen _ (by simpa using hx) 0 []]
  rw [List.getD_eq_getElem _ _ (by simpa using hx)]
  simp

theorem transpose_shape {w : Nat} {g : List (List Nat)} (hrect : gridRect w g)
    {h : Nat} (hlen : g.length = h) (hh : 0 < h) :
    (AsyncSolver.transpose g).length = w ∧
    gridRect h (AsyncSolver.transpose g) := by
  have hw0 : (g.headD []).length = w := by
    rw [headD_eq_getD]
    exact hrect 0 (by omega)
  refine ⟨by rw [transpose_length, hw0], ?_⟩
  intro x hx
  rw [transpose_length, hw0] at hx
  rw [transpose_getD (by rw [hw0]; exact hx)]
  rw [getColumn_length, hlen]

theorem transpose_tri {g : List (List Nat)} (htri : gridTri g) :
    gridTri (AsyncSolver.transpose g) := by
  intro x
  by_cases hx : x < (g.headD []).length
  · rw [transpose_getD hx]
    exact getColumn_triStateD htri x
  · rw [List.getD_eq_default _ _ (by rw [transpose_length]; omega)]
    exact triStateD_nil

theorem transpose_transpose {w h : Nat} {g : List (List Nat)}
    (hrect : gridRect w g) (hlen : g.length = h) (hh : 0 < h) (hw : 0 < w) :
    AsyncSolver.transpose (AsyncSolver.transpose g) = g := by
  obtain ⟨htl, htr⟩ := transpose_shape hrect hlen hh
  obtain ⟨httl, _⟩ := transpose_shape htr htl hw
  apply eq_of_getD_gen (by rw [httl, hlen])
  intro y hy
  rw [httl] at hy
  have hhead : ((AsyncSolver.transpose g).headD []).length = h := by
    rw [headD_eq_getD]
    exact htr 0 (by omega)
  rw [transpose_getD (by rw [hhead]; exact hy)]
  apply eq_of_getD
  · rw [getColumn_length, htl, hrect y (by omega)]
  · intro x hx
    rw [getColumn_length, htl] at hx
    rw [getColumn_getD]
    have hheadg : (g.headD []).length = w := by
      rw [headD_eq_getD]
      exact hrect 0 (by omega)
    rw [transpose_getD (by rw [hheadg]; exact hx)]
    rw [getColumn_getD]

theorem iterate_eq_error (rh chs g : List (List Nat)) (e : String)
    (hb : AsyncSolver.batch rh g = .error e) :
    AsyncSolver.iterate rh chs g = .error () := by
  unfold AsyncSolver.iterate
  rw [hb]

theorem iterate_eq_ok (rh chs g pr : List (List Nat))
    (hb : AsyncSolver.batch rh g = .ok pr) :
    AsyncSolver.iterate rh chs g =
      match AsyncSolver.batch chs
          (AsyncSolver.transpose (AsyncSolver.mergeLines g pr).1) with
      | .error _ => .error ()
      | .ok pc =>
          .ok (AsyncSolver.transpose
              (AsyncSolver.mergeLines
                (AsyncSolver.transpose (AsyncSolver.mergeLines g pr).1) pc).1,
            (AsyncSolver.mergeLines g pr).2 ||
              (AsyncSolver.mergeLines
                (AsyncSolver.transpose (AsyncSolver.mergeLines g pr).1) pc).2) := by
  unfold AsyncSolver.iterate
  rw [hb]

theorem iterate_ok_parts {rh chs g g2 : List (List Nat)} {ch : Bool}
    (h : AsyncSolver.iterate rh chs g = .ok (g2, ch)) :
    ∃ pr pc, AsyncSolver.batch rh g = .ok pr ∧
      AsyncSolver.batch chs
        (AsyncSolver.transpose (AsyncSolver.mergeLines g pr).1) = .ok pc ∧
      g2 = AsyncSolver.transpose
        (AsyncSolver.mergeLines
          (AsyncSolver.transpose (AsyncSolver.mergeLines g pr).1) pc).1 ∧
      ch = ((AsyncSolver.mergeLines g pr).2 ||
        (AsyncSolver.mergeLines
          (AsyncSolver.transpose (AsyncSolver.mergeLines g pr).1) pc).2) := by
  cases hb1 : AsyncSolver.batch rh g with
  | error e =>
      rw [iterate_eq_error rh chs g e hb1] at h
      exact absurd h (by simp)
  | ok pr =>
      rw [iterate_eq_ok rh chs g pr hb1] at h
      cases hb2 : AsyncSolver.batch chs
          (AsyncSolver.transpose (AsyncSolver.mergeLines g pr).1) with
      | error e =>
          rw [hb2] at h
          exact absurd h (by simp)
      | ok pc =>
          rw [hb2] at h
          have hinj := Except.ok.inj h
          exact ⟨pr, pc, rfl, hb2, (congrArg Prod.fst hinj).symm,
            (congrArg Prod.snd hinj).symm⟩

theorem batch_rows_facts {hints segs out : List (List Nat)}
    (hb : AsyncSolver.batch hints segs = .ok out) (htri : gridTri segs) :
    out.length = hints.length ∧
    (∀ i, i < hints.length → (out.getD i []).length = (segs.getD i []).length) ∧
    (∀ i, triStateD (out.getD i [])) := by
  obtain ⟨hlen, hall⟩ := batch_spec hints segs out hb
  refine ⟨hlen, ?_, ?_⟩
  · intro i hi
    exact (worker_ok_parts (htri i) (hall i hi)).1
  · intro i
    by_cases hi : i < hints.length
    · exact (worker_ok_parts (htri i) (hall i hi)).2
    · rw [List.getD_eq_default _ _ (by omega)]
      exact triStateD_nil

theorem merged_shape {cur new out : List (List Nat)} {ch : Bool} {w : Nat}
    (hm : AsyncSolver.mergeLines cur new = (out, ch))
    (hrect : gridRect w cur) (htri : gridTri cur)
    (hnew_len : ∀ i, i < cur.length → (new.getD i []).length = (cur.getD i []).length)
    (hnew_tri : ∀ i, triStateD (new.getD i [])) :
    out.length = cur.length ∧ gridRect w out ∧ gridTri out := by
  obtain ⟨hlen, hpt, _⟩ := mergeLines_parts cur new out ch hm
  refine ⟨hlen, ?_, ?_⟩
  · intro y hy
    rw [hlen] at hy
    rcases hpt y with h1 | h2
    · rw [h1]
      exact hrect y hy
    · rw [h2, hnew_len y hy]
      exact hrect y hy
  · intro y
    rcases hpt y with h1 | h2
    · rw [h1]
      exact htri y
    · rw [h2]
      exact hnew_tri y

theorem iterate_shape {rh chs g g2 : List (List Nat)} {ch : Bool}
    (hh : 0 < rh.length) (hw : 0 < chs.length)
    (hlen : g.length = rh.length) (hrect : gridRect chs.length g)
    (htri : gridTri g)
    (hit : AsyncSolver.iterate rh chs g = .ok (g2, ch)) :
    g2.length = rh.length ∧ gridRect chs.length g2 ∧ gridTri g2 := by
  obtain ⟨pr, pc, hb1, hb2, hg2, _⟩ := iterate_ok_parts hit
  obtain ⟨_, hprlen, hprtri⟩ := batch_rows_facts hb1 htri
  obtain ⟨hgml, hgmr, hgmt⟩ := merged_shape rfl hrect htri
    (fun i hi => hprlen i (by omega)) hprtri
  obtain ⟨html, htmr⟩ := transpose_shape hgmr (hgml.trans hlen) hh
  have htmt := transpose_tri hgmt
  obtain ⟨_, hpclen, hpctri⟩ := batch_rows_facts hb2 htmt
  obtain ⟨hmcl, hmcr, hmct⟩ := merged_shape rfl htmr htmt
    (fun i hi => hpclen i (by rw [html] at hi; exact hi)) hpctri
  rw [hg2]
  obtain ⟨hfl, hfr⟩ := transpose_shape hmcr (hmcl.trans html) hw
  exact ⟨hfl, hfr, transpose_tri hmct⟩

/-- A changeless asynchronous iteration keeps the grid and certifies a
worker success on every row and every column. -/
theorem iterate_stall {rh chs g g2 : List (List Nat)} (hh : 0 < rh.length)
    (hw : 0 < chs.length) (hlen : g.length = rh.length)
    (hrect : gridRect chs.length g)
    (hit : AsyncSolver.iterate rh chs g = .ok (g2, false)) :
    g2 = g ∧
    (∀ y, y < rh.length → ∃ r,
      SegmentWorker.resolveSequence (rh.getD y []) (g.getD y []) = .ok r) ∧
    (∀ x, x < chs.length → ∃ r,
      SegmentWorker.resolveSequence (chs.getD x [])
        (NonogramSolver.getColumn g x) = .ok r) := by
  obtain ⟨pr, pc, hb1, hb2, hg2, hch⟩ := iterate_ok_parts hit
  have hflags := Bool.or_eq_false_iff.mp hch.symm
  have hgm : (AsyncSolver.mergeLines g pr).1 = g :=
    (mergeLines_parts g pr _ _ rfl).2.2 hflags.1
  rw [hgm] at hb2 hg2
  have hmc : (AsyncSolver.mergeLines (AsyncSolver.transpose g) pc).1 =
      AsyncSolver.transpose g :=
    (mergeLines_parts (AsyncSolver.transpose g) pc _ _ rfl).2.2
      (by rw [hgm] at hflags; exact hflags.2)
  rw [hmc] at hg2
  have hheadg : (g.headD []).length = chs.length := by
    rw [headD_eq_getD]
    exact hrect 0 (by omega)
  refine ⟨by rw [hg2]; exact transpose_transpose hrect hlen (by omega) hw, ?_, ?_⟩
  · intro y hy
    obtain ⟨_, hall⟩ := batch_spec rh g pr hb1
    exact ⟨pr.getD y [], hall y hy⟩
  · intro x hx
    obtain ⟨_, hall⟩ := batch_spec chs (AsyncSolver.transpose g) pc hb2
    have hres := hall x hx
    rw [transpose_getD (by rw [hheadg]; exact hx)] at hres
    exact ⟨pc.getD x [], hres⟩

/-- A successful run of the asynchronous loop ends in a fully determined
grid of the input shape on which every row and column passes the worker
feasibility search. -/
theorem asyncLoop_ok {rh chs : List (List Nat)} (hh : 0 < rh.length)
    (hw : 0 < chs.length) : ∀ (n : Nat) (g g1 : List (List Nat)),
    g.length = rh.length → gridRect chs.length g → gridTri g →
    AsyncSolver.loop rh chs n g = .ok (g1, false) →
    g1.length = rh.length ∧ gridRect chs.length g1 ∧ gridTri g1 ∧
    AsyncSolver.hasUnknowns g1 = false ∧
    (∀ y, y < rh.length →
      SegmentWorker.canPlaceHints (rh.getD y []) (g1.getD y []) 0 = true) ∧
    (∀ x, x < chs.length →
      SegmentWorker.canPlaceHints (chs.getD x [])
        (NonogramSolver.getColumn g1 x) 0 = true) := by
  intro n
  induction n with
  | zero =>
      intro g g1 hlen hrect htri hloop
      rw [AsyncSolver.loop] at hloop
      have hflag : true = false := congrArg Prod.snd (Except.ok.inj hloop)
      exact absurd hflag (by simp)
  | succ n ih =>
      intro g g1 hlen hrect htri hloop
      rw [AsyncSolver.loop] at hloop
      cases hit : AsyncSolver.iterate rh chs g with
      | error e =>
          rw [hit] at hloop
          exact absurd hloop (by simp)
      | ok p =>
          obtain ⟨g2, chg⟩ := p
          rw [hit] at hloop
          obtain ⟨hl2, hr2, ht2⟩ := iterate_shape hh hw hlen hrect htri hit
          cases chg with
          | true =>
              simp only [if_true] at hloop
              exact ih g2 g1 hl2 hr2 ht2 hloop
          | false =>
              simp only [Bool.false_eq_true, if_false] at hloop
              cases hu : AsyncSolver.hasUnknowns g2 with
              | true =>
                  rw [if_pos hu] at hloop
                  exact absurd hloop (by simp)
              | false =>
                  rw [if_neg (by rw [hu]; exact Bool.false_ne_true)] at hloop
                  have hg1 : g2 = g1 := congrArg Prod.fst (Except.ok.inj hloop)
                  obtain ⟨hgg, hrows, hcols⟩ := iterate_stall hh hw hlen hrect hit
                  subst hg1
                  refine ⟨hl2, hr2, ht2, hu, ?_, ?_⟩
                  · intro y hy
                    obtain ⟨r, hr⟩ := hrows y hy
                    rw [← hgg] at hr
                    exact worker_ok_canPlace hr
                  · intro x hx
                    obtain ⟨r, hr⟩ := hcols x hx
                    rw [← hgg] at hr
                    exact worker_ok_canPlace hr

theorem async_ok_parts {rh chs : List (List Nat)} {mi : Nat}
    {bg : List (List Bool)}
    (h : AsyncSolver.solveNonogram rh chs mi = .ok bg) :
    0 < rh.length ∧ 0 < chs.length ∧
    ∃ g1, AsyncSolver.loop rh chs mi
        (NonogramSolver.initialGrid rh.length chs.length) = .ok (g1, false) ∧
      bg = NonogramSolver.formatGrid g1 := by
  unfold AsyncSolver.solveNonogram at h
  by_cases hz : (rh.length == 0 || chs.length == 0) = true
  · rw [if_pos hz] at h
    exact absurd h (by simp)
  · rw [if_neg hz] at h
    rw [Bool.or_eq_true, beq_iff_eq, beq_iff_eq] at hz
    push_neg at hz
    cases hl : AsyncSolver.loop rh chs mi
        (NonogramSolver.initialGrid rh.length chs.length) with
    | error e =>
        rw [hl] at h
        exact absurd h (by simp)
    | ok p =>
        obtain ⟨g1, flag⟩ := p
        rw [hl] at h
        cases flag with
        | true => exact absurd h (by simp)
        | false =>
            exact ⟨by omega, by omega, g1, rfl, (Except.ok.inj h).symm⟩

/-- Every success of the asynchronous solver round-trips to the hints. -/
theorem async_round_trip {rh chs : List (List Nat)} {mi : Nat}
    {bg : List (List Bool)}
    (hposr : ∀ hint ∈ rh, ∀ x ∈ hint, 0 < x)
    (hposc : ∀ hint ∈ chs, ∀ x ∈ hint, 0 < x)
    (h : AsyncSolver.solveNonogram rh chs mi = .ok bg) :
    (∀ y, y < rh.length → blocksOfBool (bg.getD y []) = rh.getD y []) ∧
    (∀ x, x < chs.length →
      blocksOfBool (bg.map (fun row => row.getD x false)) = chs.getD x []) := by
  obtain ⟨hh, hw, g1, hloop, hbg⟩ := async_ok_parts h
  obtain ⟨hl0, hrect0, htri0⟩ := initial_shape rh.length chs.length
  obtain ⟨hl1, hr1, ht1, hu1, hrows, hcols⟩ :=
    asyncLoop_ok hh hw mi _ g1 hl0 hrect0 htri0 hloop
  subst hbg
  constructor
  · intro y hy
    have hylt : y < g1.length := by omega
    have hbin : binary (g1.getD y []) := by
      apply binary_of_getD
      intro i hi
      have hnz := hasUnknowns_false_cell hu1 hylt hi
      rcases ht1 y i with h0 | h1 | h2
      · exact absurd h0 hnz
      · exact Or.inl h1
      · exact Or.inr h2
    have hblocks := canPlace_binary_blocks (hposr _ (getD_mem_gen hy)) hbin
      (hrows y hy)
    rw [formatGrid_getD hylt, blocksOfBool_map]
    exact hblocks
  · intro x hx
    have hbin : binary (NonogramSolver.getColumn g1 x) := by
      apply binary_of_getD
      intro y hy2
      rw [getColumn_length] at hy2
      rw [getColumn_getD]
      have hrowlen : (g1.getD y []).length = chs.length := hr1 y hy2
      have hnz := hasUnknowns_false_cell hu1 hy2 (x := x) (by omega)
      rcases ht1 y x with h0 | h1 | h2
      · exact absurd h0 hnz
      · exact Or.inl h1
      · exact Or.inr h2
    have hblocks := canPlace_binary_blocks (hposc _ (getD_mem_gen hx)) hbin
      (hcols x hx)
    rw [format_column_eq hr1 hx, blocksOfBool_map]
    exact hblocks

/-- The synchronous fixpoint, when fully determined, round-trips to the
hints. -/
theorem sync_done_round_trip {rh chs gfin : List (List Nat)}
    (hposr : ∀ hint ∈ rh, ∀ x ∈ hint, 0 < x)
    (hposc : ∀ hint ∈ chs, ∀ x ∈ hint, 0 < x)
    (hdone : NonogramSolver.solveRaw rh chs = NonogramSolver.LoopResult.done gfin)
    (hfull : AsyncSolver.hasUnknowns gfin = false) :
    (∀ y, y < rh.length →
      blocksOfBool ((NonogramSolver.formatGrid gfin).getD y []) = rh.getD y []) ∧
    (∀ x, x < chs.length →
      blocksOfBool ((NonogramSolver.formatGrid gfin).map
        (fun row => row.getD x false)) = chs.getD x []) := by
  unfold NonogramSolver.solveRaw at hdone
  obtain ⟨hl0, hrect0, htri0⟩ := initial_shape rh.length chs.length
  obtain ⟨_, gp, hgplen, hgprect, hgptri, hstep⟩ :=
    solveLoop_done_spec _ _ gfin hl0 hrect0 htri0 hdone
  obtain ⟨_, _, hfix⟩ := iterStep_spec hgplen hgprect hstep
  obtain ⟨hfeq, hrows, hcols⟩ := hfix rfl
  subst hfeq
  constructor
  · intro y hy
    have hylt : y < gfin.length := by omega
    have hbin : binary (gfin.getD y []) := by
      apply binary_of_getD
      intro i hi
      have hnz := hasUnknowns_false_cell hfull hylt hi
      rcases hgptri y i with h0 | h1 | h2
      · exact absurd h0 hnz
      · exact Or.inl h1
      · exact Or.inr h2
    have hblocks := sync_some_blocks (hposr _ (getD_mem_gen hy)) hbin (hrows y hy)
    rw [formatGrid_getD hylt, blocksOfBool_map]
    exact hblocks
  · intro x hx
    have hbin : binary (NonogramSolver.getColumn gfin x) := by
      apply binary_of_getD
      intro y hy2
      rw [getColumn_length] at hy2
      rw [getColumn_getD]
      have hrowlen : (gfin.getD y []).length = chs.length := hgprect y hy2
      have hnz := hasUnknowns_false_cell hfull hy2 (x := x) (by omega)
      rcases hgptri y x with h0 | h1 | h2
      · exact absurd h0 hnz
      · exact Or.inl h1
      · exact Or.inr h2
    have hblocks := sync_some_blocks (hposc _ (getD_mem_gen hx)) hbin (hcols x hx)
    rw [format_column_eq hgprect hx, blocksOfBool_map]
    exact hblocks

/-! ## The claims -/

/-- Claim C1, corrected.  The spec declares the 1×3 puzzle with row hints
`[[3]]` and column hints `[[1],[1],[1]]` contradictorily over-determined, but
it is solvable (the single row of three filled cells realises every hint):
both solvers return the solution `[[true, true, true]]`, whose blocks
round-trip to the hints. -/
theorem C1_scenario2_solves :
    NonogramSolver.solveNonogram [[3]] [[1], [1], [1]] =
      NonogramSolver.SolverOutput.solutionFound [[true, true, true]] 1 3 ∧
    AsyncSolver.solveNonogram [[3]] [[1], [1], [1]] 100 =
      Except.ok [[true, true, true]] ∧
    blocksOfBool [true, true, true] = [3] ∧
    blocksOfBool [true] = [1] :=
  ⟨rfl, rfl, rfl, rfl⟩

/-- The claimed failure result does not happen on scenario 2: neither solver
reports the puzzle unsolvable. -/
theorem C1_counterexample :
    decide (NonogramSolver.solveNonogram [[3]] [[1], [1], [1]] =
      NonogramSolver.SolverOutput.noSolutionFound) = false ∧
    AsyncSolver.solveNonogram [[3]] [[1], [1], [1]] 100 =
      Except.ok [[true, true, true]] :=
  ⟨rfl, rfl⟩

/-- Claim C2, corrected.  The asynchronous solver does report `Unsolvable`
whenever a full iteration changes nothing while unknown cells remain; the
synchronous solver does not (see the counterexample). -/
theorem C2_async_stall_unsolvable (rh chs g g2 : List (List Nat)) (n : Nat)
    (hiter : AsyncSolver.iterate rh chs g = Except.ok (g2, false))
    (hunk : AsyncSolver.hasUnknowns g2 = true) :
    AsyncSolver.loop rh chs (n + 1) g =
      Except.error AsyncSolver.AsyncError.unsolvable := by
  rw [AsyncSolver.loop, hiter]
  simp [hunk]

/-- On the ambiguous 2×2 puzzle the first asynchronous iteration stalls with
unknowns left, and the loop reports `Unsolvable`. -/
theorem C2_stall_witness :
    AsyncSolver.iterate [[1], [1]] [[1], [1]] (NonogramSolver.initialGrid 2 2) =
      Except.ok (NonogramSolver.initialGrid 2 2, false) ∧
    AsyncSolver.hasUnknowns (NonogramSolver.initialGrid 2 2) = true ∧
    AsyncSolver.loop [[1], [1]] [[1], [1]] 1 (NonogramSolver.initialGrid 2 2) =
      Except.error AsyncSolver.AsyncError.unsolvable :=
  ⟨rfl, rfl, C2_async_stall_unsolvable [[1], [1]] [[1], [1]]
    (NonogramSolver.initialGrid 2 2) (NonogramSolver.initialGrid 2 2) 0 rfl rfl⟩

/-- On the same stalled 2×2 puzzle the synchronous solver returns a success
result (with the unknown cells formatted as `false`), so the claim fails
for it. -/
theorem C2_counterexample :
    NonogramSolver.iterStep [[1], [1]] [[1], [1]] (NonogramSolver.initialGrid 2 2) =
      some (NonogramSolver.initialGrid 2 2, false) ∧
    AsyncSolver.hasUnknowns (NonogramSolver.initialGrid 2 2) = true ∧
    NonogramSolver.solveNonogram [[1], [1]] [[1], [1]] =
      NonogramSolver.SolverOutput.solutionFound [[false, false], [false, false]] 2 2 :=
  ⟨rfl, rfl, rfl⟩

/-- Claim C3, confirmed.  Scenario 1: both solvers produce the documented
3×3 solution grid (the synchronous one with height 3 and width 3). -/
theorem C3_scenario1 :
    NonogramSolver.solveNonogram [[1, 1], [3], [1]] [[2], [1], [3]] =
      NonogramSolver.SolverOutput.solutionFound
        [[true, false, true], [true, true, true], [false, false, true]] 3 3 ∧
    AsyncSolver.solveNonogram [[1, 1], [3], [1]] [[2], [1], [3]] 100 =
      Except.ok [[true, false, true], [true, true, true], [false, false, true]] :=
  ⟨rfl, rfl⟩

/-- Claim C4, confirmed.  Both line solvers only refine: a successful solve
keeps the length, keeps every determined cell, and changes only unknown
cells, always to a determined value; consequently one full iteration of the
synchronous grid loop is a monotone refinement of the grid. -/
theorem C4_monotonicity :
    (∀ hints seg res, SegmentWorker.resolveSequence hints seg = Except.ok res →
      res.length = seg.length ∧
      (∀ i, i < seg.length → seg.getD i 0 ≠ 0 → res.getD i 0 = seg.getD i 0) ∧
      (∀ i, i < seg.length → res.getD i 0 ≠ seg.getD i 0 →
        seg.getD i 0 = 0 ∧ (res.getD i 0 = 1 ∨ res.getD i 0 = 2))) ∧
    (∀ hints seg res, NonogramSolver.resolveSequence hints seg = some res →
      res.length = seg.length ∧
      (∀ i, i < seg.length → seg.getD i 0 ≠ 0 → res.getD i 0 = seg.getD i 0) ∧
      (∀ i, i < seg.length → res.getD i 0 ≠ seg.getD i 0 →
        seg.getD i 0 = 0 ∧ (res.getD i 0 = 1 ∨ res.getD i 0 = 2))) ∧
    (∀ rh chs g g2 b, g.length = rh.length → gridRect chs.length g →
      NonogramSolver.iterStep rh chs g = some (g2, b) → gridRefines g g2) := by
  refine ⟨?_, ?_, ?_⟩
  · intro hints seg res h
    obtain ⟨hl, ha, hc⟩ := resolveCells_parts hints seg
    rw [worker_ok_eq h]
    exact ⟨hl, ha, hc⟩
  · intro hints seg res h
    exact sync_some_parts h
  · intro rh chs g g2 b hlen hrect hstep
    exact (iterStep_spec hlen hrect hstep).1

/-- Claim C5, corrected.  With positive hints the round-trip holds for every
success of the asynchronous solver (its successes are always fully
determined), and for every success of the synchronous solver whose grid is
fully determined.  Both extra hypotheses are necessary: the synchronous
solver can succeed on a stalled grid with unknown cells, and zero hints
never round-trip (see the counterexample). -/
theorem C5_round_trip :
    (∀ (rh chs : List (List Nat)) (mi : Nat) (bg : List (List Bool)),
      (∀ hint ∈ rh, ∀ x ∈ hint, 0 < x) → (∀ hint ∈ chs, ∀ x ∈ hint, 0 < x) →
      AsyncSolver.solveNonogram rh chs mi = Except.ok bg →
      (∀ y, y < rh.length → blocksOfBool (bg.getD y []) = rh.getD y []) ∧
      (∀ x, x < chs.length →
        blocksOfBool (bg.map (fun row => row.getD x false)) = chs.getD x [])) ∧
    (∀ (rh chs gfin : List (List Nat)),
      (∀ hint ∈ rh, ∀ x ∈ hint, 0 < x) → (∀ hint ∈ chs, ∀ x ∈ hint, 0 < x) →
      NonogramSolver.solveRaw rh chs = NonogramSolver.LoopResult.done gfin →
      AsyncSolver.hasUnknowns gfin = false →
      (∀ y, y < rh.length →
        blocksOfBool ((NonogramSolver.formatGrid gfin).getD y []) = rh.getD y []) ∧
      (∀ x, x < chs.length →
        blocksOfBool ((NonogramSolver.formatGrid gfin).map
          (fun row => row.getD x false)) = chs.getD x [])) := by
  constructor
  · intro rh chs mi bg hposr hposc h
    exact async_round_trip hposr hposc h
  · intro rh chs gfin hposr hposc hdone hfull
    exact sync_done_round_trip hposr hposc hdone hfull

/-- The round-trip at scenario 1: the asynchronous success and the fully
determined synchronous fixpoint both recover the first row hints. -/
theorem C5_witness :
    AsyncSolver.solveNonogram [[1, 1], [3], [1]] [[2], [1], [3]] 100 =
      Except.ok [[true, false, true], [true, true, true], [false, false, true]] ∧
    blocksOfBool [true, false, true] = [1, 1] ∧
    NonogramSolver.solveRaw [[1, 1], [3], [1]] [[2], [1], [3]] =
      NonogramSolver.LoopResult.done [[2, 1, 2], [2, 2, 2], [1, 1, 2]] ∧
    AsyncSolver.hasUnknowns [[2, 1, 2], [2, 2, 2], [1, 1, 2]] = false ∧
    blocksOfBool ((NonogramSolver.formatGrid
      [[2, 1, 2], [2, 2, 2], [1, 1, 2]]).getD 0 []) = [1, 1] :=
  ⟨rfl,
    (C5_round_trip.1 [[1, 1], [3], [1]] [[2], [1], [3]] 100
      [[true, false, true], [true, true, true], [false, false, true]]
      (by decide) (by decide) rfl).1 0 (by decide),
    rfl, rfl,
    (C5_round_trip.2 [[1, 1], [3], [1]] [[2], [1], [3]]
      [[2, 1, 2], [2, 2, 2], [1, 1, 2]] (by decide) (by decide) rfl rfl).1
      0 (by decide)⟩

/-- The unqualified claim fails twice: the ambiguous 2×2 puzzle gives the
synchronous solver a success whose first row recomputes to no blocks at all
although its hint is `[1]`, and a zero hint gives the asynchronous solver a
success whose row recomputes to no blocks although its hint is `[0]`. -/
theorem C5_counterexample :
    NonogramSolver.solveNonogram [[1], [1]] [[1], [1]] =
      NonogramSolver.SolverOutput.solutionFound [[false, false], [false, false]] 2 2 ∧
    decide (blocksOfBool [false, false] = [1]) = false ∧
    AsyncSolver.solveNonogram [[0]] [[0]] 100 = Except.ok [[false]] ∧
    decide (blocksOfBool [false] = [0]) = false :=
  ⟨rfl, rfl, rfl, rfl⟩

/-- Claim C6, confirmed.  When the whole-line feasibility check passes, every
unknown cell admits at least one of the two probes: the branch in which both
probes fail is unreachable. -/
theorem C6_probe_dichotomy (hints seg : List Nat) (i : Nat)
    (hfeas : SegmentWorker.canPlaceHints hints seg 0 = true)
    (hi : i < seg.length) (hu : seg.getD i 0 = 0) :
    SegmentWorker.checkMustBe hints seg i 2 = true ∨
    SegmentWorker.checkMustBe hints seg i 1 = true := by
  unfold SegmentWorker.checkMustBe
  exact forced_cell_dichotomy hints seg i hfeas

/-- The dichotomy at a concrete feasible line with an unknown cell. -/
theorem C6_witness :
    SegmentWorker.canPlaceHints [1] [0, 0] 0 = true ∧
    (0 : Nat) < [0, 0].length ∧ [0, 0].getD 0 0 = 0 ∧
    (SegmentWorker.checkMustBe [1] [0, 0] 0 2 = true ∨
      SegmentWorker.checkMustBe [1] [0, 0] 0 1 = true) :=
  ⟨rfl, by decide, rfl, C6_probe_dichotomy [1] [0, 0] 0 rfl (by decide) rfl⟩

/-- Claim C7, confirmed.  For positive hints and a tri-state line the two
line solvers agree: both fail, or both return the same refined line. -/
theorem C7_solver_agreement (hints seg : List Nat) (hpos : ∀ x ∈ hints, 0 < x)
    (htri : triState seg) :
    (NonogramSolver.resolveSequence hints seg = none ∧
      SegmentWorker.resolveSequence hints seg =
        Except.error "Segment not possible to solve") ∨
    (∃ res, NonogramSolver.resolveSequence hints seg = some res ∧
      SegmentWorker.resolveSequence hints seg = Except.ok res) := by
  by_cases hsol : ∃ a, LineSolution hints seg a
  · exact Or.inr ⟨SegmentWorker.resolveCells hints seg,
      sync_some_resolveCells hpos htri hsol, worker_succeeds hpos htri hsol⟩
  · refine Or.inl ⟨?_, worker_fails hpos htri hsol⟩
    rw [sync_resolve_eq, (validPatterns_nil_iff hpos).mpr hsol]

/-- The solver agreement at a concrete one-cell line. -/
theorem C7_witness :
    (NonogramSolver.resolveSequence [1] [0] = none ∧
      SegmentWorker.resolveSequence [1] [0] =
        Except.error "Segment not possible to solve") ∨
    (∃ res, NonogramSolver.resolveSequence [1] [0] = some res ∧
      SegmentWorker.resolveSequence [1] [0] = Except.ok res) :=
  C7_solver_agreement [1] [0] (by decide)
    (by intro x hx; rw [List.mem_singleton] at hx; subst hx; exact Or.inl rfl)

/-- Claim C8, confirmed.  When the minimum required space (sum of the hints
plus the gaps) exceeds the line length or the filled-cell count exceeds the
hint sum, the worker line solver fails immediately. -/
theorem C8_quick_reject (hints seg : List Nat)
    (h : SegmentWorker.getMinSpaceNeeded hints > seg.length ∨
      (seg.filter (fun c => c == 2)).length > hints.sum) :
    SegmentWorker.getMinSpaceNeeded hints = hints.sum + (hints.length - 1) ∧
    SegmentWorker.resolveSequence hints seg =
      Except.error "Segment not possible to solve" :=
  ⟨rfl, by rw [workerResolve_def, if_pos h]⟩

/-- The quick rejection on a line too short for its hints. -/
theorem C8_witness :
    (SegmentWorker.getMinSpaceNeeded [3] > [0, 0].length ∨
      ([0, 0].filter (fun c => c == 2)).length > [3].sum) ∧
    SegmentWorker.resolveSequence [3] [0, 0] =
      Except.error "Segment not possible to solve" :=
  ⟨Or.inl (by decide), (C8_quick_reject [3] [0, 0] (Or.inl (by decide))).2⟩

/-- Claim C9, confirmed.  The pool never holds more than `maxWorkers`
workers over any event sequence, and the worker list grows only when no
existing worker is idle and the list is below the maximum. -/
theorem C9_pool_bound :
    (∀ maxW events, (SegmentWorkerPool.run maxW events).workers.length ≤ maxW) ∧
    (∀ ws maxW ws2 i,
      SegmentWorkerPool.getAvailableWorker ws maxW = some (ws2, i) →
      ws2.length ≠ ws.length →
      SegmentWorkerPool.findFreeWorker ws = none ∧ ws.length < maxW ∧
        ws2 = ws ++ [false] ∧ i = ws.length) := by
  refine ⟨?_, ?_⟩
  · intro maxW events
    exact run_workers_le maxW events
  · intro ws maxW ws2 i h hne
    rcases getAvailableWorker_spec h with ⟨_, rfl⟩ | ⟨hf, hlt, rfl, hi⟩
    · exact absurd rfl hne
    · exact ⟨hf, hlt, rfl, hi⟩

/-- Claim C10, confirmed.  The synchronous loop terminates: every changing
iteration strictly decreases the number of unknown cells, so
`height * width + 1` rounds of fuel are never exhausted. -/
theorem C10_termination :
    (∀ rh chs, ∃ r, NonogramSolver.solveRaw rh chs = r ∧
      r ≠ NonogramSolver.LoopResult.outOfFuel) ∧
    (∀ rh chs g g2, g.length = rh.length → gridRect chs.length g →
      NonogramSolver.iterStep rh chs g = some (g2, true) →
      unknownsCount g2 < unknownsCount g) ∧
    (∀ rh chs fuel g, g.length = rh.length → gridRect chs.length g →
      unknownsCount g < fuel →
      NonogramSolver.solveLoop rh chs fuel g ≠
        NonogramSolver.LoopResult.outOfFuel) := by
  refine ⟨?_, ?_, ?_⟩
  · intro rh chs
    exact ⟨NonogramSolver.solveRaw rh chs, rfl, solveRaw_not_outOfFuel rh chs⟩
  · intro rh chs g g2 hlen hrect hstep
    obtain ⟨href, hwit, _⟩ := iterStep_spec hlen hrect hstep
    obtain ⟨y, x, h0, hne⟩ := hwit rfl
    exact refines_unknowns_lt href h0 hne
  · intro rh chs fuel g hlen hrect hcnt
    exact solveLoop_not_outOfFuel fuel g hlen hrect hcnt

end Spec